import Mathlib

/-! # Sequence-diagram converter (`src/converter.js`)

A shallow embedding of `parseMermaidSequence`, `generateDrawioXML` and
`convertMermaidToDrawio`, followed by theorems about them.  The renderer is
modelled in two layers: `documentCells` and `convertedCells` give the `mxCell`
elements the source writes, as records, and `generateDrawioXML` and
`convertMermaidToDrawio` give the returned string, the text of those cells
between the header and the footer.

Conventions of the embedding

* A JavaScript string is a `List Char` (`Str`).  The source only classifies
  characters (word character, white space, line terminator, a handful of
  literal ASCII characters), so the difference between UTF-16 code units and
  Unicode scalar values is not observable by the code modelled here.
* Regular expressions are matched by the backtracking combinators below
  (`litThen`, `plusThen`, `altThen`, `search`), which follow the ECMAScript
  matching order: leftmost start position first, greedy quantifiers that give
  characters back one at a time, alternatives from left to right.
* The loop objects of the parser are mutated through aliases (`currentLoop`,
  `loopStack`, `loops` hold references to the same objects), so the parser
  state carries an explicit heap of loop objects and references are heap
  indices.
* JavaScript numbers are integers here, extended by the infinities and NaN
  where the source can produce them (`Math.min()` of no arguments).
* Two things the source leaves to its environment are parameters: the number
  of arguments the engine accepts in one call (`maxArgs`, reached by the spread
  calls of the loop renderer) and the clock read for the header (`Clock`).
-/

namespace Converter

/-- JavaScript strings, as lists of characters. -/
abbrev Str := List Char

/-! ## String primitives -/

/-- The regular-expression class `\w`, that is `[A-Za-z0-9_]`. -/
def isWordChar (c : Char) : Bool :=
  let n := c.toNat
  (0x41 ≤ n && n ≤ 0x5A) || (0x61 ≤ n && n ≤ 0x7A) || (0x30 ≤ n && n ≤ 0x39) || n == 0x5F

/-- ECMAScript line terminators: LF, CR, U+2028, U+2029. -/
def isLineTerminator (c : Char) : Bool :=
  c.toNat == 0x0A || c.toNat == 0x0D || c.toNat == 0x2028 || c.toNat == 0x2029

/-- The regular-expression atom `.` (no `s` flag): anything but a line terminator. -/
def isDot (c : Char) : Bool :=
  !isLineTerminator c

/-- Characters removed by `String.prototype.trim`: ECMAScript white space and
line terminators. -/
def isJsWhitespace (c : Char) : Bool :=
  let n := c.toNat
  n == 0x09 || n == 0x0A || n == 0x0B || n == 0x0C || n == 0x0D || n == 0x20 ||
  n == 0xA0 || n == 0x1680 || (0x2000 ≤ n && n ≤ 0x200A) ||
  n == 0x2028 || n == 0x2029 || n == 0x202F || n == 0x205F || n == 0x3000 || n == 0xFEFF

/-- The call `s.split('\n')`: the segments between line feeds (always at least one). -/
def splitOn (sep : Char) : Str → List Str
  | [] => [[]]
  | c :: cs =>
    if c = sep then [] :: splitOn sep cs
    else
      match splitOn sep cs with
      | [] => [[c]]
      | seg :: segs => (c :: seg) :: segs

/-- The method `trimStart`. -/
def trimStart (s : Str) : Str :=
  s.dropWhile isJsWhitespace

/-- The method `trimEnd`. -/
def trimEnd (s : Str) : Str :=
  (s.reverse.dropWhile isJsWhitespace).reverse

/-- The method `String.prototype.trim`. -/
def trim (s : Str) : Str :=
  trimEnd (trimStart s)

/-- If `s` begins with `lit`, the rest of `s` after it. -/
def stripLit : Str → Str → Option Str
  | [], s => some s
  | _ :: _, [] => none
  | a :: as, c :: cs => if a = c then stripLit as cs else none

/-- The method `line.startsWith(lit)`. -/
def startsWith (lit s : Str) : Bool :=
  (stripLit lit s).isSome

/-- The method `line.includes(lit)`: `lit` occurs somewhere in the string. -/
def includes (lit : Str) : Str → Bool
  | [] => startsWith lit []
  | c :: cs => startsWith lit (c :: cs) || includes lit cs

/-! ## Backtracking regular-expression combinators -/

/-- A literal, then the continuation on what follows. -/
def litThen {α : Type} (lit : Str) (k : Str → Option α) (s : Str) : Option α :=
  match stripLit lit s with
  | some rest => k rest
  | none => none

/-- Greedy `p*` after `acc` has been consumed: take one more character when
possible, and fall back to stopping here when the continuation fails further on. -/
def starThen {α : Type} (p : Char → Bool) (k : Str → Str → Option α) : Str → Str → Option α
  | acc, [] => k acc []
  | acc, c :: cs =>
    if p c then
      match starThen p k (acc ++ [c]) cs with
      | some r => some r
      | none => k acc (c :: cs)
    else k acc (c :: cs)

/-- Greedy `(p+)`: the continuation receives the captured text and the rest. -/
def plusThen {α : Type} (p : Char → Bool) (k : Str → Str → Option α) : Str → Option α
  | [] => none
  | c :: cs => if p c then starThen p k [c] cs else none

/-- An alternation of literals `(a|b|...)`, tried from left to right; the
continuation receives the alternative that matched and the rest. -/
def altThen {α : Type} (k : Str → Str → Option α) (s : Str) : List Str → Option α
  | [] => none
  | a :: as =>
    match litThen a (k a) s with
    | some r => some r
    | none => altThen k s as

/-- The method `str.match(re)` for a regular expression without flags: the
pattern `m` is tried at every start position from the left, the first success
wins. -/
def search {α : Type} (m : Str → Option α) : Str → Option α
  | [] => m []
  | c :: cs =>
    match m (c :: cs) with
    | some r => some r
    | none => search m cs

/-! ## Data model -/

/-- An entry of `participants`: `{ id, label }`. -/
structure Participant where
  id : Str
  label : Str
  deriving DecidableEq, Repr

/-- An entry of `messages`: `{ from, to, text, style }`. -/
structure Message where
  from_ : Str
  to_ : Str
  text : Str
  style : Str
  deriving DecidableEq, Repr

/-- An entry of `notes`: `{ position, targets, text }`. -/
structure Note where
  position : Str
  targets : Str
  text : Str
  deriving DecidableEq, Repr

/-- A loop object `{ text, messages, startIndex }`; the property `endIndex` is
absent (`none`) until the loop is closed. -/
structure Loop where
  text : Str
  messages : List Message
  startIndex : Nat
  endIndex : Option Int
  deriving DecidableEq, Repr

/-- The value returned by `parseMermaidSequence`. -/
structure Model where
  participants : List Participant
  messages : List Message
  notes : List Note
  loops : List Loop
  deriving DecidableEq, Repr

/-! ## The regular expressions of the parser -/

/-- The pattern `/participant (\w+) as (.+)/` at one start position. -/
def participantAt (s : Str) : Option Participant :=
  litThen "participant ".toList
    (plusThen isWordChar fun id rest =>
      litThen " as ".toList
        (plusThen isDot fun label _ => some { id := id, label := label }) rest) s

/-- The call `line.match(/participant (\w+) as (.+)/)`. -/
def matchParticipant (line : Str) : Option Participant :=
  search participantAt line

/-- The pattern `/Note (over|right of|left of) (.+): (.+)/` at one start position. -/
def noteAt (s : Str) : Option Note :=
  litThen "Note ".toList
    (fun r => altThen
      (fun position rest =>
        litThen " ".toList
          (plusThen isDot fun targets rest2 =>
            litThen ": ".toList
              (plusThen isDot fun text _ =>
                some { position := position, targets := targets, text := text }) rest2) rest)
      r ["over".toList, "right of".toList, "left of".toList]) s

/-- The call `line.match(/Note (over|right of|left of) (.+): (.+)/)`. -/
def matchNote (line : Str) : Option Note :=
  search noteAt line

/-- The pattern `/loop (.+)/` at one start position. -/
def loopAt (s : Str) : Option Str :=
  litThen "loop ".toList (plusThen isDot fun text _ => some text) s

/-- The call `line.match(/loop (.+)/)`. -/
def matchLoop (line : Str) : Option Str :=
  search loopAt line

/-- The alternatives of the arrow group, in the order of the source. -/
def arrowTokens : List Str :=
  ["->>".toList, "-->>".toList, "->".toList, "-->".toList, "-)".toList, "-x".toList]

/-- The groups `from`, `arrow`, `to`, `text` of a message match. -/
structure MessageMatch where
  from_ : Str
  arrow : Str
  to_ : Str
  text : Str
  deriving DecidableEq, Repr

/-- The pattern `/(\w+)(->>|-->>|->|-->|-\)|-x)(\w+): (.+)/` at one start position. -/
def messageAt (s : Str) : Option MessageMatch :=
  plusThen isWordChar
    (fun from_ rest =>
      altThen
        (fun arrow rest2 =>
          plusThen isWordChar
            (fun to_ rest3 =>
              litThen ": ".toList
                (plusThen isDot fun text _ =>
                  some { from_ := from_, arrow := arrow, to_ := to_, text := text }) rest3) rest2)
        rest arrowTokens) s

/-- The call `line.match(/(\w+)(->>|-->>|->|-->|-\)|-x)(\w+): (.+)/)`. -/
def matchMessage (line : Str) : Option MessageMatch :=
  search messageAt line

/-- The style string built from the matched arrow (source lines 46-50). -/
def arrowStyle (arrow : Str) : Str :=
  let style := "html=1;verticalAlign=bottom;endArrow=".toList
  if arrow = "->>".toList then style ++ "block;curved=0;rounded=0;".toList
  else if arrow = "-->>".toList then style ++ "open;curved=0;rounded=0;dashed=1;".toList
  else if arrow = "->".toList then style ++ "block;curved=0;rounded=0;".toList
  else if arrow = "-->".toList then style ++ "open;curved=0;rounded=0;dashed=1;".toList
  else style

/-! ## The parser -/

/-- The local variables of `parseMermaidSequence` while the lines are processed.
Loop objects live in `heap`; `loops`, `currentLoop` and `loopStack` hold
references (heap indices), as the JavaScript variables hold object references.
An array grows at its end: `push x` is `++ [x]`, `pop` removes the last entry. -/
structure ParseState where
  participants : List Participant
  messages : List Message
  notes : List Note
  loops : List Nat
  currentLoop : Option Nat
  loopStack : List Nat
  heap : List Loop
  deriving DecidableEq, Repr

/-- The state before the first line (source lines 5-11). -/
def ParseState.init : ParseState :=
  { participants := [], messages := [], notes := [], loops := [],
    currentLoop := none, loopStack := [], heap := [] }

/-- Mutation of the loop object behind a reference. -/
def updateLoop (heap : List Loop) (ref : Nat) (f : Loop → Loop) : List Loop :=
  match heap[ref]? with
  | some o => heap.set ref (f o)
  | none => heap

/-- The body of `lines.forEach` (source lines 13-60) on one line. -/
def processLine (σ : ParseState) (line : Str) : ParseState :=
  if startsWith "participant ".toList line then
    match matchParticipant line with
    | some p => { σ with participants := σ.participants ++ [p] }
    | none => σ
  else if startsWith "Note ".toList line then
    match matchNote line with
    | some n => { σ with notes := σ.notes ++ [n] }
    | none => σ
  else if startsWith "loop ".toList line then
    match matchLoop line with
    | some text =>
      let ref := σ.heap.length
      { σ with
        heap := σ.heap ++
          [{ text := text, messages := [], startIndex := σ.messages.length, endIndex := none }]
        currentLoop := some ref
        loopStack := σ.loopStack ++ [ref] }
    | none => σ
  else if line = "end".toList then
    match σ.loopStack.getLast? with
    | some completedLoop =>
      let loopStack := σ.loopStack.dropLast
      { σ with
        loopStack := loopStack
        heap := updateLoop σ.heap completedLoop fun o =>
          { o with endIndex := some ((σ.messages.length : Int) - 1) }
        loops := σ.loops ++ [completedLoop]
        currentLoop := loopStack.getLast? }
    | none => σ
  else if includes "->>".toList line || includes "-->>".toList line ||
      includes "->".toList line || includes "-->".toList line then
    match matchMessage line with
    | some m =>
      let message : Message :=
        { from_ := m.from_, to_ := m.to_, text := m.text, style := arrowStyle m.arrow }
      match σ.currentLoop with
      | some ref =>
        { σ with
          messages := σ.messages ++ [message]
          heap := updateLoop σ.heap ref fun o => { o with messages := o.messages ++ [message] } }
      | none => { σ with messages := σ.messages ++ [message] }
    | none => σ
  else σ

/-- Source line 4: split at line feeds, trim every line, drop the empty ones. -/
def lines (mermaidCode : Str) : List Str :=
  ((splitOn '\n' mermaidCode).map trim).filter fun line => !line.isEmpty

/-- The state after the given lines have been processed from `σ`. -/
def runLines (σ : ParseState) (ls : List Str) : ParseState :=
  ls.foldl processLine σ

/-- The state of `parseMermaidSequence` after the last line. -/
def parseState (mermaidCode : Str) : ParseState :=
  runLines ParseState.init (lines mermaidCode)

/-- The returned object `{ participants, messages, notes, loops }`, with the
loop references resolved. -/
def ParseState.toModel (σ : ParseState) : Model :=
  { participants := σ.participants
    messages := σ.messages
    notes := σ.notes
    loops := σ.loops.filterMap fun ref => σ.heap[ref]? }

/-- The function `parseMermaidSequence` (source lines 3-63). -/
def parseMermaidSequence (mermaidCode : Str) : Model :=
  (parseState mermaidCode).toModel

/-! ## The renderer -/

/-- The JavaScript numbers the renderer can produce: integers, the two
infinities (`Math.min()` and `Math.max()` of no arguments) and NaN. -/
inductive JsNum where
  | num (v : Int)
  | posInf
  | negInf
  | nan
  deriving DecidableEq, Repr

/-- Addition of an integer constant. -/
def JsNum.addInt : JsNum → Int → JsNum
  | .num v, k => .num (v + k)
  | .posInf, _ => .posInf
  | .negInf, _ => .negInf
  | .nan, _ => .nan

/-- Subtraction of JavaScript numbers. -/
def JsNum.sub : JsNum → JsNum → JsNum
  | .num a, .num b => .num (a - b)
  | .num _, .posInf => .negInf
  | .num _, .negInf => .posInf
  | .posInf, .num _ => .posInf
  | .posInf, .negInf => .posInf
  | .negInf, .num _ => .negInf
  | .negInf, .posInf => .negInf
  | _, _ => .nan

/-- The least of the integer arguments of `Math.min`: `Infinity` for no argument. -/
def minOf : List Int → JsNum
  | [] => .posInf
  | x :: xs =>
    match minOf xs with
    | .num m => .num (min x m)
    | _ => .num x

/-- The greatest of the integer arguments of `Math.max`: `-Infinity` for no argument. -/
def maxOf : List Int → JsNum
  | [] => .negInf
  | x :: xs =>
    match maxOf xs with
    | .num m => .num (max x m)
    | _ => .num x

/-- The spread call `Math.min(...xs)`.  Every element of `xs` becomes an argument
of the call, and an engine accepts only so many arguments: with more than
`maxArgs` elements the call raises a `RangeError` (`none`).  The source fixes no
`maxArgs`; it is a property of the engine that runs it. -/
def mathMin (maxArgs : Nat) (xs : List Int) : Option JsNum :=
  if xs.length ≤ maxArgs then some (minOf xs) else none

/-- The spread call `Math.max(...xs)`, a `RangeError` (`none`) with more than
`maxArgs` elements. -/
def mathMax (maxArgs : Nat) (xs : List Int) : Option JsNum :=
  if xs.length ≤ maxArgs then some (maxOf xs) else none

/-- The `mxGeometry` child of a cell. -/
inductive Geometry where
  | none
  | box (x y width height : JsNum)
  | points (sourceX sourceY targetX targetY : JsNum)
  deriving DecidableEq, Repr

/-- One `mxCell` element of the generated document. -/
structure Cell where
  id : Str
  value : Option Str
  style : Option Str
  vertex : Bool
  edge : Bool
  parent : Option Str
  geometry : Geometry
  deriving DecidableEq, Repr

/-- Decimal text of an index, as template interpolation produces it. -/
def natToStr (n : Nat) : Str :=
  Nat.toDigits 10 n

/-- The constant `spacing`. -/
def spacing : Int := 180

/-- The call `participants.findIndex(p => p.id === id)`, counting from `index`;
`-1` when no participant has the id. -/
def findIndexFrom (id : Str) : List Participant → Nat → Int
  | [], _ => -1
  | p :: ps, index => if p.id = id then (index : Int) else findIndexFrom id ps (index + 1)

/-- The call `participants.findIndex(p => p.id === id)`. -/
def findIndex (participants : List Participant) (id : Str) : Int :=
  findIndexFrom id participants 0

/-- Style of a participant box. -/
def participantStyle : Str :=
  "rounded=0;whiteSpace=wrap;html=1;fillColor=#dae8fc;strokeColor=#6c8ebf;fontStyle=1;".toList

/-- Style of a lifeline. -/
def lifelineStyle : Str :=
  ("html=1;points=[];perimeter=orthogonalPerimeter;outlineConnect=0;targetShapes=umlLifeline;" ++
   "portConstraint=eastwest;newEdgeStyle=\x7b&quot;curved&quot;:0,&quot;rounded&quot;:0\x7d;" ++
   "dashed=1;dashPattern=8 8;strokeWidth=1;strokeColor=#666666;").toList

/-- Style of a loop frame. -/
def loopStyle : Str :=
  "rounded=1;whiteSpace=wrap;html=1;fillColor=#e1d5e7;strokeColor=#9673a6;fontStyle=1;".toList

/-- Style of a note box. -/
def noteStyle : Str :=
  "rounded=1;whiteSpace=wrap;html=1;fillColor=#fff2cc;strokeColor=#d6b656;fontStyle=0;".toList

/-- The two cells written with the document header (source lines 71-72). -/
def rootCells : List Cell :=
  [{ id := "0".toList, value := none, style := none, vertex := false, edge := false,
     parent := none, geometry := .none },
   { id := "1".toList, value := none, style := none, vertex := false, edge := false,
     parent := some "0".toList, geometry := .none }]

/-- The two cells of one participant at horizontal position `x` (source lines 80-88, `y = 20`). -/
def participantCells (p : Participant) (x : Int) : List Cell :=
  [{ id := p.id, value := some p.label, style := some participantStyle, vertex := true,
     edge := false, parent := some "1".toList,
     geometry := .box (.num x) (.num 20) (.num 100) (.num 50) },
   { id := p.id ++ "_lifeline".toList, value := none, style := some lifelineStyle, vertex := true,
     edge := false, parent := some "1".toList,
     geometry := .box (.num (x + 49)) (.num (20 + 60)) (.num 2) (.num 300) }]

/-- The loop `participants.forEach` (source lines 78-90), entered with the running `x`. -/
def renderParticipants : List Participant → Int → List Cell
  | [], _ => []
  | p :: ps, x => participantCells p x ++ renderParticipants ps (x + spacing)

/-- The loop `messages.forEach` (source lines 93-108), entered at `index` with the
running `msgY`; returns the cells and the final `msgY`. -/
def renderMessages (participants : List Participant) : List Message → Nat → Int → List Cell × Int
  | [], _, msgY => ([], msgY)
  | msg :: rest, index, msgY =>
    let fromIndex := findIndex participants msg.from_
    let toIndex := findIndex participants msg.to_
    if fromIndex ≠ -1 ∧ toIndex ≠ -1 then
      let fromX := 80 + fromIndex * spacing + 50
      let toX := 80 + toIndex * spacing + 50
      let cell : Cell :=
        { id := "msg".toList ++ natToStr (index + 2), value := some msg.text,
          style := some msg.style, vertex := false, edge := true, parent := some "1".toList,
          geometry := .points (.num fromX) (.num msgY) (.num toX) (.num msgY) }
      let r := renderMessages participants rest (index + 1) (msgY + 60)
      (cell :: r.1, r.2)
    else renderMessages participants rest (index + 1) msgY

/-- The body of `loops.forEach` (source lines 112-142) for one loop.  The result
is `none` when the source raises: the `TypeError` of reading `.from` or `.to` of
`undefined` (lines 120-121), or the `RangeError` of a spread call with more than
`maxArgs` arguments (lines 123 and 129). -/
def renderLoop (maxArgs : Nat) (participants : List Participant) (messages : List Message)
    (loop : Loop) (index : Nat) : Option (List Cell) :=
  match loop.endIndex with
  | none => some []
  | some endIndex =>
    if (loop.startIndex : Int) ≤ endIndex then
      let firstMsgIndex := loop.startIndex
      let lastMsgIndex := endIndex
      match messages[firstMsgIndex]?, messages[lastMsgIndex.toNat]? with
      | some _, some _ =>
        match
          mathMin maxArgs (loop.messages.map fun msg =>
            let fromIdx := findIndex participants msg.from_
            let toIdx := findIndex participants msg.to_
            min (80 + fromIdx * 180 + 30) (80 + toIdx * 180 + 30)),
          mathMax maxArgs (loop.messages.map fun msg =>
            let fromIdx := findIndex participants msg.from_
            let toIdx := findIndex participants msg.to_
            max (80 + fromIdx * 180 + 70) (80 + toIdx * 180 + 70)) with
        | some least, some greatest =>
          let leftX := least.addInt (-20)
          let rightX := greatest.addInt 20
          let topY : Int := 110 + firstMsgIndex * 60 - 30
          let bottomY : Int := 110 + (lastMsgIndex + 1) * 60 + 10
          some [{ id := "loop".toList ++ natToStr index, value := some loop.text,
                  style := some loopStyle, vertex := true, edge := false,
                  parent := some "1".toList,
                  geometry := .box leftX (.num topY) (rightX.sub leftX) (.num (bottomY - topY)) }]
        | _, _ => none
      | _, _ => none
    else some []

/-- The loop `loops.forEach` (source lines 111-143), entered at `index`. -/
def renderLoops (maxArgs : Nat) (participants : List Participant) (messages : List Message) :
    List Loop → Nat → Option (List Cell)
  | [], _ => some []
  | loop :: rest, index =>
    match renderLoop maxArgs participants messages loop index with
    | none => none
    | some cells =>
      match renderLoops maxArgs participants messages rest (index + 1) with
      | none => none
      | some more => some (cells ++ more)

/-- The pair `noteX`, `noteWidth` of a note (source lines 147-162); `none` when
`noteX` stays `undefined`. -/
def noteGeometry (participants : List Participant) (note : Note) : Option (Int × Int) :=
  if note.position = "over".toList then
    let targetIds := splitOn ',' note.targets
    let firstIndex := findIndex participants (trim (targetIds.headD []))
    let lastIndex := findIndex participants (trim (targetIds.getLastD []))
    if firstIndex ≠ -1 ∧ lastIndex ≠ -1 then
      some (80 + firstIndex * spacing, (lastIndex - firstIndex + 1) * spacing - 80)
    else none
  else if note.position = "right of".toList then
    let targetIndex := findIndex participants (trim note.targets)
    if targetIndex ≠ -1 then some (80 + targetIndex * spacing + 110, 150) else none
  else none

/-- The loop `notes.forEach` (source lines 146-170), entered at `index` with the
running `noteY`. -/
def renderNotes (participants : List Participant) : List Note → Nat → Int → List Cell
  | [], _, _ => []
  | note :: rest, index, noteY =>
    match noteGeometry participants note with
    | some (noteX, noteWidth) =>
      { id := "note".toList ++ natToStr index, value := some note.text, style := some noteStyle,
        vertex := true, edge := false, parent := some "1".toList,
        geometry := .box (.num noteX) (.num noteY) (.num noteWidth) (.num 40) } ::
        renderNotes participants rest (index + 1) (noteY + 60)
    | none => renderNotes participants rest (index + 1) noteY

/-- The `mxCell` elements that `generateDrawioXML` (source lines 65-179) writes,
in the order it writes them: the two of the header, then those of the four
loops.  The result is `none` when the source raises. -/
def documentCells (maxArgs : Nat) (participants : List Participant) (messages : List Message)
    (notes : List Note) (loops : List Loop) : Option (List Cell) :=
  let participantPart := renderParticipants participants 80
  let messagePart := renderMessages participants messages 0 110
  match renderLoops maxArgs participants messages loops 0 with
  | none => none
  | some loopPart =>
    let noteY := messagePart.2 + 20
    some (rootCells ++ participantPart ++ messagePart.1 ++ loopPart ++
      renderNotes participants notes 0 noteY)

/-- The `mxCell` elements that `convertMermaidToDrawio` writes for an input. -/
def convertedCells (maxArgs : Nat) (mermaidCode : Str) : Option (List Cell) :=
  let model := parseMermaidSequence mermaidCode
  documentCells maxArgs model.participants model.messages model.notes model.loops

/-! ## The text of the document -/

/-- Decimal text of an integer, as template interpolation produces it. -/
def intToStr (v : Int) : Str :=
  if v < 0 then '-' :: natToStr v.natAbs else natToStr v.natAbs

/-- Text of a number in a template.  The integers are printed in decimal: the
numbers the renderer computes stay below `10^21`, where JavaScript changes to
exponent notation, for every input a machine can hold. -/
def JsNum.toStr : JsNum → Str
  | .num v => intToStr v
  | .posInf => "Infinity".toList
  | .negInf => "-Infinity".toList
  | .nan => "NaN".toList

/-- What the two clock reads of the header give: the UTC fields that
`new Date().toISOString()` prints, and the milliseconds `Date.now()` returns. -/
structure Clock where
  year : Nat
  month : Nat
  day : Nat
  hours : Nat
  minutes : Nat
  seconds : Nat
  milliseconds : Nat
  now : Nat
  deriving DecidableEq, Repr

/-- Decimal text padded with zeros on the left to `width` digits. -/
def padZero (width n : Nat) : Str :=
  List.replicate (width - (natToStr n).length) '0' ++ natToStr n

/-- The method `toISOString`: `YYYY-MM-DDTHH:mm:ss.sssZ`, the year written
`+YYYYYY` beyond 9999. -/
def Clock.toISOString (c : Clock) : Str :=
  (if c.year ≤ 9999 then padZero 4 c.year else '+' :: padZero 6 c.year) ++
    '-' :: padZero 2 c.month ++ '-' :: padZero 2 c.day ++ 'T' :: padZero 2 c.hours ++
    ':' :: padZero 2 c.minutes ++ ':' :: padZero 2 c.seconds ++
    '.' :: padZero 3 c.milliseconds ++ ['Z']

/-- The text from `>` or `/>` of the start tag of a cell to its end (source lines
71-72, 81-83, 86-88, 100-105, 139-141, 165-167). -/
def Geometry.xml : Geometry → Str
  | .none => "/>".toList
  | .box x y width height =>
    ">\n          <mxGeometry x=\"".toList ++ x.toStr ++ "\" y=\"".toList ++ y.toStr ++
      "\" width=\"".toList ++ width.toStr ++ "\" height=\"".toList ++ height.toStr ++
      "\" as=\"geometry\"/>\n        </mxCell>".toList
  | .points sourceX sourceY targetX targetY =>
    ">\n          <mxGeometry relative=\"1\" as=\"geometry\">\n            <mxPoint x=\"".toList ++
      sourceX.toStr ++ "\" y=\"".toList ++ sourceY.toStr ++
      "\" as=\"sourcePoint\"/>\n            <mxPoint x=\"".toList ++
      targetX.toStr ++ "\" y=\"".toList ++ targetY.toStr ++
      "\" as=\"targetPoint\"/>\n          </mxGeometry>\n        </mxCell>".toList

/-- The attributes of the start tag of a cell that follow its id. -/
def Cell.attributes (c : Cell) : Str :=
  (match c.value with
   | some value => " value=\"".toList ++ (value ++ "\"".toList)
   | none => []) ++
    ((match c.style with
      | some style => " style=\"".toList ++ (style ++ "\"".toList)
      | none => []) ++
     ((if c.vertex then " vertex=\"1\"".toList else []) ++
      ((if c.edge then " edge=\"1\"".toList else []) ++
       (match c.parent with
        | some parent => " parent=\"".toList ++ (parent ++ "\"".toList)
        | none => []))))

/-- The text the source appends for one cell.  Ids, labels and texts are copied
between the quotes as they are: nothing is escaped. -/
def Cell.xml (c : Cell) : Str :=
  "\n        <mxCell id=\"".toList ++ (c.id ++ ('"' :: (c.attributes ++ c.geometry.xml)))

/-- The texts of the cells, one after the other. -/
def cellsXml : List Cell → Str
  | [] => []
  | c :: cs => c.xml ++ cellsXml cs

/-- The text before the first cell (source lines 66-70). -/
def xmlHeader (clock : Clock) : Str :=
  "<?xml version=\"1.0\" encoding=\"UTF-8\"?>\n<mxfile host=\"app.diagrams.net\" modified=\"".toList ++
    clock.toISOString ++
    "\" agent=\"Mermaid-Converter\" version=\"21.0.0\">\n  <diagram name=\"Sequence Diagram\" id=\"diagram_".toList ++
    natToStr clock.now ++
    ("\">\n    <mxGraphModel dx=\"1000\" dy=\"600\" grid=\"1\" gridSize=\"10\" guides=\"1\" " ++
     "tooltips=\"1\" connect=\"1\" arrows=\"1\" fold=\"1\" page=\"1\" pageScale=\"1\" " ++
     "pageWidth=\"800\" pageHeight=\"400\" math=\"0\" shadow=\"0\">\n      <root>").toList

/-- The text after the last cell (source lines 172-176). -/
def xmlFooter : Str :=
  "\n      </root>\n    </mxGraphModel>\n  </diagram>\n</mxfile>".toList

/-- The string `xml` when `generateDrawioXML` returns it, given the cells written. -/
def documentXml (clock : Clock) (cells : List Cell) : Str :=
  xmlHeader clock ++ cellsXml cells ++ xmlFooter

/-- The function `generateDrawioXML` (source lines 65-179): the returned string,
`none` when the source raises. -/
def generateDrawioXML (clock : Clock) (maxArgs : Nat) (participants : List Participant)
    (messages : List Message) (notes : List Note) (loops : List Loop) : Option Str :=
  (documentCells maxArgs participants messages notes loops).map (documentXml clock)

/-- The function `convertMermaidToDrawio` (source lines 181-184). -/
def convertMermaidToDrawio (clock : Clock) (maxArgs : Nat) (mermaidCode : Str) : Option Str :=
  let model := parseMermaidSequence mermaidCode
  generateDrawioXML clock maxArgs model.participants model.messages model.notes model.loops

/-! ## Specification vocabulary -/

/-- The state after the first `k` lines of the input have been processed. -/
def stateAt (mermaidCode : Str) (k : Nat) : ParseState :=
  runLines ParseState.init ((lines mermaidCode).take k)

/-- The start index of the loop object behind a reference (`0` for a dangling one). -/
def startOf (heap : List Loop) (ref : Nat) : Nat :=
  match heap[ref]? with
  | some o => o.startIndex
  | none => 0

/-- The effects one line can have on the parser state, one constructor per
branch of the body of `lines.forEach`. -/
inductive Step (σ : ParseState) : ParseState → Prop where
  | skip : Step σ σ
  | participant (p : Participant) :
      Step σ { σ with participants := σ.participants ++ [p] }
  | note (n : Note) :
      Step σ { σ with notes := σ.notes ++ [n] }
  | loopOpen (text : Str) :
      Step σ { σ with
        heap := σ.heap ++
          [{ text := text, messages := [], startIndex := σ.messages.length, endIndex := none }]
        currentLoop := some σ.heap.length
        loopStack := σ.loopStack ++ [σ.heap.length] }
  | loopClose (ref : Nat) (h : σ.loopStack.getLast? = some ref) :
      Step σ { σ with
        loopStack := σ.loopStack.dropLast
        heap := updateLoop σ.heap ref fun o =>
          { o with endIndex := some ((σ.messages.length : Int) - 1) }
        loops := σ.loops ++ [ref]
        currentLoop := σ.loopStack.dropLast.getLast? }
  | messageInLoop (m : Message) (ref : Nat) (h : σ.currentLoop = some ref) :
      Step σ { σ with
        messages := σ.messages ++ [m]
        heap := updateLoop σ.heap ref fun o => { o with messages := o.messages ++ [m] } }
  | messageOutside (m : Message) (h : σ.currentLoop = none) :
      Step σ { σ with messages := σ.messages ++ [m] }

/-- The invariant of the parser loop: `currentLoop` aliases the top of the
stack, no loop object is referenced twice, closed loops carry a well-formed
range, open loops started within the messages seen so far, and the stack is
ordered by start index. -/
structure Inv (σ : ParseState) : Prop where
  current : σ.currentLoop = σ.loopStack.getLast?
  nodup : (σ.loopStack ++ σ.loops).Nodup
  closed : ∀ r ∈ σ.loops, ∃ o e, σ.heap[r]? = some o ∧ o.endIndex = some e ∧
    (o.startIndex : Int) ≤ e + 1 ∧ e + 1 ≤ (σ.messages.length : Int) ∧
    (o.messages.length : Int) ≤ e + 1 - o.startIndex
  opened : ∀ r ∈ σ.loopStack, ∃ o, σ.heap[r]? = some o ∧ o.endIndex = none ∧
    o.startIndex + o.messages.length ≤ σ.messages.length
  sorted : σ.loopStack.Pairwise fun a b => startOf σ.heap a ≤ startOf σ.heap b

/-- The text whose lines are the given ones: `ls.join('\n')`. -/
def joinLines : List Str → Str
  | [] => []
  | [l] => l
  | l :: l' :: ls => l ++ '\n' :: joinLines (l' :: ls)

/-- The participant a line declares: the line takes the `participant` branch and
its pattern matches. -/
def declaredParticipant (line : Str) : Option Participant :=
  if startsWith "participant ".toList line then matchParticipant line else none

/-- The participants declared by the lines of the input, in line order. -/
def declarations (mermaidCode : Str) : List Participant :=
  (lines mermaidCode).filterMap declaredParticipant

/-- No message is parsed while a loop opened inside the loop behind `ref` is
open: at every point of the run at which the loop is on the loop stack without
being its top, the next line adds no message. -/
def NoMessageInside (mermaidCode : Str) (ref : Nat) : Prop :=
  ∀ k ∈ List.range (lines mermaidCode).length,
    ref ∈ (stateAt mermaidCode k).loopStack →
      (stateAt mermaidCode k).loopStack.getLast? ≠ some ref →
        (stateAt mermaidCode (k + 1)).messages.length = (stateAt mermaidCode k).messages.length

instance (mermaidCode : Str) (ref : Nat) : Decidable (NoMessageInside mermaidCode ref) := by
  unfold NoMessageInside
  infer_instance

/-- How two loops stand to each other once the second was opened inside the
first: both open with the first deeper in the stack, or the inner one closed
within the messages seen so far, or both closed with the inner range inside the
outer one. -/
def Nested (σ : ParseState) (r1 r2 : Nat) : Prop :=
  (∃ a c, σ.loopStack = a ++ r2 :: c ∧ r1 ∈ a) ∨
  (r1 ∈ σ.loopStack ∧ r2 ∈ σ.loops ∧ ∃ o2 e2, σ.heap[r2]? = some o2 ∧ o2.endIndex = some e2 ∧
    startOf σ.heap r1 ≤ o2.startIndex ∧ e2 + 1 ≤ (σ.messages.length : Int)) ∨
  (r1 ∈ σ.loops ∧ r2 ∈ σ.loops ∧ ∃ o1 o2 e1 e2, σ.heap[r1]? = some o1 ∧ σ.heap[r2]? = some o2 ∧
    o1.endIndex = some e1 ∧ o2.endIndex = some e2 ∧ o1.startIndex ≤ o2.startIndex ∧ e2 ≤ e1)

/-- The bookkeeping of a loop all of whose range went to its own member list:
not created yet, or open and holding every message since it was opened, or
closed with as many members as its range has indices. -/
def MembersExact (σ : ParseState) (r : Nat) : Prop :=
  σ.heap.length ≤ r ∨
  (r ∈ σ.loopStack ∧ ∃ o, σ.heap[r]? = some o ∧
    o.startIndex + o.messages.length = σ.messages.length) ∨
  (r ∈ σ.loops ∧ ∃ o e, σ.heap[r]? = some o ∧ o.endIndex = some e ∧
    (o.messages.length : Int) = e - o.startIndex + 1)

/-- The id is the id of one of the participants. -/
def declared (participants : List Participant) (id : Str) : Bool :=
  participants.any fun p => p.id == id

/-- Both ends of the message are ids of participants. -/
def resolved (participants : List Participant) (m : Message) : Bool :=
  declared participants m.from_ && declared participants m.to_

/-- The message edge cells of a document: the cells written with `edge="1"`. -/
def edgeCells (cells : List Cell) : List Cell :=
  cells.filter fun c => c.edge

/-- The loop frame cells of a document: the cells written with the loop style. -/
def frameCells (cells : List Cell) : List Cell :=
  cells.filter fun c => c.style == some loopStyle

/-- The note cells of a document: the cells written with the note style. -/
def noteCells (cells : List Cell) : List Cell :=
  cells.filter fun c => c.style == some noteStyle

/-- The four primary arrow tokens. -/
def primaryArrows : List Str :=
  ["->>".toList, "-->>".toList, "->".toList, "-->".toList]

/-- An identifier: a non-empty run of word characters. -/
def isIdentifier (s : Str) : Bool :=
  !s.isEmpty && s.all isWordChar

/-- The line `F<arrow>T: t`. -/
def messageLine (F arrow T t : Str) : Str :=
  F ++ arrow ++ T ++ ": ".toList ++ t

/-- The attributes of a style string, which are separated by `;`. -/
def styleAttributes (style : Str) : List Str :=
  splitOn ';' style

/-- The `k`-th message edge `c` of a document, as C15 describes it: it belongs to the
`k`-th message `m` of the model with both ends declared; `i` and `j` are the
first positions of participants with the ids `m.from` and `m.to`; the header
boxes of these participants are the cells `2 + 2 * i` and `2 + 2 * j`, at
`x = 80 + 180 * i` and `x = 80 + 180 * j`, 100 wide; and the edge runs from the
centre of the one to the centre of the other at `y = 110 + 60 * k`. -/
def EdgeAt (model : Model) (cells : List Cell) (k : Nat) (c : Cell) : Prop :=
  ∃ (m : Message) (i j : Nat) (pf pt : Participant),
    (model.messages.filter (resolved model.participants))[k]? = some m ∧
    c.value = some m.text ∧
    model.participants[i]? = some pf ∧ pf.id = m.from_ ∧
    (∀ i' < i, ∀ q, model.participants[i']? = some q → q.id ≠ m.from_) ∧
    model.participants[j]? = some pt ∧ pt.id = m.to_ ∧
    (∀ j' < j, ∀ q, model.participants[j']? = some q → q.id ≠ m.to_) ∧
    (cells[2 + 2 * i]?).map (fun h => (h.id, h.geometry)) =
      some (m.from_, .box (.num (80 + 180 * i)) (.num 20) (.num 100) (.num 50)) ∧
    (cells[2 + 2 * j]?).map (fun h => (h.id, h.geometry)) =
      some (m.to_, .box (.num (80 + 180 * j)) (.num 20) (.num 100) (.num 50)) ∧
    c.geometry = .points (.num (80 + 180 * i + 50)) (.num (110 + 60 * k))
      (.num (80 + 180 * j + 50)) (.num (110 + 60 * k))

/-- A note cell is written for the note: `noteX` does not stay `undefined`. -/
def emitted (participants : List Participant) (note : Note) : Bool :=
  (noteGeometry participants note).isSome

/-- The `j`-th note cell `c` of a document, as C17 describes it: it belongs to the
`j`-th note `n` of the model among those a cell is written for, carries its
text, and lies at `y = 110 + 60 * E + 20 + 60 * j`, where `E` is the number of
message edges of the document. -/
def NoteAt (model : Model) (cells : List Cell) (j : Nat) (c : Cell) : Prop :=
  ∃ (n : Note) (x w : Int),
    (model.notes.filter (emitted model.participants))[j]? = some n ∧
    noteGeometry model.participants n = some (x, w) ∧
    c.value = some n.text ∧
    c.geometry = .box (.num x) (.num (110 + 60 * (edgeCells cells).length + 20 + 60 * j))
      (.num w) (.num 40)

/-- White space that can be added to a line without ending it: any character
`trim` removes except the line feed (spaces and tabs among them). -/
def isPadding (c : Char) : Bool :=
  isJsWhitespace c && c != '\n'

/-- The edits of C19 on the lines of a text: a line is given leading and trailing
padding (possibly none), and lines made of padding only (possibly empty) are
inserted anywhere. -/
inductive Padded : List Str → List Str → Prop where
  | nil : Padded [] []
  | pad (pre post l : Str) (ls ls' : List Str) (hpre : pre.all isPadding = true)
      (hpost : post.all isPadding = true) (hl : ∀ c ∈ l, c ≠ '\n') :
      Padded ls ls' → Padded (l :: ls) ((pre ++ l ++ post) :: ls')
  | blank (b : Str) (ls ls' : List Str) (hb : b.all isPadding = true) :
      Padded ls ls' → Padded ls (b :: ls')

/-- The number a string of decimal digits stands for. -/
def decimalValue : Str → Nat
  | [] => 0
  | c :: cs => (c.toNat - 48) * 10 ^ cs.length + decimalValue cs

/-- The first target of a note, as the renderer looks it up: `targetIds[0].trim()`. -/
def firstTarget (note : Note) : Str :=
  trim ((splitOn ',' note.targets).headD [])

/-- The last target of a note, as the renderer looks it up:
`targetIds[targetIds.length - 1].trim()`. -/
def lastTarget (note : Note) : Str :=
  trim ((splitOn ',' note.targets).getLastD [])

/-- The id consists of `pre` followed by one or more decimal digits. -/
def isNumbered (pre id : Str) : Bool :=
  match stripLit pre id with
  | some rest => !rest.isEmpty && rest.all Char.isDigit
  | none => false

/-- The id has the form of an id the renderer makes up itself: `0`, `1`, or
`msg`, `loop` or `note` followed by a number. -/
def isGeneratedId (id : Str) : Bool :=
  id == "0".toList || id == "1".toList || isNumbered "msg".toList id ||
    isNumbered "loop".toList id || isNumbered "note".toList id

/-- The kind of cell an id can belong to, read off the id: `0` for an id that is
not of a generated form, `1`, `2`, `3` for generated ids beginning with `m`, `l`,
`n`, and `4` for the other generated ids. -/
def idClass (id : Str) : Nat :=
  if isGeneratedId id = false then 0
  else if id.head? = some 'm' then 1
  else if id.head? = some 'l' then 2
  else if id.head? = some 'n' then 3
  else 4

/-- The entries of a list whose index, counted from `base`, satisfies `P`. -/
def pickFrom {α : Type} (P : Nat → Bool) : Nat → List α → List α
  | _, [] => []
  | base, x :: xs => if P base then x :: pickFrom P (base + 1) xs else pickFrom P (base + 1) xs

/-- One line of the instrumented run: the parser state after the line, together
with the list that holds, for every message parsed so far, the loop stack at the
moment its line was parsed (the open loops, the innermost last). -/
def traceLine (g : ParseState × List (List Nat)) (line : Str) : ParseState × List (List Nat) :=
  ((processLine g.1 line),
    if (processLine g.1 line).messages.length = g.1.messages.length then g.2
    else g.2 ++ [g.1.loopStack])

/-- The instrumented run over a list of lines. -/
def traceLines (g : ParseState × List (List Nat)) (ls : List Str) :
    ParseState × List (List Nat) :=
  ls.foldl traceLine g

/-- For every message of the input, by index, the loop stack at the moment the
message line was parsed. -/
def stacksAt (mermaidCode : Str) : List (List Nat) :=
  (traceLines (ParseState.init, []) (lines mermaidCode)).2

/-- Message `i` was parsed with the loop behind `r` as the innermost open loop. -/
def ownedBy (snaps : List (List Nat)) (r i : Nat) : Bool :=
  decide ((snaps[i]?).bind List.getLast? = some r)

/-- Index `i` lies in the range `[startIndex, endIndex]` of a closed loop. -/
def inRange (L : Loop) (i : Nat) : Bool :=
  match L.endIndex with
  | some e => decide (L.startIndex ≤ i ∧ (i : Int) ≤ e)
  | none => false

/-- The loop behind `r'` was opened inside the loop behind `r`: at some point of
the run both are on the loop stack, `r` deeper. -/
def openedInside (mermaidCode : Str) (r r' : Nat) : Bool :=
  (List.range ((lines mermaidCode).length + 1)).any fun k =>
    decide (List.Sublist [r, r'] (stateAt mermaidCode k).loopStack)

/-- Index `i` lies in the range of a closed loop that was opened inside the loop
behind `r`. -/
def coveredInside (mermaidCode : Str) (r i : Nat) : Bool :=
  (parseState mermaidCode).loops.any fun r' =>
    openedInside mermaidCode r r' &&
      match (parseState mermaidCode).heap[r']? with
      | some L' => inRange L' i
      | none => false

/-- The invariant of the instrumented run: the parser invariant; one stack per
message; every loop object holds exactly the messages parsed while it was the
innermost open loop; the recorded stacks hold existing references in increasing
order; a loop is on the stack recorded for message `i` exactly when `i` is at or
after its start index and, once it is closed, at or before its end index; and
every loop object is open or closed. -/
structure TraceInv (g : ParseState × List (List Nat)) : Prop where
  inv : Inv g.1
  len : g.2.length = g.1.messages.length
  owned : ∀ (r : Nat) (L : Loop), g.1.heap[r]? = some L → L.messages = pickFrom (ownedBy g.2 r) 0 g.1.messages
  valid : ∀ st ∈ g.2, ∀ r ∈ st, r < g.1.heap.length
  timing : ∀ (i : Nat) (st : List Nat), g.2[i]? = some st →
    ∀ (r : Nat) (L : Loop), g.1.heap[r]? = some L →
    (r ∈ st ↔ (L.startIndex ≤ i ∧ ∀ e, L.endIndex = some e → (i : Int) ≤ e))
  alloc : ∀ r, r < g.1.heap.length → r ∈ g.1.loopStack ∨ r ∈ g.1.loops
  sortedStack : g.1.loopStack.Pairwise (· < ·)
  sortedSnaps : ∀ st ∈ g.2, st.Pairwise (· < ·)

/-- The spread calls made for the frame of a loop stay within the argument limit
of the engine: the loop gets no frame (it is not closed, or its `startIndex` is
above its `endIndex`), or it has at most `maxArgs` members. -/
def withinArgumentLimit (maxArgs : Nat) (L : Loop) : Bool :=
  match L.endIndex with
  | none => true
  | some endIndex =>
    if (L.startIndex : Int) ≤ endIndex then decide (L.messages.length ≤ maxArgs) else true

/-- The text of a loop with `n` members: the line `loop L`, then `n` times the
line `A->B: x`, then the line `end`. -/
def loopOfSize (n : Nat) : Str :=
  joinLines ("loop L".toList :: (List.replicate n "A->B: x".toList ++ ["end".toList]))

/-- The message that the line `A->B: x` is parsed to. -/
def memberOfLoop : Message :=
  { from_ := "A".toList, to_ := "B".toList, text := "x".toList, style := arrowStyle "->".toList }

/-- The parser state inside `loopOfSize`, after `k` of the message lines. -/
def insideLoop (k : Nat) : ParseState :=
  { participants := [], messages := List.replicate k memberOfLoop, notes := [], loops := [],
    currentLoop := some 0, loopStack := [0],
    heap := [{ text := "L".toList, messages := List.replicate k memberOfLoop, startIndex := 0,
               endIndex := none }] }

/-- The cell that starts at the beginning of `s`, when `s` begins with
`<mxCell id="`: its id, the characters up to the next `"`, and its value when
the attribute ` value="` comes next, again the characters up to the next `"`. -/
def readCell (s : Str) : Option (Str × Option Str) :=
  match stripLit "<mxCell id=\"".toList s with
  | none => none
  | some rest =>
    match stripLit " value=\"".toList ((rest.dropWhile fun c => c != '"').drop 1) with
    | some more => some (rest.takeWhile (fun c => c != '"'), some (more.takeWhile fun c => c != '"'))
    | none => some (rest.takeWhile (fun c => c != '"'), none)

/-- The cells a reader finds in a text, in order: one for every position at which
the text goes on with `<mxCell id="`. -/
def readCells : Str → List (Str × Option Str)
  | [] => []
  | c :: s =>
    match readCell (c :: s) with
    | some cell => cell :: readCells s
    | none => readCells s

/-- The id attributes of the cells of a document. -/
def cellIds (document : Str) : List Str :=
  (readCells document).map Prod.fst

/-- The text has no `<`. -/
def noTagStart (s : Str) : Bool :=
  s.all fun c => c != '<'

/-- The text has neither `<` nor `"`: copied between the quotes of an attribute
it stays inside the attribute. -/
def isPlain (s : Str) : Bool :=
  s.all fun c => c != '<' && c != '"'

/-- No label and no text of the model has a `<` or a `"`. -/
def plainTexts (model : Model) : Bool :=
  model.participants.all (fun p => isPlain p.label) &&
    model.messages.all (fun m => isPlain m.text) &&
    model.notes.all (fun n => isPlain n.text) &&
    model.loops.all (fun L => isPlain L.text)

/-- The id and the value of the cell are plain, its style and parent have no `<`. -/
def isPlainCell (c : Cell) : Bool :=
  isPlain c.id &&
    (match c.value with
     | some value => isPlain value
     | none => true) &&
    (match c.style with
     | some style => noTagStart style
     | none => true) &&
    (match c.parent with
     | some parent => noTagStart parent
     | none => true)

/-- Somewhere within their common length the two texts differ. -/
def clash : Str → Str → Bool
  | p :: ps, c :: cs => p != c || clash ps cs
  | _, _ => false

/-- No cell starts within the text, whatever follows it: from every position
on, the text differs from `<mxCell id="` before either of them ends. -/
def inert : Str → Bool
  | [] => true
  | c :: cs => clash "<mxCell id=\"".toList (c :: cs) && inert cs

/-- A clock reading for the evaluations: 6 November 2026, 12:00:00.000 UTC. -/
def sampleClock : Clock :=
  { year := 2026, month := 11, day := 6, hours := 12, minutes := 0, seconds := 0,
    milliseconds := 0, now := 1793966400000 }

/-! ## Theorems -/

/-! ### The parser loop -/

theorem runLines_append (σ : ParseState) (xs ys : List Str) :
    runLines σ (xs ++ ys) = runLines (runLines σ xs) ys := by
  simp [runLines, List.foldl_append]

theorem runLines_cons (σ : ParseState) (x : Str) (xs : List Str) :
    runLines σ (x :: xs) = runLines (processLine σ x) xs := rfl

theorem step_processLine (σ : ParseState) (line : Str) : Step σ (processLine σ line) := by
  unfold processLine
  split
  · split
    · exact Step.participant _
    · exact Step.skip
  · split
    · split
      · exact Step.note _
      · exact Step.skip
    · split
      · split
        · exact Step.loopOpen _
        · exact Step.skip
      · split
        · split
          · next r h => exact Step.loopClose r h
          · exact Step.skip
        · split
          · split
            · split
              · next r h => exact Step.messageInLoop _ r h
              · next h => exact Step.messageOutside _ h
            · exact Step.skip
          · exact Step.skip

theorem getElem?_updateLoop (heap : List Loop) (ref : Nat) (f : Loop → Loop) (r : Nat) :
    (updateLoop heap ref f)[r]? = if r = ref then (heap[r]?).map f else heap[r]? := by
  unfold updateLoop
  by_cases h : r = ref
  · subst h
    cases hr : heap[r]? with
    | none => simp [hr]
    | some o =>
      have hlt : r < heap.length := (List.getElem?_eq_some_iff.mp hr).1
      simp [List.getElem?_set, hr, hlt]
  · cases hr : heap[ref]? with
    | none => simp [h]
    | some o => simp [List.getElem?_set, h, Ne.symm h]

theorem length_updateLoop (heap : List Loop) (ref : Nat) (f : Loop → Loop) :
    (updateLoop heap ref f).length = heap.length := by
  unfold updateLoop
  split <;> simp

theorem startOf_updateLoop (heap : List Loop) (ref : Nat) (f : Loop → Loop)
    (hf : ∀ o, (f o).startIndex = o.startIndex) (r : Nat) :
    startOf (updateLoop heap ref f) r = startOf heap r := by
  unfold startOf
  rw [getElem?_updateLoop]
  by_cases h : r = ref
  · subst h
    cases hr : heap[r]? <;> simp [hf]
  · simp [h]

theorem startOf_updateLoop_end (heap : List Loop) (ref : Nat) (e : Int) (r : Nat) :
    startOf (updateLoop heap ref fun o => { o with endIndex := some e }) r = startOf heap r := by
  apply startOf_updateLoop
  intro o
  rfl

theorem startOf_updateLoop_push (heap : List Loop) (ref : Nat) (m : Message) (r : Nat) :
    startOf (updateLoop heap ref fun o => { o with messages := o.messages ++ [m] }) r =
      startOf heap r := by
  apply startOf_updateLoop
  intro o
  rfl

theorem getElem?_append_of_some {α : Type} (xs ys : List α) (r : Nat) (o : α)
    (h : xs[r]? = some o) : (xs ++ ys)[r]? = some o := by
  have hlt : r < xs.length := by
    rcases List.getElem?_eq_some_iff.mp h with ⟨hlt, _⟩
    exact hlt
  rw [List.getElem?_append_left hlt]
  exact h

theorem startOf_append_of_some (heap extra : List Loop) (r : Nat) (o : Loop)
    (h : heap[r]? = some o) : startOf (heap ++ extra) r = startOf heap r := by
  unfold startOf
  rw [getElem?_append_of_some heap extra r o h, h]

theorem lt_length_of_getElem?_eq_some {α : Type} {xs : List α} {r : Nat} {o : α}
    (h : xs[r]? = some o) : r < xs.length :=
  (List.getElem?_eq_some_iff.mp h).1

theorem inv_lt_of_mem_stack {σ : ParseState} (hi : Inv σ) {r : Nat} (h : r ∈ σ.loopStack) :
    r < σ.heap.length := by
  obtain ⟨o, ho, _⟩ := hi.opened r h
  exact lt_length_of_getElem?_eq_some ho

theorem inv_lt_of_mem_loops {σ : ParseState} (hi : Inv σ) {r : Nat} (h : r ∈ σ.loops) :
    r < σ.heap.length := by
  obtain ⟨o, e, ho, _⟩ := hi.closed r h
  exact lt_length_of_getElem?_eq_some ho

theorem inv_init : Inv ParseState.init := by
  refine ⟨rfl, ?_, ?_, ?_, ?_⟩ <;> simp [ParseState.init]

theorem stack_eq_of_getLast? {stack : List Nat} {ref : Nat} (h : stack.getLast? = some ref) :
    stack = stack.dropLast ++ [ref] :=
  (List.dropLast_append_getLast? ref (by simp [h])).symm

theorem inv_step_loopOpen {σ : ParseState} (hi : Inv σ) (text : Str) :
    Inv { σ with
      heap := σ.heap ++
        [{ text := text, messages := [], startIndex := σ.messages.length, endIndex := none }]
      currentLoop := some σ.heap.length
      loopStack := σ.loopStack ++ [σ.heap.length] } := by
  refine ⟨?_, ?_, ?_, ?_, ?_⟩
  · simp
  · show ((σ.loopStack ++ [σ.heap.length]) ++ σ.loops).Nodup
    rw [List.append_assoc, List.singleton_append, List.nodup_middle, List.nodup_cons]
    refine ⟨?_, hi.nodup⟩
    intro hmem
    rcases List.mem_append.mp hmem with h | h
    · exact absurd (inv_lt_of_mem_stack hi h) (Nat.lt_irrefl _)
    · exact absurd (inv_lt_of_mem_loops hi h) (Nat.lt_irrefl _)
  · intro r hr
    obtain ⟨o, e, ho, h1, h2, h3, h4⟩ := hi.closed r hr
    exact ⟨o, e, getElem?_append_of_some _ _ _ _ ho, h1, h2, h3, h4⟩
  · intro r hr
    rcases List.mem_append.mp hr with h | h
    · obtain ⟨o, ho, h1, h2⟩ := hi.opened r h
      exact ⟨o, getElem?_append_of_some _ _ _ _ ho, h1, h2⟩
    · have hr' : r = σ.heap.length := by simpa using h
      subst hr'
      exact ⟨{ text := text, messages := [], startIndex := σ.messages.length, endIndex := none },
        by simp, rfl, by simp⟩
  · show (σ.loopStack ++ [σ.heap.length]).Pairwise _
    rw [List.pairwise_append]
    refine ⟨?_, by simp, ?_⟩
    · refine hi.sorted.imp_of_mem ?_
      intro a b ha hb hab
      obtain ⟨oa, hoa, _⟩ := hi.opened a ha
      obtain ⟨ob, hob, _⟩ := hi.opened b hb
      rw [startOf_append_of_some _ _ _ _ hoa, startOf_append_of_some _ _ _ _ hob]
      exact hab
    · intro a ha b hb
      have hb' : b = σ.heap.length := by simpa using hb
      subst hb'
      obtain ⟨oa, hoa, _, hle⟩ := hi.opened a ha
      rw [startOf_append_of_some _ _ _ _ hoa]
      simp only [startOf, hoa, List.getElem?_concat_length]
      omega

theorem inv_step_loopClose {σ : ParseState} (hi : Inv σ) (ref : Nat)
    (h : σ.loopStack.getLast? = some ref) :
    Inv { σ with
      loopStack := σ.loopStack.dropLast
      heap := updateLoop σ.heap ref fun o =>
        { o with endIndex := some ((σ.messages.length : Int) - 1) }
      loops := σ.loops ++ [ref]
      currentLoop := σ.loopStack.dropLast.getLast? } := by
  have hstack := stack_eq_of_getLast? h
  have hnd : (σ.loopStack.dropLast ++ ([ref] ++ σ.loops)).Nodup := by
    have := hi.nodup
    rw [hstack, List.append_assoc] at this
    exact this
  have hrefstack : ref ∈ σ.loopStack := by
    rw [hstack]; simp
  have hdrop : ∀ r ∈ σ.loopStack.dropLast, r ∈ σ.loopStack ∧ r ≠ ref := by
    intro r hr
    refine ⟨List.mem_of_mem_dropLast hr, ?_⟩
    rintro rfl
    exact (List.nodup_append.mp hnd).2.2 hr (by simp)
  have hloops : ∀ r ∈ σ.loops, r ≠ ref := by
    intro r hr
    rintro rfl
    exact (List.nodup_append.mp hi.nodup).2.2 hrefstack hr
  refine ⟨rfl, ?_, ?_, ?_, ?_⟩
  · show (σ.loopStack.dropLast ++ (σ.loops ++ [ref])).Nodup
    refine (List.Perm.nodup_iff ?_).mp hnd
    exact List.Perm.append_left _ List.perm_append_comm
  · intro r hr
    show ∃ o e, (updateLoop σ.heap ref _)[r]? = some o ∧ _
    rw [getElem?_updateLoop]
    rcases List.mem_append.mp hr with hr | hr
    · simp only [hloops r hr, if_false]
      exact hi.closed r hr
    · have hr' : r = ref := by simpa using hr
      subst hr'
      obtain ⟨o, ho, h1, h2⟩ := hi.opened r hrefstack
      refine ⟨{ o with endIndex := some ((σ.messages.length : Int) - 1) },
        (σ.messages.length : Int) - 1, by simp [ho], rfl, ?_, ?_, ?_⟩
      · show (o.startIndex : Int) ≤ (σ.messages.length : Int) - 1 + 1
        omega
      · show (σ.messages.length : Int) - 1 + 1 ≤ (σ.messages.length : Int)
        omega
      · show (o.messages.length : Int) ≤ (σ.messages.length : Int) - 1 + 1 - o.startIndex
        omega
  · intro r hr
    show ∃ o, (updateLoop σ.heap ref _)[r]? = some o ∧ _
    rw [getElem?_updateLoop]
    simp only [(hdrop r hr).2, if_false]
    exact hi.opened r (hdrop r hr).1
  · show (σ.loopStack.dropLast).Pairwise _
    have hs : σ.loopStack.dropLast.Pairwise fun a b => startOf σ.heap a ≤ startOf σ.heap b :=
      hi.sorted.sublist (List.dropLast_sublist _)
    refine hs.imp ?_
    intro a b hab
    simp only [startOf_updateLoop_end]
    exact hab

theorem inv_step_messageInLoop {σ : ParseState} (hi : Inv σ) (m : Message) (ref : Nat)
    (h : σ.currentLoop = some ref) :
    Inv { σ with
      messages := σ.messages ++ [m]
      heap := updateLoop σ.heap ref fun o => { o with messages := o.messages ++ [m] } } := by
  have htop : σ.loopStack.getLast? = some ref := by rw [← hi.current]; exact h
  have hrefstack : ref ∈ σ.loopStack := by
    rw [stack_eq_of_getLast? htop]; simp
  have hloops : ∀ r ∈ σ.loops, r ≠ ref := by
    intro r hr
    rintro rfl
    exact (List.nodup_append.mp hi.nodup).2.2 hrefstack hr
  refine ⟨hi.current, hi.nodup, ?_, ?_, ?_⟩
  · intro r hr
    show ∃ o e, (updateLoop σ.heap ref _)[r]? = some o ∧ _
    rw [getElem?_updateLoop]
    simp only [hloops r hr, if_false]
    obtain ⟨o, e, ho, h1, h2, h3, h4⟩ := hi.closed r hr
    refine ⟨o, e, ho, h1, h2, ?_, h4⟩
    show e + 1 ≤ ((σ.messages ++ [m]).length : Int)
    simp only [List.length_append, List.length_singleton]
    omega
  · intro r hr
    show ∃ o, (updateLoop σ.heap ref _)[r]? = some o ∧ _
    rw [getElem?_updateLoop]
    obtain ⟨o, ho, h1, h2⟩ := hi.opened r hr
    by_cases hrr : r = ref
    · simp only [hrr, if_true]
      rw [hrr] at ho
      refine ⟨{ o with messages := o.messages ++ [m] }, by simp [ho], h1, ?_⟩
      show o.startIndex + (o.messages ++ [m]).length ≤ (σ.messages ++ [m]).length
      simp only [List.length_append, List.length_singleton]
      omega
    · simp only [hrr, if_false]
      refine ⟨o, ho, h1, ?_⟩
      show o.startIndex + o.messages.length ≤ (σ.messages ++ [m]).length
      simp only [List.length_append, List.length_singleton]
      omega
  · show (σ.loopStack).Pairwise _
    refine hi.sorted.imp ?_
    intro a b hab
    simp only [startOf_updateLoop_push]
    exact hab

theorem inv_step_messageOutside {σ : ParseState} (hi : Inv σ) (m : Message) :
    Inv { σ with messages := σ.messages ++ [m] } := by
  refine ⟨hi.current, hi.nodup, ?_, ?_, hi.sorted⟩
  · intro r hr
    obtain ⟨o, e, ho, h1, h2, h3, h4⟩ := hi.closed r hr
    refine ⟨o, e, ho, h1, h2, ?_, h4⟩
    show e + 1 ≤ ((σ.messages ++ [m]).length : Int)
    simp only [List.length_append, List.length_singleton]
    omega
  · intro r hr
    obtain ⟨o, ho, h1, h2⟩ := hi.opened r hr
    refine ⟨o, ho, h1, ?_⟩
    show o.startIndex + o.messages.length ≤ (σ.messages ++ [m]).length
    simp only [List.length_append, List.length_singleton]
    omega

theorem inv_step {σ σ' : ParseState} (hs : Step σ σ') (hi : Inv σ) : Inv σ' := by
  cases hs with
  | skip => exact hi
  | participant p => exact ⟨hi.current, hi.nodup, hi.closed, hi.opened, hi.sorted⟩
  | note n => exact ⟨hi.current, hi.nodup, hi.closed, hi.opened, hi.sorted⟩
  | loopOpen text => exact inv_step_loopOpen hi text
  | loopClose ref h => exact inv_step_loopClose hi ref h
  | messageInLoop m ref h => exact inv_step_messageInLoop hi m ref h
  | messageOutside m h => exact inv_step_messageOutside hi m

theorem inv_processLine {σ : ParseState} (hi : Inv σ) (line : Str) :
    Inv (processLine σ line) :=
  inv_step (step_processLine σ line) hi

theorem inv_runLines {σ : ParseState} (hi : Inv σ) (ls : List Str) : Inv (runLines σ ls) := by
  induction ls generalizing σ with
  | nil => exact hi
  | cons l ls ih => exact ih (inv_processLine hi l)

theorem inv_parseState (mermaidCode : Str) : Inv (parseState mermaidCode) :=
  inv_runLines inv_init _

theorem inv_stateAt (mermaidCode : Str) (k : Nat) : Inv (stateAt mermaidCode k) :=
  inv_runLines inv_init _

/-- The loops of the returned model are the loop objects behind `loops`, one for
each reference. -/
theorem toModel_loops_mem (σ : ParseState) :
    ∀ L ∈ σ.toModel.loops, ∃ r ∈ σ.loops, σ.heap[r]? = some L := by
  intro L hL
  simp only [ParseState.toModel, List.mem_filterMap] at hL
  obtain ⟨r, hr, hrL⟩ := hL
  exact ⟨r, hr, hrL⟩

/-! ### Lines of a text -/

theorem splitOn_ne_nil (sep : Char) (s : Str) : splitOn sep s ≠ [] := by
  induction s with
  | nil => simp [splitOn]
  | cons c cs ih =>
    unfold splitOn
    split
    · simp
    · split <;> simp

theorem splitOn_append_sep (sep : Char) (a b : Str) :
    splitOn sep (a ++ sep :: b) = splitOn sep a ++ splitOn sep b := by
  induction a with
  | nil => simp [splitOn]
  | cons c cs ih =>
    by_cases hc : c = sep
    · simp [splitOn, hc, ← ih]
    · have h1 : splitOn sep (c :: cs ++ sep :: b) =
          match splitOn sep (cs ++ sep :: b) with
          | [] => [[c]]
          | seg :: segs => (c :: seg) :: segs := by
        simp [splitOn, hc]
      have h2 : splitOn sep (c :: cs) =
          match splitOn sep cs with
          | [] => [[c]]
          | seg :: segs => (c :: seg) :: segs := by
        simp [splitOn, hc]
      rw [h1, h2, ih]
      cases hs : splitOn sep cs with
      | nil => exact absurd hs (splitOn_ne_nil sep cs)
      | cons seg segs => simp

theorem lines_nil : lines [] = [] := by
  decide

theorem lines_append_newline (a b : Str) : lines (a ++ '\n' :: b) = lines a ++ lines b := by
  simp [lines, splitOn_append_sep]

theorem lines_joinLines_cons (l : Str) (ls : List Str) :
    lines (joinLines (l :: ls)) = lines l ++ lines (joinLines ls) := by
  cases ls with
  | nil => simp [joinLines, lines_nil]
  | cons l' ls => simp [joinLines, lines_append_newline]

theorem lines_joinLines_append (xs ys : List Str) :
    lines (joinLines (xs ++ ys)) = lines (joinLines xs) ++ lines (joinLines ys) := by
  induction xs with
  | nil => simp [joinLines, lines_nil]
  | cons x xs ih =>
    rw [List.cons_append, lines_joinLines_cons, lines_joinLines_cons, ih, List.append_assoc]

theorem lines_end : lines "end".toList = ["end".toList] := by
  decide

theorem processLine_end_of_empty_stack (σ : ParseState) (h : σ.loopStack = []) :
    processLine σ "end".toList = σ := by
  have h1 : startsWith "participant ".toList "end".toList = false := by decide
  have h2 : startsWith "Note ".toList "end".toList = false := by decide
  have h3 : startsWith "loop ".toList "end".toList = false := by decide
  unfold processLine
  rw [h1, h2, h3]
  simp [h]

/-! ### Participants -/

theorem processLine_participants (σ : ParseState) (line : Str) :
    (processLine σ line).participants =
      σ.participants ++ (declaredParticipant line).toList := by
  unfold processLine declaredParticipant
  split
  · split <;> simp_all
  · simp only [Option.toList, List.append_nil]
    split
    · split <;> rfl
    · split
      · split <;> rfl
      · split
        · split <;> rfl
        · split
          · split
            · split <;> rfl
            · rfl
          · rfl

theorem runLines_participants (σ : ParseState) (ls : List Str) :
    (runLines σ ls).participants = σ.participants ++ ls.filterMap declaredParticipant := by
  induction ls generalizing σ with
  | nil => simp [runLines]
  | cons l ls ih =>
    rw [runLines_cons, ih, processLine_participants]
    cases h : declaredParticipant l <;> simp [List.filterMap_cons, h]

theorem participants_eq_declarations (mermaidCode : Str) :
    (parseMermaidSequence mermaidCode).participants = declarations mermaidCode := by
  show (runLines ParseState.init (lines mermaidCode)).participants = _
  rw [runLines_participants]
  rfl

/-- C1 (as the code has it): the participants list holds one entry per matching
`participant <id> as <label>` line, in line order, a repeated id included; so
whenever the declared ids are pairwise distinct, no two entries share an id and
the length is the number of distinct declared ids. -/
theorem participants_one_per_declaration (mermaidCode : Str) :
    (parseMermaidSequence mermaidCode).participants = declarations mermaidCode ∧
    (((declarations mermaidCode).map Participant.id).Nodup →
      ((parseMermaidSequence mermaidCode).participants.map Participant.id).Nodup ∧
      (parseMermaidSequence mermaidCode).participants.length =
        ((declarations mermaidCode).map Participant.id).dedup.length) := by
  refine ⟨participants_eq_declarations mermaidCode, ?_⟩
  intro hnd
  rw [participants_eq_declarations]
  refine ⟨hnd, ?_⟩
  rw [List.Nodup.dedup hnd, List.length_map]

/-- Witness for C1: two declarations with distinct ids. -/
theorem participants_one_per_declaration_witness :
    ((declarations "participant A as Alice\nparticipant B as Bob".toList).map
        Participant.id).Nodup ∧
    ((parseMermaidSequence "participant A as Alice\nparticipant B as Bob".toList).participants.map
        Participant.id).Nodup ∧
    (parseMermaidSequence "participant A as Alice\nparticipant B as Bob".toList).participants.length
      = 2 :=
  ⟨by decide,
   ((participants_one_per_declaration
      "participant A as Alice\nparticipant B as Bob".toList).2 (by decide)).1,
   ((participants_one_per_declaration
      "participant A as Alice\nparticipant B as Bob".toList).2 (by decide)).2.trans (by decide)⟩

/-- Counterexample to C1 as stated: a participant declared twice is listed twice,
so two entries share the id `A` and the length (2) is not the number of distinct
declared ids (1). -/
theorem participants_duplicate_id :
    (parseMermaidSequence "participant A as Alice\nparticipant A as Ann".toList).participants =
      [{ id := "A".toList, label := "Alice".toList }, { id := "A".toList, label := "Ann".toList }] ∧
    ¬ ((parseMermaidSequence
        "participant A as Alice\nparticipant A as Ann".toList).participants.map
          Participant.id).Nodup ∧
    (parseMermaidSequence "participant A as Alice\nparticipant A as Ann".toList).participants.length
      ≠ ((declarations "participant A as Alice\nparticipant A as Ann".toList).map
          Participant.id).dedup.length := by
  refine ⟨by decide, by decide, by decide⟩

/-! ### Loop ranges -/

/-- C3: every loop of the returned model has `0 <= startIndex <= endIndex + 1`
and `endIndex + 1 <= messages.length`: its range is empty or a contiguous
in-bounds slice of the global message sequence. -/
theorem loop_range_in_bounds (mermaidCode : Str) :
    ∀ L ∈ (parseMermaidSequence mermaidCode).loops, ∃ e : Int, L.endIndex = some e ∧
      (0 : Int) ≤ L.startIndex ∧ (L.startIndex : Int) ≤ e + 1 ∧
      e + 1 ≤ ((parseMermaidSequence mermaidCode).messages.length : Int) := by
  intro L hL
  obtain ⟨r, hr, hrL⟩ := toModel_loops_mem (parseState mermaidCode) L hL
  obtain ⟨o, e, ho, h1, h2, h3, _⟩ := (inv_parseState mermaidCode).closed r hr
  rw [hrL] at ho
  cases ho
  exact ⟨e, h1, Int.ofNat_nonneg _, h2, h3⟩

/-- Witness for C3: a loop with one message, followed by a message outside it. -/
theorem loop_range_in_bounds_witness :
    ({ text := "Retry".toList,
       messages := [{ from_ := "A".toList, to_ := "B".toList, text := "ping".toList,
                      style := "html=1;verticalAlign=bottom;endArrow=block;curved=0;rounded=0;".toList }],
       startIndex := 0, endIndex := some 0 } : Loop) ∈
      (parseMermaidSequence "loop Retry\nA->>B: ping\nend\nB->>A: pong".toList).loops ∧
    ∃ e : Int, (some 0 : Option Int) = some e ∧ (0 : Int) ≤ (0 : Nat) ∧ ((0 : Nat) : Int) ≤ e + 1 ∧
      e + 1 ≤ ((parseMermaidSequence
        "loop Retry\nA->>B: ping\nend\nB->>A: pong".toList).messages.length : Int) :=
  ⟨by decide,
   loop_range_in_bounds "loop Retry\nA->>B: ping\nend\nB->>A: pong".toList
     { text := "Retry".toList,
       messages := [{ from_ := "A".toList, to_ := "B".toList, text := "ping".toList,
                      style := "html=1;verticalAlign=bottom;endArrow=block;curved=0;rounded=0;".toList }],
       startIndex := 0, endIndex := some 0 } (by decide)⟩

/-! ### Stray `end` -/

theorem runLines_stray_end (σ : ParseState) (pre post : List Str)
    (h : (runLines σ pre).loopStack = []) :
    runLines σ (pre ++ "end".toList :: post) = runLines σ (pre ++ post) := by
  rw [runLines_append, runLines_append, runLines_cons, processLine_end_of_empty_stack _ h]

/-- C8: when no loop is open after the lines `pre` (the loop stack is empty),
inserting the line `end` there changes nothing: the parser state right after
the stray `end` is the state before it, and the model returned for the whole
text, lines after the `end` included, is the same. -/
theorem stray_end_ignored (pre post : List Str)
    (h : (parseState (joinLines pre)).loopStack = []) :
    parseState (joinLines (pre ++ ["end".toList])) = parseState (joinLines pre) ∧
    parseMermaidSequence (joinLines (pre ++ "end".toList :: post)) =
      parseMermaidSequence (joinLines (pre ++ post)) := by
  have key : ∀ post : List Str, parseState (joinLines (pre ++ "end".toList :: post)) =
      parseState (joinLines (pre ++ post)) := by
    intro post
    unfold parseState
    rw [lines_joinLines_append, lines_joinLines_cons, lines_end, lines_joinLines_append,
      List.singleton_append]
    exact runLines_stray_end _ _ _ h
  refine ⟨?_, ?_⟩
  · have := key []
    simpa using this
  · unfold parseMermaidSequence
    rw [key post]

/-- Witness for C8: a stray `end` after a closed loop and before a message. -/
theorem stray_end_ignored_witness :
    (parseState (joinLines ["loop L".toList, "A->>B: m".toList, "end".toList])).loopStack = [] ∧
    parseMermaidSequence (joinLines (["loop L".toList, "A->>B: m".toList, "end".toList] ++
        "end".toList :: ["A->>B: n".toList])) =
      parseMermaidSequence (joinLines (["loop L".toList, "A->>B: m".toList, "end".toList] ++
        ["A->>B: n".toList])) :=
  ⟨by decide,
   (stray_end_ignored ["loop L".toList, "A->>B: m".toList, "end".toList] ["A->>B: n".toList]
      (by decide)).2⟩

/-! ### Member lists of loops -/

theorem stack_eq_nil_of_current_none {σ : ParseState} (hi : Inv σ) (h : σ.currentLoop = none) :
    σ.loopStack = [] := by
  rw [hi.current] at h
  exact List.getLast?_eq_none_iff.mp h

theorem mem_stack_of_getLast? {stack : List Nat} {r : Nat} (h : stack.getLast? = some r) :
    r ∈ stack := by
  rw [stack_eq_of_getLast? h]
  simp

theorem inv_not_mem_loops_of_mem_stack {σ : ParseState} (hi : Inv σ) {r : Nat}
    (h : r ∈ σ.loopStack) : r ∉ σ.loops :=
  fun h' => (List.nodup_append.mp hi.nodup).2.2 h h'

theorem membersExact_step {σ σ' : ParseState} (hs : Step σ σ') (hi : Inv σ) {r : Nat}
    (he : MembersExact σ r)
    (hquiet : r ∈ σ.loopStack → σ.loopStack.getLast? ≠ some r →
      σ'.messages.length = σ.messages.length) : MembersExact σ' r := by
  cases hs with
  | skip => exact he
  | participant p => exact he
  | note n => exact he
  | loopOpen text =>
    rcases he with h | ⟨h, o, ho, hcount⟩ | ⟨h, o, e, ho, h1, h2⟩
    · by_cases hr : r = σ.heap.length
      · subst hr
        refine Or.inr (Or.inl ⟨List.mem_append_right _ (by simp), ?_⟩)
        exact ⟨{ text := text, messages := [], startIndex := σ.messages.length,
                 endIndex := none }, by simp, by simp⟩
      · refine Or.inl ?_
        show (σ.heap ++ [_]).length ≤ r
        simp only [List.length_append, List.length_singleton]
        omega
    · exact Or.inr (Or.inl ⟨List.mem_append_left _ h, o,
        getElem?_append_of_some _ _ _ _ ho, hcount⟩)
    · exact Or.inr (Or.inr ⟨h, o, e, getElem?_append_of_some _ _ _ _ ho, h1, h2⟩)
  | loopClose ref hlast =>
    rcases he with h | ⟨h, o, ho, hcount⟩ | ⟨h, o, e, ho, h1, h2⟩
    · refine Or.inl ?_
      show (updateLoop σ.heap ref _).length ≤ r
      rw [length_updateLoop]
      exact h
    · by_cases hr : r = ref
      · subst hr
        refine Or.inr (Or.inr ⟨List.mem_append_right _ (by simp), ?_⟩)
        refine ⟨{ o with endIndex := some ((σ.messages.length : Int) - 1) },
          (σ.messages.length : Int) - 1, ?_, rfl, ?_⟩
        · show (updateLoop σ.heap r _)[r]? = _
          rw [getElem?_updateLoop]
          simp [ho]
        · show (o.messages.length : Int) = (σ.messages.length : Int) - 1 - o.startIndex + 1
          omega
      · have hmem : r ∈ σ.loopStack.dropLast := by
          rw [stack_eq_of_getLast? hlast] at h
          rcases List.mem_append.mp h with h | h
          · exact h
          · exact absurd (by simpa using h) hr
        refine Or.inr (Or.inl ⟨hmem, o, ?_, hcount⟩)
        show (updateLoop σ.heap ref _)[r]? = _
        rw [getElem?_updateLoop]
        simp [hr, ho]
    · have hne : r ≠ ref := by
        rintro rfl
        exact inv_not_mem_loops_of_mem_stack hi (mem_stack_of_getLast? hlast) h
      refine Or.inr (Or.inr ⟨List.mem_append_left _ h, o, e, ?_, h1, h2⟩)
      show (updateLoop σ.heap ref _)[r]? = _
      rw [getElem?_updateLoop]
      simp [hne, ho]
  | messageInLoop m ref hcur =>
    have hlast : σ.loopStack.getLast? = some ref := by rw [← hi.current]; exact hcur
    rcases he with h | ⟨h, o, ho, hcount⟩ | ⟨h, o, e, ho, h1, h2⟩
    · refine Or.inl ?_
      show (updateLoop σ.heap ref _).length ≤ r
      rw [length_updateLoop]
      exact h
    · by_cases hr : r = ref
      · subst hr
        refine Or.inr (Or.inl ⟨h, { o with messages := o.messages ++ [m] }, ?_, ?_⟩)
        · show (updateLoop σ.heap r _)[r]? = _
          rw [getElem?_updateLoop]
          simp [ho]
        · show o.startIndex + (o.messages ++ [m]).length = (σ.messages ++ [m]).length
          simp only [List.length_append, List.length_singleton]
          omega
      · exfalso
        have hq : (σ.messages ++ [m]).length = σ.messages.length :=
          hquiet h (by rw [hlast]; exact fun hc => hr (Option.some.inj hc).symm)
        simp at hq
    · have hne : r ≠ ref := by
        rintro rfl
        exact inv_not_mem_loops_of_mem_stack hi (mem_stack_of_getLast? hlast) h
      refine Or.inr (Or.inr ⟨h, o, e, ?_, h1, h2⟩)
      show (updateLoop σ.heap ref _)[r]? = _
      rw [getElem?_updateLoop]
      simp [hne, ho]
  | messageOutside m hcur =>
    have hnil := stack_eq_nil_of_current_none hi hcur
    rcases he with h | ⟨h, _⟩ | ⟨h, o, e, ho, h1, h2⟩
    · exact Or.inl h
    · rw [hnil] at h
      simp at h
    · exact Or.inr (Or.inr ⟨h, o, e, ho, h1, h2⟩)

theorem stateAt_zero (mermaidCode : Str) : stateAt mermaidCode 0 = ParseState.init := by
  simp [stateAt, runLines]

theorem stateAt_succ (mermaidCode : Str) (k : Nat) :
    Step (stateAt mermaidCode k) (stateAt mermaidCode (k + 1)) := by
  unfold stateAt
  rw [List.take_succ, runLines_append]
  cases (lines mermaidCode)[k]? with
  | none => exact Step.skip
  | some l => exact step_processLine _ l

theorem stateAt_length (mermaidCode : Str) :
    stateAt mermaidCode (lines mermaidCode).length = parseState mermaidCode := by
  simp [stateAt, parseState]

theorem parseState_eq_runLines_stateAt (mermaidCode : Str) (k : Nat) :
    parseState mermaidCode = runLines (stateAt mermaidCode k) ((lines mermaidCode).drop k) := by
  unfold stateAt parseState
  rw [← runLines_append, List.take_append_drop]

theorem membersExact_stateAt (mermaidCode : Str) (r : Nat)
    (h : NoMessageInside mermaidCode r) :
    ∀ k, k ≤ (lines mermaidCode).length → MembersExact (stateAt mermaidCode k) r := by
  intro k
  induction k with
  | zero =>
    intro _
    rw [stateAt_zero]
    exact Or.inl (Nat.zero_le _)
  | succ k ih =>
    intro hk
    refine membersExact_step (stateAt_succ mermaidCode k) (inv_stateAt mermaidCode k)
      (ih (by omega)) ?_
    exact h k (List.mem_range.mpr (by omega))

theorem getElem?_filterMap_of_isSome {α β : Type} (f : α → Option β) (l : List α)
    (h : ∀ a ∈ l, (f a).isSome) (i : Nat) : (l.filterMap f)[i]? = (l[i]?).bind f := by
  induction l generalizing i with
  | nil => simp
  | cons a l ih =>
    have ha : (f a).isSome := h a (by simp)
    obtain ⟨b, hb⟩ := Option.isSome_iff_exists.mp ha
    have hl : ∀ a ∈ l, (f a).isSome := fun a' ha' => h a' (List.mem_cons_of_mem _ ha')
    rw [List.filterMap_cons_some hb]
    cases i with
    | zero => simp [hb]
    | succ i => simpa using ih hl i

theorem toModel_loops_getElem? {σ : ParseState} (hi : Inv σ) (i r : Nat)
    (h : σ.loops[i]? = some r) : σ.toModel.loops[i]? = σ.heap[r]? := by
  unfold ParseState.toModel
  show (σ.loops.filterMap fun ref => σ.heap[ref]?)[i]? = _
  rw [getElem?_filterMap_of_isSome]
  · simp [h]
  · intro a ha
    obtain ⟨o, e, ho, _⟩ := hi.closed a ha
    simp [ho]

theorem mem_toModel_loops {σ : ParseState} {r : Nat} {L : Loop} (hr : r ∈ σ.loops)
    (hL : σ.heap[r]? = some L) : L ∈ σ.toModel.loops := by
  unfold ParseState.toModel
  exact List.mem_filterMap.mpr ⟨r, hr, hL⟩

/-- C2 (as the code has it): a message is appended to the member list of the
innermost open loop only.  Hence for every loop of the model the member list is
no longer than `endIndex - startIndex + 1`, and it has exactly that length for
every loop during whose open time no message was parsed while a loop opened
inside it was open (degenerate loops included, both sides being `0`). -/
theorem loop_member_count (mermaidCode : Str) :
    (∀ L ∈ (parseMermaidSequence mermaidCode).loops, ∃ e : Int, L.endIndex = some e ∧
      (L.messages.length : Int) ≤ e - L.startIndex + 1) ∧
    (∀ i r : Nat, (parseState mermaidCode).loops[i]? = some r → NoMessageInside mermaidCode r →
      ∃ L : Loop, ∃ e : Int, (parseMermaidSequence mermaidCode).loops[i]? = some L ∧
        L.endIndex = some e ∧ (L.messages.length : Int) = e - L.startIndex + 1) := by
  have hi := inv_parseState mermaidCode
  refine ⟨?_, ?_⟩
  · intro L hL
    obtain ⟨r, hr, hrL⟩ := toModel_loops_mem (parseState mermaidCode) L hL
    obtain ⟨o, e, ho, h1, _, _, h4⟩ := hi.closed r hr
    rw [hrL] at ho
    cases ho
    exact ⟨e, h1, by omega⟩
  · intro i r hr hno
    have hmem : r ∈ (parseState mermaidCode).loops := List.getElem?_mem hr
    have hex := membersExact_stateAt mermaidCode r hno _ (Nat.le_refl _)
    rw [stateAt_length] at hex
    rcases hex with h | ⟨h, _⟩ | ⟨_, o, e, ho, h1, h2⟩
    · exact absurd (inv_lt_of_mem_loops hi hmem) (by omega)
    · exact absurd hmem (inv_not_mem_loops_of_mem_stack hi h)
    · refine ⟨o, e, ?_, h1, h2⟩
      show (parseState mermaidCode).toModel.loops[i]? = some o
      rw [toModel_loops_getElem? hi i r hr, ho]

/-- Witness for C2: the loop `A` (reference 0, second in `loops`) has the empty
loop `B` opened inside it, during which no message is parsed; `A` holds both
messages of its range `[0, 1]`. -/
theorem loop_member_count_witness :
    (parseState "loop A\nX->Y: 1\nloop B\nend\nX->Y: 2\nend".toList).loops[1]? = some 0 ∧
    NoMessageInside "loop A\nX->Y: 1\nloop B\nend\nX->Y: 2\nend".toList 0 ∧
    ∃ L : Loop, ∃ e : Int,
      (parseMermaidSequence
        "loop A\nX->Y: 1\nloop B\nend\nX->Y: 2\nend".toList).loops[1]? = some L ∧
      L.endIndex = some e ∧ (L.messages.length : Int) = e - L.startIndex + 1 :=
  ⟨by decide, by decide,
   (loop_member_count "loop A\nX->Y: 1\nloop B\nend\nX->Y: 2\nend".toList).2 1 0
     (by decide) (by decide)⟩

/-- Counterexample to C2 as stated: the outer loop `A` has the non-degenerate
range `[0, 2]` but only one member, the two messages of the nested loop `B`
having gone to `B` alone. -/
theorem loop_member_count_nested :
    (parseMermaidSequence
        "loop A\nX->Y: 1\nloop B\nX->Y: 2\nX->Y: 3\nend\nend".toList).loops.map
      (fun L => (L.text, L.startIndex, L.endIndex, L.messages.length)) =
      [("B".toList, 1, some 2, 2), ("A".toList, 0, some 2, 1)] ∧
    ¬ (∀ L ∈ (parseMermaidSequence
          "loop A\nX->Y: 1\nloop B\nX->Y: 2\nX->Y: 3\nend\nend".toList).loops,
        ∀ e : Int, L.endIndex = some e → (L.startIndex : Int) ≤ e →
          (L.messages.length : Int) = e - L.startIndex + 1) := by
  refine ⟨by decide, ?_⟩
  intro h
  have h' := h
    { text := "A".toList,
      messages := [{ from_ := "X".toList, to_ := "Y".toList, text := "1".toList,
                     style := "html=1;verticalAlign=bottom;endArrow=block;curved=0;rounded=0;".toList }],
      startIndex := 0, endIndex := some 2 } (by decide) 2 rfl (by decide)
  exact absurd h' (by decide)

/-! ### Nesting -/

theorem sublist_pair {l : List Nat} {r1 r2 : Nat} (h : List.Sublist [r1, r2] l) :
    ∃ a c, l = a ++ r2 :: c ∧ r1 ∈ a := by
  induction l with
  | nil => cases h
  | cons x l ih =>
    cases h with
    | cons _ h' =>
      obtain ⟨a, c, hl, hm⟩ := ih h'
      exact ⟨x :: a, c, by simp [hl], List.mem_cons_of_mem _ hm⟩
    | cons₂ _ h' =>
      have hmem : r2 ∈ l := by
        have := h'.subset
        exact this (by simp)
      obtain ⟨a, c, hl⟩ := List.append_of_mem hmem
      exact ⟨r1 :: a, c, by simp [hl], by simp⟩

theorem nested_step {σ σ' : ParseState} (hs : Step σ σ') (hi : Inv σ) {r1 r2 : Nat}
    (hn : Nested σ r1 r2) : Nested σ' r1 r2 := by
  cases hs with
  | skip => exact hn
  | participant p => exact hn
  | note n => exact hn
  | loopOpen text =>
    rcases hn with ⟨a, c, hst, hm⟩ | ⟨h1, h2, o2, e2, ho2, he2, hs2, hb2⟩ |
      ⟨h1, h2, o1, o2, e1, e2, ho1, ho2, he1, he2, hs12, he12⟩
    · refine Or.inl ⟨a, c ++ [σ.heap.length], ?_, hm⟩
      show σ.loopStack ++ [σ.heap.length] = _
      rw [hst]
      simp
    · obtain ⟨o1, ho1, _⟩ := hi.opened r1 h1
      refine Or.inr (Or.inl ⟨List.mem_append_left _ h1, h2, o2, e2,
        getElem?_append_of_some _ _ _ _ ho2, he2, ?_, hb2⟩)
      show startOf (σ.heap ++ _) r1 ≤ _
      rw [startOf_append_of_some _ _ _ _ ho1]
      exact hs2
    · exact Or.inr (Or.inr ⟨h1, h2, o1, o2, e1, e2, getElem?_append_of_some _ _ _ _ ho1,
        getElem?_append_of_some _ _ _ _ ho2, he1, he2, hs12, he12⟩)
  | loopClose ref hlast =>
    have hrefstack : ref ∈ σ.loopStack := mem_stack_of_getLast? hlast
    have hstack := stack_eq_of_getLast? hlast
    have hloops : ∀ r ∈ σ.loops, r ≠ ref := by
      intro r hr
      rintro rfl
      exact inv_not_mem_loops_of_mem_stack hi hrefstack hr
    rcases hn with ⟨a, c, hst, hm⟩ | ⟨h1, h2, o2, e2, ho2, he2, hs2, hb2⟩ |
      ⟨h1, h2, o1, o2, e1, e2, ho1, ho2, he1, he2, hs12, he12⟩
    · by_cases hc : c = []
      · subst hc
        have hr2 : ref = r2 := by
          rw [hst] at hlast
          simpa using hlast.symm
        subst hr2
        have hdrop : σ.loopStack.dropLast = a := by
          rw [hst]
          simp
        obtain ⟨o2, ho2, _, hcnt⟩ := hi.opened ref hrefstack
        have hsorted : startOf σ.heap r1 ≤ startOf σ.heap ref := by
          have hp := hi.sorted
          rw [hst] at hp
          exact (List.pairwise_append.mp hp).2.2 r1 hm ref (by simp)
        refine Or.inr (Or.inl ⟨?_, List.mem_append_right _ (by simp), ?_⟩)
        · show r1 ∈ σ.loopStack.dropLast
          rw [hdrop]
          exact hm
        · refine ⟨{ o2 with endIndex := some ((σ.messages.length : Int) - 1) },
            (σ.messages.length : Int) - 1, ?_, rfl, ?_, ?_⟩
          · show (updateLoop σ.heap ref _)[ref]? = _
            rw [getElem?_updateLoop]
            simp [ho2]
          · show startOf (updateLoop σ.heap ref _) r1 ≤ o2.startIndex
            rw [startOf_updateLoop_end]
            have : startOf σ.heap ref = o2.startIndex := by simp [startOf, ho2]
            omega
          · show (σ.messages.length : Int) - 1 + 1 ≤ (σ.messages.length : Int)
            omega
      · refine Or.inl ⟨a, c.dropLast, ?_, hm⟩
        show σ.loopStack.dropLast = _
        rw [hst, List.dropLast_append_of_ne_nil _ (by simp), List.dropLast_cons_of_ne_nil hc]
    · by_cases hr1 : r1 = ref
      · subst hr1
        obtain ⟨o1, ho1, _, _⟩ := hi.opened r1 h1
        have hs1 : startOf σ.heap r1 = o1.startIndex := by simp [startOf, ho1]
        refine Or.inr (Or.inr ⟨List.mem_append_right _ (by simp), List.mem_append_left _ h2,
          { o1 with endIndex := some ((σ.messages.length : Int) - 1) }, o2,
          (σ.messages.length : Int) - 1, e2, ?_, ?_, rfl, he2, ?_, ?_⟩)
        · show (updateLoop σ.heap r1 _)[r1]? = _
          rw [getElem?_updateLoop]
          simp [ho1]
        · show (updateLoop σ.heap r1 _)[r2]? = _
          rw [getElem?_updateLoop]
          simp [hloops r2 h2, ho2]
        · show o1.startIndex ≤ o2.startIndex
          omega
        · omega
      · have hmem : r1 ∈ σ.loopStack.dropLast := by
          rw [hstack] at h1
          rcases List.mem_append.mp h1 with h | h
          · exact h
          · exact absurd (by simpa using h) hr1
        refine Or.inr (Or.inl ⟨hmem, List.mem_append_left _ h2, o2, e2, ?_, he2, ?_, hb2⟩)
        · show (updateLoop σ.heap ref _)[r2]? = _
          rw [getElem?_updateLoop]
          simp [hloops r2 h2, ho2]
        · show startOf (updateLoop σ.heap ref _) r1 ≤ _
          rw [startOf_updateLoop_end]
          exact hs2
    · refine Or.inr (Or.inr ⟨List.mem_append_left _ h1, List.mem_append_left _ h2,
        o1, o2, e1, e2, ?_, ?_, he1, he2, hs12, he12⟩)
      · show (updateLoop σ.heap ref _)[r1]? = _
        rw [getElem?_updateLoop]
        simp [hloops r1 h1, ho1]
      · show (updateLoop σ.heap ref _)[r2]? = _
        rw [getElem?_updateLoop]
        simp [hloops r2 h2, ho2]
  | messageInLoop m ref hcur =>
    have hlast : σ.loopStack.getLast? = some ref := by rw [← hi.current]; exact hcur
    have hrefstack : ref ∈ σ.loopStack := mem_stack_of_getLast? hlast
    have hloops : ∀ r ∈ σ.loops, r ≠ ref := by
      intro r hr
      rintro rfl
      exact inv_not_mem_loops_of_mem_stack hi hrefstack hr
    rcases hn with ⟨a, c, hst, hm⟩ | ⟨h1, h2, o2, e2, ho2, he2, hs2, hb2⟩ |
      ⟨h1, h2, o1, o2, e1, e2, ho1, ho2, he1, he2, hs12, he12⟩
    · exact Or.inl ⟨a, c, hst, hm⟩
    · refine Or.inr (Or.inl ⟨h1, h2, o2, e2, ?_, he2, ?_, ?_⟩)
      · show (updateLoop σ.heap ref _)[r2]? = _
        rw [getElem?_updateLoop]
        simp [hloops r2 h2, ho2]
      · show startOf (updateLoop σ.heap ref _) r1 ≤ _
        rw [startOf_updateLoop_push]
        exact hs2
      · show e2 + 1 ≤ ((σ.messages ++ [m]).length : Int)
        simp only [List.length_append, List.length_singleton]
        omega
    · refine Or.inr (Or.inr ⟨h1, h2, o1, o2, e1, e2, ?_, ?_, he1, he2, hs12, he12⟩)
      · show (updateLoop σ.heap ref _)[r1]? = _
        rw [getElem?_updateLoop]
        simp [hloops r1 h1, ho1]
      · show (updateLoop σ.heap ref _)[r2]? = _
        rw [getElem?_updateLoop]
        simp [hloops r2 h2, ho2]
  | messageOutside m hcur =>
    rcases hn with ⟨a, c, hst, hm⟩ | ⟨h1, h2, o2, e2, ho2, he2, hs2, hb2⟩ |
      ⟨h1, h2, o1, o2, e1, e2, ho1, ho2, he1, he2, hs12, he12⟩
    · exact Or.inl ⟨a, c, hst, hm⟩
    · refine Or.inr (Or.inl ⟨h1, h2, o2, e2, ho2, he2, hs2, ?_⟩)
      show e2 + 1 ≤ ((σ.messages ++ [m]).length : Int)
      simp only [List.length_append, List.length_singleton]
      omega
    · exact Or.inr (Or.inr ⟨h1, h2, o1, o2, e1, e2, ho1, ho2, he1, he2, hs12, he12⟩)

theorem nested_runLines {σ : ParseState} (hi : Inv σ) {r1 r2 : Nat} (hn : Nested σ r1 r2)
    (ls : List Str) : Nested (runLines σ ls) r1 r2 := by
  induction ls generalizing σ with
  | nil => exact hn
  | cons l ls ih =>
    exact ih (inv_processLine hi l) (nested_step (step_processLine σ l) hi hn)

/-- C4: if at some point of the run the loops behind `r1` and `r2` are both
open with `r1` deeper in the stack (`r2` was opened while `r1` was open), and
both are closed in the end, then the range of the inner loop lies within the
range of the outer one. -/
theorem nested_loop_range_contained (mermaidCode : Str) (k r1 r2 : Nat)
    (hopen : List.Sublist [r1, r2] (stateAt mermaidCode k).loopStack)
    (h1 : r1 ∈ (parseState mermaidCode).loops) (h2 : r2 ∈ (parseState mermaidCode).loops) :
    ∃ L1 L2 : Loop, ∃ e1 e2 : Int,
      (parseState mermaidCode).heap[r1]? = some L1 ∧
      (parseState mermaidCode).heap[r2]? = some L2 ∧
      L1 ∈ (parseMermaidSequence mermaidCode).loops ∧
      L2 ∈ (parseMermaidSequence mermaidCode).loops ∧
      L1.endIndex = some e1 ∧ L2.endIndex = some e2 ∧
      L1.startIndex ≤ L2.startIndex ∧ e2 ≤ e1 := by
  have hi := inv_parseState mermaidCode
  obtain ⟨a, c, hst, hm⟩ := sublist_pair hopen
  have hn : Nested (stateAt mermaidCode k) r1 r2 := Or.inl ⟨a, c, hst, hm⟩
  have hfin := nested_runLines (inv_stateAt mermaidCode k) hn ((lines mermaidCode).drop k)
  rw [← parseState_eq_runLines_stateAt] at hfin
  rcases hfin with ⟨a', c', hst', _⟩ | ⟨h1', _⟩ |
    ⟨_, _, o1, o2, e1, e2, ho1, ho2, he1, he2, hs12, he12⟩
  · have : r2 ∈ (parseState mermaidCode).loopStack := by
      rw [hst']
      simp
    exact absurd h2 (inv_not_mem_loops_of_mem_stack hi this)
  · exact absurd h1 (inv_not_mem_loops_of_mem_stack hi h1')
  · exact ⟨o1, o2, e1, e2, ho1, ho2, mem_toModel_loops h1 ho1, mem_toModel_loops h2 ho2,
      he1, he2, hs12, he12⟩

/-- Witness for C4: after the fourth line both loops are open, `A` (reference 0)
below `B` (reference 1); both are closed by the end of the text. -/
theorem nested_loop_range_contained_witness :
    List.Sublist [0, 1]
      (stateAt "loop A\nX->Y: 1\nloop B\nX->Y: 2\nX->Y: 3\nend\nX->Y: 4\nend".toList 4).loopStack ∧
    0 ∈ (parseState "loop A\nX->Y: 1\nloop B\nX->Y: 2\nX->Y: 3\nend\nX->Y: 4\nend".toList).loops ∧
    1 ∈ (parseState "loop A\nX->Y: 1\nloop B\nX->Y: 2\nX->Y: 3\nend\nX->Y: 4\nend".toList).loops ∧
    ∃ L1 L2 : Loop, ∃ e1 e2 : Int,
      (parseState
        "loop A\nX->Y: 1\nloop B\nX->Y: 2\nX->Y: 3\nend\nX->Y: 4\nend".toList).heap[0]? = some L1 ∧
      (parseState
        "loop A\nX->Y: 1\nloop B\nX->Y: 2\nX->Y: 3\nend\nX->Y: 4\nend".toList).heap[1]? = some L2 ∧
      L1 ∈ (parseMermaidSequence
        "loop A\nX->Y: 1\nloop B\nX->Y: 2\nX->Y: 3\nend\nX->Y: 4\nend".toList).loops ∧
      L2 ∈ (parseMermaidSequence
        "loop A\nX->Y: 1\nloop B\nX->Y: 2\nX->Y: 3\nend\nX->Y: 4\nend".toList).loops ∧
      L1.endIndex = some e1 ∧ L2.endIndex = some e2 ∧
      L1.startIndex ≤ L2.startIndex ∧ e2 ≤ e1 :=
  ⟨by decide, by decide, by decide,
   nested_loop_range_contained
     "loop A\nX->Y: 1\nloop B\nX->Y: 2\nX->Y: 3\nend\nX->Y: 4\nend".toList 4 0 1
     (by decide) (by decide) (by decide)⟩

/-! ### The renderer -/

theorem findIndexFrom_eq_neg_one_iff (id : Str) (ps : List Participant) (i : Nat) :
    findIndexFrom id ps i = -1 ↔ ∀ p ∈ ps, p.id ≠ id := by
  induction ps generalizing i with
  | nil => simp [findIndexFrom]
  | cons p ps ih =>
    unfold findIndexFrom
    by_cases h : p.id = id
    · simp only [h, if_true]
      constructor
      · intro hc
        omega
      · intro hc
        exact absurd h (hc p (by simp))
    · simp only [h, if_false, ih]
      constructor
      · intro hc q hq
        rcases List.mem_cons.mp hq with rfl | hq
        · exact h
        · exact hc q hq
      · intro hc q hq
        exact hc q (List.mem_cons_of_mem _ hq)

theorem findIndex_ne_neg_one_iff (ps : List Participant) (id : Str) :
    findIndex ps id ≠ -1 ↔ declared ps id = true := by
  unfold findIndex declared
  rw [Ne, findIndexFrom_eq_neg_one_iff]
  simp

theorem renderParticipants_edge (ps : List Participant) (x : Int) :
    ∀ c ∈ renderParticipants ps x, c.edge = false := by
  induction ps generalizing x with
  | nil => simp [renderParticipants]
  | cons p ps ih =>
    intro c hc
    unfold renderParticipants at hc
    rcases List.mem_append.mp hc with h | h
    · simp only [participantCells, List.mem_cons, List.mem_singleton, List.not_mem_nil,
        or_false] at h
      rcases h with rfl | rfl <;> rfl
    · exact ih _ c h

theorem renderNotes_edge (ps : List Participant) (notes : List Note) (i : Nat) (y : Int) :
    ∀ c ∈ renderNotes ps notes i y, c.edge = false := by
  induction notes generalizing i y with
  | nil => simp [renderNotes]
  | cons n notes ih =>
    intro c hc
    unfold renderNotes at hc
    split at hc
    · rcases List.mem_cons.mp hc with rfl | h
      · rfl
      · exact ih _ _ c h
    · exact ih _ _ c hc

theorem renderLoop_edge {maxArgs : Nat} (ps : List Participant) (msgs : List Message) (L : Loop) (i : Nat)
    (cells : List Cell) (h : renderLoop maxArgs ps msgs L i = some cells) :
    ∀ c ∈ cells, c.edge = false := by
  unfold renderLoop at h
  split at h
  · cases h
    simp
  · split at h
    · dsimp only at h
      split at h
      · split at h
        · cases h
          intro c hc
          rw [List.mem_singleton] at hc
          subst hc
          rfl
        · cases h
      · cases h
    · cases h
      simp

theorem renderLoops_edge {maxArgs : Nat} (ps : List Participant) (msgs : List Message) (loops : List Loop)
    (i : Nat) (cells : List Cell) (h : renderLoops maxArgs ps msgs loops i = some cells) :
    ∀ c ∈ cells, c.edge = false := by
  induction loops generalizing i cells with
  | nil =>
    simp only [renderLoops, Option.some.injEq] at h
    subst h
    simp
  | cons L loops ih =>
    unfold renderLoops at h
    split at h
    · cases h
    · next cs hcs =>
      split at h
      · cases h
      · next more hmore =>
        cases h
        intro c hc
        rcases List.mem_append.mp hc with hc | hc
        · exact renderLoop_edge ps msgs L i cs hcs c hc
        · exact ih _ _ hmore c hc

theorem renderLoop_isSome {maxArgs : Nat} (ps : List Participant) (msgs : List Message) (L : Loop) (i : Nat)
    (h : ∀ e : Int, L.endIndex = some e → (L.startIndex : Int) ≤ e →
      e + 1 ≤ (msgs.length : Int)) :
    (renderLoop maxArgs ps msgs L i).isSome = withinArgumentLimit maxArgs L := by
  unfold renderLoop withinArgumentLimit
  cases he : L.endIndex with
  | none => rfl
  | some e =>
    dsimp only
    by_cases hle : (L.startIndex : Int) ≤ e
    · have hb := h e he hle
      have h1 : L.startIndex < msgs.length := by omega
      have h2 : e.toNat < msgs.length := by omega
      rw [if_pos hle, if_pos hle, List.getElem?_eq_getElem h1, List.getElem?_eq_getElem h2]
      unfold mathMin mathMax
      simp only [List.length_map]
      by_cases hlen : L.messages.length ≤ maxArgs
      · rw [if_pos hlen, if_pos hlen]
        simp [hlen]
      · rw [if_neg hlen, if_neg hlen]
        simp [hlen]
    · rw [if_neg hle, if_neg hle]
      rfl

theorem renderLoops_isSome {maxArgs : Nat} (ps : List Participant) (msgs : List Message) (loops : List Loop)
    (i : Nat)
    (h : ∀ L ∈ loops, ∀ e : Int, L.endIndex = some e → (L.startIndex : Int) ≤ e →
      e + 1 ≤ (msgs.length : Int)) :
    (renderLoops maxArgs ps msgs loops i).isSome = loops.all (withinArgumentLimit maxArgs) := by
  induction loops generalizing i with
  | nil => rfl
  | cons L loops ih =>
    unfold renderLoops
    have h1 : (renderLoop maxArgs ps msgs L i).isSome = withinArgumentLimit maxArgs L :=
      renderLoop_isSome ps msgs L i (h L (by simp))
    have h2 : (renderLoops maxArgs ps msgs loops (i + 1)).isSome =
        loops.all (withinArgumentLimit maxArgs) :=
      ih (i + 1) (fun L' hL' => h L' (List.mem_cons_of_mem _ hL'))
    rw [List.all_cons, ← h1, ← h2]
    cases renderLoop maxArgs ps msgs L i with
    | none => rfl
    | some cs =>
      cases renderLoops maxArgs ps msgs loops (i + 1) with
      | none => rfl
      | some more => rfl

theorem renderMessages_edgeCells (ps : List Participant) (msgs : List Message) (i : Nat)
    (y : Int) :
    edgeCells (renderMessages ps msgs i y).1 = (renderMessages ps msgs i y).1 ∧
    (renderMessages ps msgs i y).1.map (fun c => (c.value, c.style)) =
      (msgs.filter (resolved ps)).map (fun m => (some m.text, some m.style)) := by
  induction msgs generalizing i y with
  | nil => simp [renderMessages, edgeCells]
  | cons m msgs ih =>
    unfold renderMessages
    by_cases hres : resolved ps m = true
    · have hcond : findIndex ps m.from_ ≠ -1 ∧ findIndex ps m.to_ ≠ -1 := by
        simp only [resolved, Bool.and_eq_true] at hres
        exact ⟨(findIndex_ne_neg_one_iff _ _).mpr hres.1, (findIndex_ne_neg_one_iff _ _).mpr hres.2⟩
      rw [if_pos hcond]
      dsimp only
      obtain ⟨ih1, ih2⟩ := ih (i + 1) (y + 60)
      refine ⟨?_, ?_⟩
      · unfold edgeCells at ih1 ⊢
        rw [List.filter_cons_of_pos (by rfl), ih1]
      · rw [List.filter_cons_of_pos hres, List.map_cons, List.map_cons, ih2]
    · have hcond : ¬ (findIndex ps m.from_ ≠ -1 ∧ findIndex ps m.to_ ≠ -1) := by
        intro hc
        apply hres
        simp only [resolved, Bool.and_eq_true]
        exact ⟨(findIndex_ne_neg_one_iff _ _).mp hc.1, (findIndex_ne_neg_one_iff _ _).mp hc.2⟩
      rw [if_neg hcond]
      rw [List.filter_cons_of_neg hres]
      exact ih (i + 1) y

theorem filter_eq_nil_of_edge_false (cells : List Cell) (h : ∀ c ∈ cells, c.edge = false) :
    edgeCells cells = [] := by
  unfold edgeCells
  rw [List.filter_eq_nil_iff]
  intro c hc
  simp [h c hc]

theorem edgeCells_append (xs ys : List Cell) :
    edgeCells (xs ++ ys) = edgeCells xs ++ edgeCells ys := by
  simp [edgeCells]

theorem documentCells_edgeCells {maxArgs : Nat} (ps : List Participant) (msgs : List Message)
    (notes : List Note) (loops : List Loop) (cells : List Cell)
    (h : documentCells maxArgs ps msgs notes loops = some cells) :
    edgeCells cells = (renderMessages ps msgs 0 110).1 := by
  unfold documentCells at h
  simp only [] at h
  split at h
  · cases h
  · next loopPart hloop =>
    cases h
    rw [edgeCells_append, edgeCells_append, edgeCells_append, edgeCells_append]
    rw [filter_eq_nil_of_edge_false rootCells (by decide),
      filter_eq_nil_of_edge_false _ (renderParticipants_edge ps 80),
      filter_eq_nil_of_edge_false _ (renderLoops_edge ps msgs loops 0 loopPart hloop),
      filter_eq_nil_of_edge_false _ (renderNotes_edge ps notes 0 _),
      (renderMessages_edgeCells ps msgs 0 110).1]
    simp

theorem parsed_loops_in_bounds (mermaidCode : Str) :
    ∀ L ∈ (parseMermaidSequence mermaidCode).loops, ∀ e : Int, L.endIndex = some e →
      (L.startIndex : Int) ≤ e →
      e + 1 ≤ ((parseMermaidSequence mermaidCode).messages.length : Int) := by
  intro L hL e he _
  obtain ⟨r, hr, hrL⟩ := toModel_loops_mem (parseState mermaidCode) L hL
  obtain ⟨o, e', ho, h1, _, h3, _⟩ := (inv_parseState mermaidCode).closed r hr
  rw [hrL] at ho
  cases ho
  rw [he] at h1
  cases h1
  exact h3

theorem eq_some_getD_of_isSome {α : Type} (o : Option α) (d : α) (h : o.isSome = true) :
    o = some (o.getD d) := by
  cases o with
  | none => cases h
  | some a => rfl

theorem convertedCells_isSome {maxArgs : Nat} (mermaidCode : Str) :
    (convertedCells maxArgs mermaidCode).isSome =
      (parseMermaidSequence mermaidCode).loops.all (withinArgumentLimit maxArgs) := by
  unfold convertedCells documentCells
  simp only []
  rw [← renderLoops_isSome (parseMermaidSequence mermaidCode).participants
    (parseMermaidSequence mermaidCode).messages (parseMermaidSequence mermaidCode).loops 0
    (parsed_loops_in_bounds mermaidCode)]
  cases renderLoops maxArgs (parseMermaidSequence mermaidCode).participants
    (parseMermaidSequence mermaidCode).messages (parseMermaidSequence mermaidCode).loops 0 with
  | none => rfl
  | some cs => rfl

theorem convert_eq_map {maxArgs : Nat} (clock : Clock) (mermaidCode : Str) :
    convertMermaidToDrawio clock maxArgs mermaidCode =
      (convertedCells maxArgs mermaidCode).map (documentXml clock) :=
  rfl

/-- C5: whenever the conversion yields a document (it does when no loop frame
needs more spread arguments than the engine accepts), the message edge cells of
the document are exactly the messages of the model whose `from` and `to` are both
ids of parsed participants, in order: as many edges as such messages, each
carrying the text and style of its message.  A message with an undeclared end
stays in the model's message list and contributes no edge. -/
theorem edge_count_eq_resolved_messages (maxArgs : Nat) (mermaidCode : Str) :
    ((parseMermaidSequence mermaidCode).loops.all (withinArgumentLimit maxArgs) = true →
      ∃ cells, convertedCells maxArgs mermaidCode = some cells) ∧
    ∀ cells, convertedCells maxArgs mermaidCode = some cells →
      (edgeCells cells).length =
        ((parseMermaidSequence mermaidCode).messages.filter
          (resolved (parseMermaidSequence mermaidCode).participants)).length ∧
      (edgeCells cells).map (fun c => (c.value, c.style)) =
        ((parseMermaidSequence mermaidCode).messages.filter
          (resolved (parseMermaidSequence mermaidCode).participants)).map
            (fun m => (some m.text, some m.style)) := by
  refine ⟨?_, ?_⟩
  · intro hall
    apply Option.isSome_iff_exists.mp
    rw [convertedCells_isSome]
    exact hall
  · intro cells hcells
    have hedge := documentCells_edgeCells _ _ _ _ cells hcells
    have hmap := (renderMessages_edgeCells (parseMermaidSequence mermaidCode).participants
      (parseMermaidSequence mermaidCode).messages 0 110).2
    rw [hedge]
    refine ⟨?_, hmap⟩
    have := congrArg List.length hmap
    simpa using this

/-- Witness for C5: of the three messages the second goes to the undeclared `X`;
the document has two edges. -/
theorem edge_count_eq_resolved_messages_witness :
    (convertedCells 100000
      "participant A as Alice\nparticipant B as Bob\nA->>B: 1\nA->>X: 2\nB-->>A: 3".toList).isSome ∧
    ((parseMermaidSequence
      "participant A as Alice\nparticipant B as Bob\nA->>B: 1\nA->>X: 2\nB-->>A: 3".toList).messages.map
        Message.text = ["1".toList, "2".toList, "3".toList]) ∧
    (edgeCells ((convertedCells 100000
      "participant A as Alice\nparticipant B as Bob\nA->>B: 1\nA->>X: 2\nB-->>A: 3".toList).getD
        [])).map (fun c => c.value) = [some "1".toList, some "3".toList] ∧
    (edgeCells ((convertedCells 100000
      "participant A as Alice\nparticipant B as Bob\nA->>B: 1\nA->>X: 2\nB-->>A: 3".toList).getD
        [])).length =
      ((parseMermaidSequence
        "participant A as Alice\nparticipant B as Bob\nA->>B: 1\nA->>X: 2\nB-->>A: 3".toList).messages.filter
        (resolved (parseMermaidSequence
          "participant A as Alice\nparticipant B as Bob\nA->>B: 1\nA->>X: 2\nB-->>A: 3".toList).participants)).length :=
  ⟨by decide, by decide, by decide,
   ((edge_count_eq_resolved_messages 100000
      "participant A as Alice\nparticipant B as Bob\nA->>B: 1\nA->>X: 2\nB-->>A: 3".toList).2 _
      (eq_some_getD_of_isSome _ [] (by decide))).1⟩

/-- C6 (as the code has it): the conversion returns a document exactly when no
loop that gets a frame has more members than the engine accepts as arguments of
one call; beyond that the spread `Math.min(...)` of source line 123 raises a
`RangeError`.  Nothing else raises: for every loop of the parsed model with
`startIndex <= endIndex` both `messages[startIndex]` and `messages[endIndex]`
exist, so the loop renderer never reads a property of `undefined`. -/
theorem convert_never_raises (clock : Clock) (maxArgs : Nat) (mermaidCode : Str) :
    ((convertMermaidToDrawio clock maxArgs mermaidCode).isSome =
      (parseMermaidSequence mermaidCode).loops.all (withinArgumentLimit maxArgs)) ∧
    ∀ L ∈ (parseMermaidSequence mermaidCode).loops, ∀ e : Int, L.endIndex = some e →
      (L.startIndex : Int) ≤ e →
      ((parseMermaidSequence mermaidCode).messages[L.startIndex]?).isSome ∧
      ((parseMermaidSequence mermaidCode).messages[e.toNat]?).isSome := by
  refine ⟨?_, ?_⟩
  · rw [convert_eq_map, ← convertedCells_isSome]
    cases convertedCells maxArgs mermaidCode with
    | none => rfl
    | some cells => rfl
  · intro L hL e he hle
    have hb := parsed_loops_in_bounds mermaidCode L hL e he hle
    have h1 : L.startIndex < (parseMermaidSequence mermaidCode).messages.length := by omega
    have h2 : e.toNat < (parseMermaidSequence mermaidCode).messages.length := by omega
    rw [List.getElem?_eq_getElem h1, List.getElem?_eq_getElem h2]
    exact ⟨rfl, rfl⟩

/-- C9, the code at the failing input: the only member of loop `L` goes to the
undeclared participant `X`.  The message is in the model and has no edge, yet
the frame of the loop is written, with its left border computed from the index
`-1` of `X` (`80 - 180 + 30 - 20 = -90`). -/
theorem loop_frame_with_undeclared_member :
    (parseMermaidSequence "participant A as Alice\nloop L\nA->>X: hi\nend".toList).loops.map
      (fun L => L.messages.map fun m => (m.from_, m.to_)) = [[("A".toList, "X".toList)]] ∧
    declared (parseMermaidSequence
      "participant A as Alice\nloop L\nA->>X: hi\nend".toList).participants "X".toList = false ∧
    (convertedCells 100000 "participant A as Alice\nloop L\nA->>X: hi\nend".toList).map
      (fun cells => (edgeCells cells).length) = some 0 ∧
    (convertedCells 100000 "participant A as Alice\nloop L\nA->>X: hi\nend".toList).map
      (fun cells => (frameCells cells).map fun c => (c.id, c.value, c.geometry)) =
      some [("loop0".toList, some "L".toList,
        Geometry.box (.num (-90)) (.num 80) (.num 260) (.num 100))] := by
  refine ⟨by decide, by decide, by decide, by decide⟩

/-- C10, the code at the failing input: with `A` declared before `B`, the note
over `A,B` starts at `A` and is 280 wide, while the note over `B,A` starts at
`B` and has the width `(0 - 1 + 1) * 180 - 80 = -80`. -/
theorem note_over_reversed_targets :
    (convertedCells 100000
      "participant A as Alice\nparticipant B as Bob\nNote over A,B: t".toList).map
      (fun cells => (noteCells cells).map fun c => c.geometry) =
      some [Geometry.box (.num 80) (.num 130) (.num 280) (.num 40)] ∧
    (convertedCells 100000
      "participant A as Alice\nparticipant B as Bob\nNote over B,A: t".toList).map
      (fun cells => (noteCells cells).map fun c => c.geometry) =
      some [Geometry.box (.num 260) (.num 130) (.num (-80)) (.num 40)] := by
  refine ⟨by decide, by decide⟩

/-! ### Message lines -/

theorem isWordChar_not_whitespace (c : Char) (h : isWordChar c = true) :
    isJsWhitespace c = false := by
  unfold isWordChar at h
  unfold isJsWhitespace
  simp only [Bool.or_eq_true, Bool.and_eq_true, decide_eq_true_eq, beq_iff_eq] at h
  simp only [Bool.or_eq_false_iff, Bool.and_eq_false_imp, decide_eq_true_eq, beq_eq_false_iff_ne,
    decide_eq_false_iff_not, ne_eq]
  omega

theorem isWordChar_not_lineTerminator (c : Char) (h : isWordChar c = true) :
    isLineTerminator c = false := by
  unfold isWordChar at h
  unfold isLineTerminator
  simp only [Bool.or_eq_true, Bool.and_eq_true, decide_eq_true_eq, beq_iff_eq] at h
  simp only [Bool.or_eq_false_iff, beq_eq_false_iff_ne, ne_eq]
  omega

theorem ne_of_isWordChar {c d : Char} (h : isWordChar c = true) (hd : isWordChar d = false) :
    c ≠ d := by
  rintro rfl
  rw [h] at hd
  cases hd

theorem ne_newline_of_not_lineTerminator {c : Char} (h : isLineTerminator c = false) :
    c ≠ '\n' := by
  rintro rfl
  revert h
  decide

theorem splitOn_of_forall_ne (sep : Char) (s : Str) (h : ∀ c ∈ s, c ≠ sep) :
    splitOn sep s = [s] := by
  induction s with
  | nil => rfl
  | cons c cs ih =>
    have hc : c ≠ sep := h c (by simp)
    have hcs := ih (fun d hd => h d (List.mem_cons_of_mem _ hd))
    simp [splitOn, hc, hcs]

theorem trim_eq_self (c : Char) (s : Str) (hc : isJsWhitespace c = false)
    (hlast : ∀ d, (c :: s).getLast? = some d → isJsWhitespace d = false) :
    trim (c :: s) = c :: s := by
  have h1 : trimStart (c :: s) = c :: s := by
    simp [trimStart, List.dropWhile, hc]
  unfold trim
  rw [h1]
  unfold trimEnd
  cases hr : (c :: s).reverse with
  | nil => simp at hr
  | cons d ds =>
    have hd : (c :: s).getLast? = some d := by
      rw [List.getLast?_eq_head?_reverse, hr]
      rfl
    have hdw := hlast d hd
    rw [List.dropWhile_cons_of_neg (by simp [hdw]), ← hr, List.reverse_reverse]

theorem stripLit_append (lit s : Str) : stripLit lit (lit ++ s) = some s := by
  induction lit with
  | nil => cases s <;> rfl
  | cons a as ih => simp [stripLit, ih]

theorem includes_append (lit a b : Str) : includes lit (a ++ (lit ++ b)) = true := by
  induction a with
  | nil =>
    cases h : lit ++ b with
    | nil =>
      have : lit = [] := (List.append_eq_nil.mp h).1
      subst this
      rfl
    | cons c cs =>
      simp only [List.nil_append, includes, Bool.or_eq_true]
      left
      rw [← h]
      simp [startsWith, stripLit_append]
  | cons c cs ih =>
    simp only [List.cons_append, includes, Bool.or_eq_true]
    right
    exact ih

theorem startsWith_word_space (w : Str) (f : Str) (c : Char) (rest : Str)
    (hw : ∀ d ∈ w, isWordChar d = true) (hf : ∀ d ∈ f, isWordChar d = true)
    (hc : isWordChar c = false) (hsp : c ≠ ' ') :
    startsWith (w ++ [' ']) (f ++ c :: rest) = false := by
  have hspace : isWordChar ' ' = false := by decide
  induction w generalizing f with
  | nil =>
    cases f with
    | nil => simp [startsWith, stripLit, Ne.symm hsp]
    | cons d ds =>
      have hd : d ≠ ' ' := ne_of_isWordChar (hf d (by simp)) hspace
      simp [startsWith, stripLit, Ne.symm hd]
  | cons x xs ih =>
    cases f with
    | nil =>
      have hx : x ≠ c := ne_of_isWordChar (hw x (by simp)) hc
      simp [startsWith, stripLit, hx]
    | cons d ds =>
      by_cases hxd : x = d
      · have := ih ds (fun e he => hw e (List.mem_cons_of_mem _ he))
          (fun e he => hf e (List.mem_cons_of_mem _ he))
        simp only [startsWith] at this ⊢
        simpa [stripLit, hxd] using this
      · simp [startsWith, stripLit, hxd]

theorem search_of_some {α : Type} (m : Str → Option α) (s : Str) (v : α) (h : m s = some v) :
    search m s = some v := by
  cases s with
  | nil => exact h
  | cons c cs => simp [search, h]

theorem starThen_greedy {α : Type} (p : Char → Bool) (k : Str → Str → Option α)
    (w rest : Str) (v : α) (hp : ∀ c ∈ w, p c = true)
    (hrest : ∀ c, rest.head? = some c → p c = false) :
    ∀ acc, k (acc ++ w) rest = some v → starThen p k acc (w ++ rest) = some v := by
  induction w with
  | nil =>
    intro acc hk
    rw [List.append_nil] at hk
    cases rest with
    | nil => exact hk
    | cons c cs =>
      have hc : p c = false := hrest c rfl
      simp [starThen, hc, hk]
  | cons x xs ih =>
    intro acc hk
    have hx : p x = true := hp x (by simp)
    have hrec := ih (fun c hc => hp c (List.mem_cons_of_mem _ hc)) (acc ++ [x])
      (by simpa using hk)
    simp [starThen, hx, hrec]

theorem plusThen_greedy {α : Type} (p : Char → Bool) (k : Str → Str → Option α)
    (x : Char) (xs rest : Str) (v : α) (hp : ∀ c ∈ x :: xs, p c = true)
    (hrest : ∀ c, rest.head? = some c → p c = false)
    (hk : k (x :: xs) rest = some v) : plusThen p k (x :: xs ++ rest) = some v := by
  have hx : p x = true := hp x (by simp)
  have := starThen_greedy p k xs rest v (fun c hc => hp c (List.mem_cons_of_mem _ hc)) hrest [x]
    (by simpa using hk)
  simp [plusThen, hx, this]

theorem altThen_primary {α : Type} (k : Str → Str → Option α) (arrow : Str) (tc : Char)
    (rest : Str) (v : α)
    (harrow : arrow = ['-', '>', '>'] ∨ arrow = ['-', '-', '>', '>'] ∨
      arrow = ['-', '>'] ∨ arrow = ['-', '-', '>'])
    (htc : tc ≠ '>') (hk : k arrow (tc :: rest) = some v) :
    altThen k (arrow ++ tc :: rest) arrowTokens = some v := by
  have htc' : ¬ '>' = tc := fun h => htc h.symm
  rcases harrow with rfl | rfl | rfl | rfl <;>
    simp [altThen, arrowTokens, litThen, stripLit, hk, htc']

theorem messageAt_line (F T t arrow : Str)
    (hF : F ≠ []) (hFw : ∀ c ∈ F, isWordChar c = true)
    (hT : T ≠ []) (hTw : ∀ c ∈ T, isWordChar c = true)
    (ht : t ≠ []) (htl : ∀ c ∈ t, isLineTerminator c = false)
    (harrow : arrow = ['-', '>', '>'] ∨ arrow = ['-', '-', '>', '>'] ∨
      arrow = ['-', '>'] ∨ arrow = ['-', '-', '>']) :
    messageAt (F ++ (arrow ++ (T ++ (':' :: ' ' :: t)))) =
      some { from_ := F, arrow := arrow, to_ := T, text := t } := by
  obtain ⟨fc, F', rfl⟩ := List.exists_cons_of_ne_nil hF
  obtain ⟨tc, T', rfl⟩ := List.exists_cons_of_ne_nil hT
  obtain ⟨xc, t', rfl⟩ := List.exists_cons_of_ne_nil ht
  have hgt : isWordChar '>' = false := by decide
  have hdash : isWordChar '-' = false := by decide
  have hcolon : isWordChar ':' = false := by decide
  have htc : tc ≠ '>' := ne_of_isWordChar (hTw tc (by simp)) hgt
  unfold messageAt
  apply plusThen_greedy isWordChar _ fc F' _ _ hFw
  · intro c hc
    rcases harrow with rfl | rfl | rfl | rfl <;>
      · simp only [List.cons_append, List.head?_cons, Option.some.injEq] at hc
        subst hc
        exact hdash
  · show altThen _ (arrow ++ tc :: (T' ++ ':' :: ' ' :: xc :: t')) arrowTokens = _
    apply altThen_primary _ arrow tc _ _ harrow htc
    show plusThen isWordChar _ (tc :: T' ++ ':' :: ' ' :: xc :: t') = _
    apply plusThen_greedy isWordChar _ tc T' _ _ hTw
    · intro c hc
      simp only [List.head?_cons, Option.some.injEq] at hc
      subst hc
      exact hcolon
    · show litThen ": ".toList _ (": ".toList ++ xc :: t') = _
      unfold litThen
      rw [stripLit_append]
      have hgo := plusThen_greedy isDot
        (fun text _ =>
          some ({ from_ := fc :: F', arrow := arrow, to_ := tc :: T', text := text } : MessageMatch))
        xc t' [] _ (fun c hc => by simp [isDot, htl c hc]) (fun c hc => by cases hc) rfl
      rw [List.append_nil] at hgo
      exact hgo

theorem processLine_message_line (F T t arrow : Str)
    (hF : F ≠ []) (hFw : ∀ c ∈ F, isWordChar c = true)
    (hT : T ≠ []) (hTw : ∀ c ∈ T, isWordChar c = true)
    (ht : t ≠ []) (htl : ∀ c ∈ t, isLineTerminator c = false)
    (harrow : arrow = ['-', '>', '>'] ∨ arrow = ['-', '-', '>', '>'] ∨
      arrow = ['-', '>'] ∨ arrow = ['-', '-', '>'])
    (σ : ParseState) :
    (processLine σ (F ++ (arrow ++ (T ++ (':' :: ' ' :: t))))).messages =
      σ.messages ++ [{ from_ := F, to_ := T, text := t, style := arrowStyle arrow }] := by
  have hdash : isWordChar '-' = false := by decide
  have hsp : '-' ≠ ' ' := by decide
  obtain ⟨a', ha'⟩ : ∃ a', arrow = '-' :: a' := by
    rcases harrow with rfl | rfl | rfl | rfl <;> exact ⟨_, rfl⟩
  obtain ⟨pre, post, hpp⟩ : ∃ pre post, arrow = pre ++ ("->".toList ++ post) := by
    rcases harrow with rfl | rfl | rfl | rfl
    · exact ⟨[], ['>'], rfl⟩
    · exact ⟨['-'], ['>'], rfl⟩
    · exact ⟨[], [], rfl⟩
    · exact ⟨['-'], [], rfl⟩
  have hline : F ++ (arrow ++ (T ++ (':' :: ' ' :: t))) =
      F ++ '-' :: (a' ++ (T ++ (':' :: ' ' :: t))) := by
    rw [ha']
    rfl
  have h1 : startsWith "participant ".toList (F ++ (arrow ++ (T ++ (':' :: ' ' :: t)))) = false := by
    rw [hline]
    exact startsWith_word_space "participant".toList F '-' _ (by decide) hFw hdash hsp
  have h2 : startsWith "Note ".toList (F ++ (arrow ++ (T ++ (':' :: ' ' :: t)))) = false := by
    rw [hline]
    exact startsWith_word_space "Note".toList F '-' _ (by decide) hFw hdash hsp
  have h3 : startsWith "loop ".toList (F ++ (arrow ++ (T ++ (':' :: ' ' :: t)))) = false := by
    rw [hline]
    exact startsWith_word_space "loop".toList F '-' _ (by decide) hFw hdash hsp
  have h4 : F ++ (arrow ++ (T ++ (':' :: ' ' :: t))) ≠ "end".toList := by
    intro h
    have hmem : '-' ∈ "end".toList := by
      rw [← h, hline]
      simp
    revert hmem
    decide
  have h5 : includes "->".toList (F ++ (arrow ++ (T ++ (':' :: ' ' :: t)))) = true := by
    have : F ++ (arrow ++ (T ++ (':' :: ' ' :: t))) =
        (F ++ pre) ++ ("->".toList ++ (post ++ (T ++ (':' :: ' ' :: t)))) := by
      rw [hpp]
      simp only [List.append_assoc]
    rw [this]
    exact includes_append _ _ _
  have h6 : matchMessage (F ++ (arrow ++ (T ++ (':' :: ' ' :: t)))) =
      some { from_ := F, arrow := arrow, to_ := T, text := t } :=
    search_of_some _ _ _ (messageAt_line F T t arrow hF hFw hT hTw ht htl harrow)
  unfold processLine
  rw [h1, h2, h3, if_neg h4, h5, h6]
  simp only [Bool.false_eq_true, if_false, Bool.or_true, Bool.true_or, if_true]
  cases σ.currentLoop <;> rfl

theorem lines_single (c : Char) (s : Str) (hnl : ∀ d ∈ c :: s, d ≠ '\n')
    (hc : isJsWhitespace c = false)
    (hlast : ∀ d, (c :: s).getLast? = some d → isJsWhitespace d = false) :
    lines (c :: s) = [c :: s] := by
  unfold lines
  rw [splitOn_of_forall_ne _ _ hnl]
  simp [trim_eq_self c s hc hlast]

theorem not_whitespace_of_trimEnd_eq (t : Str) (h : trimEnd t = t) (d : Char)
    (hd : t.getLast? = some d) : isJsWhitespace d = false := by
  cases hw : isJsWhitespace d with
  | false => rfl
  | true =>
    exfalso
    have hrev : t.reverse.head? = some d := by
      rw [← List.getLast?_eq_head?_reverse]
      exact hd
    cases hr : t.reverse with
    | nil => simp [hr] at hrev
    | cons x r =>
      rw [hr] at hrev
      have hx : x = d := by simpa using hrev
      subst hx
      have hlen : (trimEnd t).length ≤ r.length := by
        unfold trimEnd
        rw [hr, List.dropWhile_cons_of_pos hw, List.length_reverse]
        exact (List.dropWhile_sublist _).length_le
      have hlen2 : t.length = r.length + 1 := by
        have := congrArg List.length hr
        simpa using this
      rw [h] at hlen
      omega

theorem runLines_single (σ : ParseState) (line : Str) :
    runLines σ [line] = processLine σ line := rfl

/-- C7 (as the code has it): for identifiers `F`, `T`, a primary arrow and a
non-empty text `t` that has no line terminator and does not end in white space,
the line `F<arrow>T: t` is parsed into the message `{from: F, to: T, text: t}`,
alone in the model when the line is the whole input and appended to the
messages in any state; its style has `endArrow=block` and no dashed attribute
for `->>` and `->`, and `endArrow=open` with `dashed=1` for `-->>` and `-->`. -/
theorem message_line_parsed (F T t arrow : Str)
    (hF : isIdentifier F = true) (hT : isIdentifier T = true)
    (ht : t ≠ []) (hdot : t.all isDot = true) (hend : trimEnd t = t)
    (harrow : arrow ∈ primaryArrows) :
    (parseMermaidSequence (messageLine F arrow T t)).messages =
      [{ from_ := F, to_ := T, text := t, style := arrowStyle arrow }] ∧
    (∀ σ : ParseState, (processLine σ (messageLine F arrow T t)).messages =
      σ.messages ++ [{ from_ := F, to_ := T, text := t, style := arrowStyle arrow }]) ∧
    ((arrow = "->>".toList ∨ arrow = "->".toList) →
      "endArrow=block".toList ∈ styleAttributes (arrowStyle arrow) ∧
      ∀ a ∈ styleAttributes (arrowStyle arrow), startsWith "dashed".toList a = false) ∧
    ((arrow = "-->>".toList ∨ arrow = "-->".toList) →
      "endArrow=open".toList ∈ styleAttributes (arrowStyle arrow) ∧
      "dashed=1".toList ∈ styleAttributes (arrowStyle arrow)) := by
  have hF' : F ≠ [] ∧ ∀ c ∈ F, isWordChar c = true := by
    simp only [isIdentifier, Bool.and_eq_true, Bool.not_eq_true', List.isEmpty_eq_false,
      List.all_eq_true] at hF
    exact hF
  have hT' : T ≠ [] ∧ ∀ c ∈ T, isWordChar c = true := by
    simp only [isIdentifier, Bool.and_eq_true, Bool.not_eq_true', List.isEmpty_eq_false,
      List.all_eq_true] at hT
    exact hT
  have htl : ∀ c ∈ t, isLineTerminator c = false := by
    intro c hc
    have := List.all_eq_true.mp hdot c hc
    simpa [isDot] using this
  have harrow' : arrow = ['-', '>', '>'] ∨ arrow = ['-', '-', '>', '>'] ∨
      arrow = ['-', '>'] ∨ arrow = ['-', '-', '>'] := by
    simpa [primaryArrows] using harrow
  have hform : messageLine F arrow T t = F ++ (arrow ++ (T ++ (':' :: ' ' :: t))) := by
    simp [messageLine]
  have hstep : ∀ σ : ParseState, (processLine σ (messageLine F arrow T t)).messages =
      σ.messages ++ [{ from_ := F, to_ := T, text := t, style := arrowStyle arrow }] := by
    intro σ
    rw [hform]
    exact processLine_message_line F T t arrow hF'.1 hF'.2 hT'.1 hT'.2 ht htl harrow' σ
  refine ⟨?_, hstep, ?_, ?_⟩
  · obtain ⟨fc, F', rfl⟩ := List.exists_cons_of_ne_nil hF'.1
    have hlines : lines (messageLine (fc :: F') arrow T t) = [messageLine (fc :: F') arrow T t] := by
      have hcons : messageLine (fc :: F') arrow T t =
          fc :: (F' ++ (arrow ++ (T ++ (':' :: ' ' :: t)))) := by
        simp [messageLine]
      rw [hcons]
      apply lines_single
      · intro d hd
        have hd' : d ∈ fc :: F' ∨ d ∈ arrow ∨ d ∈ T ∨ d = ':' ∨ d = ' ' ∨ d ∈ t := by
          simpa [List.mem_append, or_assoc] using hd
        rcases hd' with h | h | h | h | h | h
        · exact ne_newline_of_not_lineTerminator (isWordChar_not_lineTerminator d (hF'.2 d h))
        · have hd2 : d = '-' ∨ d = '>' := by
            rcases harrow' with rfl | rfl | rfl | rfl <;>
              · simp only [List.mem_cons, List.mem_singleton, List.not_mem_nil, or_false] at h
                tauto
          rcases hd2 with rfl | rfl <;> decide
        · exact ne_newline_of_not_lineTerminator (isWordChar_not_lineTerminator d (hT'.2 d h))
        · subst h
          decide
        · subst h
          decide
        · exact ne_newline_of_not_lineTerminator (htl d h)
      · exact isWordChar_not_whitespace fc (hF'.2 fc (by simp))
      · intro d hd
        apply not_whitespace_of_trimEnd_eq t hend d
        rw [← hd, ← hcons, messageLine]
        exact (List.getLast?_append_of_ne_nil _ ht).symm
    show (runLines ParseState.init (lines (messageLine (fc :: F') arrow T t))).toModel.messages = _
    rw [hlines, runLines_single]
    exact hstep ParseState.init
  · intro h
    rcases h with rfl | rfl <;> exact ⟨by decide, by decide⟩
  · intro h
    rcases h with rfl | rfl <;> exact ⟨by decide, by decide⟩

/-- Witness for C7: a dashed reply whose text itself contains `: `. -/
theorem message_line_parsed_witness :
    isIdentifier "Bob".toList = true ∧ isIdentifier "Alice_2".toList = true ∧
    "Hi back: ok".toList ≠ [] ∧ ("Hi back: ok".toList).all isDot = true ∧
    trimEnd "Hi back: ok".toList = "Hi back: ok".toList ∧ "-->>".toList ∈ primaryArrows ∧
    (parseMermaidSequence
        (messageLine "Bob".toList "-->>".toList "Alice_2".toList "Hi back: ok".toList)).messages =
      [{ from_ := "Bob".toList, to_ := "Alice_2".toList, text := "Hi back: ok".toList,
         style := "html=1;verticalAlign=bottom;endArrow=open;curved=0;rounded=0;dashed=1;".toList }] :=
  ⟨by decide, by decide, by decide, by decide, by decide, by decide,
   (message_line_parsed "Bob".toList "Alice_2".toList "Hi back: ok".toList "-->>".toList
      (by decide) (by decide) (by decide) (by decide) (by decide) (by decide)).1⟩

/-- Counterexample to C7 as stated: the non-empty text `hi ` ends in a space,
which `trim` removes from the line, so the message text is `hi`; and the text
`a\rb` holds a carriage return, at which `.+` stops, so the message text is `a`. -/
theorem message_text_cut :
    (parseMermaidSequence
        (messageLine "A".toList "->>".toList "B".toList "hi ".toList)).messages =
      [{ from_ := "A".toList, to_ := "B".toList, text := "hi".toList,
         style := "html=1;verticalAlign=bottom;endArrow=block;curved=0;rounded=0;".toList }] ∧
    (parseMermaidSequence
        (messageLine "A".toList "->>".toList "B".toList "hi ".toList)).messages ≠
      [{ from_ := "A".toList, to_ := "B".toList, text := "hi ".toList,
         style := arrowStyle "->>".toList }] ∧
    (parseMermaidSequence
        (messageLine "A".toList "->>".toList "B".toList "a\rb".toList)).messages =
      [{ from_ := "A".toList, to_ := "B".toList, text := "a".toList,
         style := "html=1;verticalAlign=bottom;endArrow=block;curved=0;rounded=0;".toList }] := by
  refine ⟨by decide, by decide, by decide⟩

/-! ### Code evaluated at failing inputs of later claims -/

/-- C11, the code at the failing input: the pattern of the message branch accepts
`A-xB: hi` and `A-)B: hi`, but the branch is entered only for lines that include
`->`, so neither line adds a message; the same token is parsed, with the base
style, once the text happens to include `->`. -/
theorem lost_message_tokens_dropped :
    matchMessage "A-xB: hi".toList =
      some { from_ := "A".toList, arrow := "-x".toList, to_ := "B".toList, text := "hi".toList } ∧
    (parseMermaidSequence "A-xB: hi".toList).messages = [] ∧
    matchMessage "A-)B: hi".toList =
      some { from_ := "A".toList, arrow := "-)".toList, to_ := "B".toList, text := "hi".toList } ∧
    (parseMermaidSequence "A-)B: hi".toList).messages = [] ∧
    (parseMermaidSequence "A-xB: see ->".toList).messages =
      [{ from_ := "A".toList, to_ := "B".toList, text := "see ->".toList,
         style := "html=1;verticalAlign=bottom;endArrow=".toList }] := by
  refine ⟨by decide, by decide, by decide, by decide, by decide⟩

/-- C12, the code at the failing input: in `Note over A: a: b` the greedy target
group runs to the last `: `, so the note has the targets `A: a` and the text `b`,
not the targets `A` and the text `a: b`; the message pattern on `A->B: a: b`
does keep the whole remainder `a: b`. -/
theorem note_text_after_last_colon :
    (parseMermaidSequence "Note over A: a: b".toList).notes =
      [{ position := "over".toList, targets := "A: a".toList, text := "b".toList }] ∧
    (parseMermaidSequence "A->B: a: b".toList).messages.map Message.text = ["a: b".toList] := by
  refine ⟨by decide, by decide⟩

/-- C14, the code at the failing input: the message before the loop comes from the
undeclared `X` and takes no vertical slot, so the only member of the loop is
drawn at `y = 110`, while the frame, placed by the raw message index 1, has its
top at `y = 140`, below that edge. -/
theorem loop_frame_below_first_member :
    (parseMermaidSequence
        "participant A as Alice\nX->>A: lost\nloop L\nA->>A: ping\nend".toList).loops.map
      (fun L => (L.startIndex, L.endIndex, L.messages.map Message.text)) =
      [(1, some 1, ["ping".toList])] ∧
    (convertedCells 100000
        "participant A as Alice\nX->>A: lost\nloop L\nA->>A: ping\nend".toList).map
      (fun cells => (edgeCells cells).map fun c => (c.value, c.geometry)) =
      some [(some "ping".toList,
        Geometry.points (.num 130) (.num 110) (.num 130) (.num 110))] ∧
    (convertedCells 100000
        "participant A as Alice\nX->>A: lost\nloop L\nA->>A: ping\nend".toList).map
      (fun cells => (frameCells cells).map fun c => c.geometry) =
      some [Geometry.box (.num 90) (.num 140) (.num 80) (.num 100)] := by
  refine ⟨by decide, by decide, by decide⟩

/-! ### Layout of participants -/

theorem renderParticipants_getElem? (ps : List Participant) (x : Int) (i : Nat)
    (p : Participant) (h : ps[i]? = some p) :
    (renderParticipants ps x)[2 * i]? =
      some { id := p.id, value := some p.label, style := some participantStyle, vertex := true,
             edge := false, parent := some "1".toList,
             geometry := .box (.num (x + 180 * i)) (.num 20) (.num 100) (.num 50) } ∧
    (renderParticipants ps x)[2 * i + 1]? =
      some { id := p.id ++ "_lifeline".toList, value := none, style := some lifelineStyle,
             vertex := true, edge := false, parent := some "1".toList,
             geometry := .box (.num (x + 180 * i + 49)) (.num 80) (.num 2) (.num 300) } := by
  induction ps generalizing x i with
  | nil => simp at h
  | cons q qs ih =>
    cases i with
    | zero =>
      simp only [List.getElem?_cons_zero, Option.some.injEq] at h
      subst h
      simp [renderParticipants, participantCells]
    | succ i =>
      simp only [List.getElem?_cons_succ] at h
      obtain ⟨h1, h2⟩ := ih (x + spacing) i h
      have e1 : 2 * (i + 1) = 2 * i + 1 + 1 := by omega
      have e2 : 2 * (i + 1) + 1 = 2 * i + 1 + 1 + 1 := by omega
      have e3 : x + spacing + 180 * (i : Int) = x + 180 * ((i + 1 : Nat) : Int) := by
        simp only [spacing]
        push_cast
        ring
      rw [e3] at h1 h2
      refine ⟨?_, ?_⟩
      · rw [e1]
        simp only [renderParticipants, participantCells, List.cons_append, List.nil_append,
          List.getElem?_cons_succ]
        exact h1
      · rw [e2]
        simp only [renderParticipants, participantCells, List.cons_append, List.nil_append,
          List.getElem?_cons_succ]
        exact h2

theorem length_renderParticipants (ps : List Participant) (x : Int) :
    (renderParticipants ps x).length = 2 * ps.length := by
  induction ps generalizing x with
  | nil => rfl
  | cons q qs ih =>
    simp only [renderParticipants, participantCells, List.cons_append, List.nil_append,
      List.length_cons, ih]
    omega

theorem documentCells_eq {maxArgs : Nat} (ps : List Participant) (msgs : List Message)
    (notes : List Note) (loops : List Loop) (cells : List Cell)
    (h : documentCells maxArgs ps msgs notes loops = some cells) :
    ∃ loopPart, renderLoops maxArgs ps msgs loops 0 = some loopPart ∧
      cells = rootCells ++ renderParticipants ps 80 ++ (renderMessages ps msgs 0 110).1 ++
        loopPart ++ renderNotes ps notes 0 ((renderMessages ps msgs 0 110).2 + 20) := by
  unfold documentCells at h
  simp only [] at h
  split at h
  · cases h
  · next loopPart hloop =>
    cases h
    exact ⟨loopPart, hloop, rfl⟩

theorem documentCells_participant_cell {maxArgs : Nat} (ps : List Participant) (msgs : List Message)
    (notes : List Note) (loops : List Loop) (cells : List Cell)
    (h : documentCells maxArgs ps msgs notes loops = some cells) (k : Nat)
    (hk : k < 2 * ps.length) : cells[2 + k]? = (renderParticipants ps 80)[k]? := by
  obtain ⟨loopPart, _, rfl⟩ := documentCells_eq ps msgs notes loops cells h
  have hlen := length_renderParticipants ps 80
  rw [List.append_assoc, List.append_assoc, List.append_assoc]
  rw [List.getElem?_append_right (by simp [rootCells])]
  have e : 2 + k - rootCells.length = k := by simp [rootCells]
  rw [e]
  rw [List.getElem?_append_left (by omega)]

/-- C16: in every generated document the `i`-th participant (0-based, in list
order) has its header box at `x = 80 + 180 * i`, `y = 20`, 100 wide and 50
high, and its lifeline at `x = 80 + 180 * i + 49`, `y = 80`, 2 wide and 300
high; the two cells follow the two root cells at positions `2 + 2 * i` and
`2 + 2 * i + 1`.  For the input of Scenario A this puts `A` at `x = 80` and `B`
at `x = 260`. -/
theorem participant_layout :
    (∀ (maxArgs : Nat) (participants : List Participant) (messages : List Message)
        (notes : List Note) (loops : List Loop) (cells : List Cell) (i : Nat) (p : Participant),
      documentCells maxArgs participants messages notes loops = some cells →
      participants[i]? = some p →
      cells[2 + 2 * i]? =
        some { id := p.id, value := some p.label, style := some participantStyle,
               vertex := true, edge := false, parent := some "1".toList,
               geometry := .box (.num (80 + 180 * i)) (.num 20) (.num 100) (.num 50) } ∧
      cells[2 + (2 * i + 1)]? =
        some { id := p.id ++ "_lifeline".toList, value := none, style := some lifelineStyle,
               vertex := true, edge := false, parent := some "1".toList,
               geometry := .box (.num (80 + 180 * i + 49)) (.num 80) (.num 2) (.num 300) }) ∧
    (convertedCells 100000
        "participant A as Alice\nparticipant B as Bob\nA->>B: Hello\nB-->>A: Hi back".toList).map
      (fun cells => (cells.filter fun c => c.style == some participantStyle).map
        fun c => (c.id, c.geometry)) =
      some [("A".toList, Geometry.box (.num 80) (.num 20) (.num 100) (.num 50)),
            ("B".toList, Geometry.box (.num 260) (.num 20) (.num 100) (.num 50))] := by
  refine ⟨?_, by decide⟩
  intro maxArgs participants messages notes loops cells i p hgen hp
  have hi : i < participants.length := lt_length_of_getElem?_eq_some hp
  obtain ⟨h1, h2⟩ := renderParticipants_getElem? participants 80 i p hp
  rw [documentCells_participant_cell _ _ _ _ _ hgen (2 * i) (by omega),
    documentCells_participant_cell _ _ _ _ _ hgen (2 * i + 1) (by omega)]
  exact ⟨h1, h2⟩

/-- Witness for C16: the third of three participants, in a model with a message
and a note. -/
theorem participant_layout_witness :
    documentCells 100000
        [{ id := "A".toList, label := "Alice".toList }, { id := "B".toList, label := "Bob".toList },
         { id := "C".toList, label := "Carol".toList }]
        [{ from_ := "A".toList, to_ := "C".toList, text := "hi".toList, style := [] }]
        [{ position := "over".toList, targets := "B".toList, text := "n".toList }] [] ≠ none ∧
    ∀ cells, documentCells 100000
        [{ id := "A".toList, label := "Alice".toList }, { id := "B".toList, label := "Bob".toList },
         { id := "C".toList, label := "Carol".toList }]
        [{ from_ := "A".toList, to_ := "C".toList, text := "hi".toList, style := [] }]
        [{ position := "over".toList, targets := "B".toList, text := "n".toList }] [] =
        some cells →
      cells[2 + 2 * 2]? =
        some { id := "C".toList, value := some "Carol".toList, style := some participantStyle,
               vertex := true, edge := false, parent := some "1".toList,
               geometry := .box (.num (80 + 180 * (2 : Nat))) (.num 20) (.num 100) (.num 50) } :=
  ⟨by decide, fun cells h =>
    (participant_layout.1 _ _ _ _ _ cells 2 { id := "C".toList, label := "Carol".toList } h
      (by decide)).1⟩

/-! ### Layout of message edges -/

theorem findIndexFrom_spec (id : Str) (ps : List Participant) (base : Nat)
    (h : findIndexFrom id ps base ≠ -1) :
    ∃ (i : Nat) (p : Participant), findIndexFrom id ps base = ((base + i : Nat) : Int) ∧
      ps[i]? = some p ∧ p.id = id ∧ ∀ i' < i, ∀ q, ps[i']? = some q → q.id ≠ id := by
  induction ps generalizing base with
  | nil => simp [findIndexFrom] at h
  | cons p ps ih =>
    unfold findIndexFrom at h ⊢
    by_cases hp : p.id = id
    · refine ⟨0, p, by simp [hp], by simp, hp, ?_⟩
      intro i' hi'
      omega
    · rw [if_neg hp] at h ⊢
      obtain ⟨i, q, h1, h2, h3, h4⟩ := ih (base + 1) h
      refine ⟨i + 1, q, ?_, by simpa using h2, h3, ?_⟩
      · rw [h1]
        congr 1
        omega
      · intro i' hi' q' hq'
        cases i' with
        | zero =>
          simp only [List.getElem?_cons_zero, Option.some.injEq] at hq'
          subst hq'
          exact hp
        | succ i' =>
          simp only [List.getElem?_cons_succ] at hq'
          exact h4 i' (by omega) q' hq'

theorem findIndex_spec (ps : List Participant) (id : Str) (h : declared ps id = true) :
    ∃ (i : Nat) (p : Participant), findIndex ps id = (i : Int) ∧
      ps[i]? = some p ∧ p.id = id ∧ ∀ i' < i, ∀ q, ps[i']? = some q → q.id ≠ id := by
  have hne := (findIndex_ne_neg_one_iff ps id).mpr h
  obtain ⟨i, p, h1, h2, h3, h4⟩ := findIndexFrom_spec id ps 0 hne
  exact ⟨i, p, by simpa [findIndex] using h1, h2, h3, h4⟩

theorem renderMessages_getElem? (ps : List Participant) (msgs : List Message) (idx : Nat)
    (y : Int) (k : Nat) :
    ((renderMessages ps msgs idx y).1[k]?).map (fun c => (c.value, c.style, c.geometry)) =
      ((msgs.filter (resolved ps))[k]?).map (fun m =>
        (some m.text, some m.style,
          Geometry.points (.num (80 + findIndex ps m.from_ * spacing + 50)) (.num (y + 60 * k))
            (.num (80 + findIndex ps m.to_ * spacing + 50)) (.num (y + 60 * k)))) := by
  induction msgs generalizing idx y k with
  | nil => simp [renderMessages]
  | cons m msgs ih =>
    unfold renderMessages
    by_cases hres : resolved ps m = true
    · have hcond : findIndex ps m.from_ ≠ -1 ∧ findIndex ps m.to_ ≠ -1 := by
        simp only [resolved, Bool.and_eq_true] at hres
        exact ⟨(findIndex_ne_neg_one_iff _ _).mpr hres.1, (findIndex_ne_neg_one_iff _ _).mpr hres.2⟩
      rw [if_pos hcond, List.filter_cons_of_pos hres]
      dsimp only
      cases k with
      | zero => simp
      | succ k =>
        simp only [List.getElem?_cons_succ]
        rw [ih (idx + 1) (y + 60) k]
        have e : y + 60 + 60 * (k : Int) = y + 60 * ((k + 1 : Nat) : Int) := by
          push_cast
          ring
        rw [e]
    · have hcond : ¬ (findIndex ps m.from_ ≠ -1 ∧ findIndex ps m.to_ ≠ -1) := by
        intro hc
        apply hres
        simp only [resolved, Bool.and_eq_true]
        exact ⟨(findIndex_ne_neg_one_iff _ _).mp hc.1, (findIndex_ne_neg_one_iff _ _).mp hc.2⟩
      rw [if_neg hcond, List.filter_cons_of_neg hres]
      exact ih (idx + 1) y k

theorem renderMessages_snd (ps : List Participant) (msgs : List Message) (idx : Nat) (y : Int) :
    (renderMessages ps msgs idx y).2 = y + 60 * ((msgs.filter (resolved ps)).length : Int) := by
  induction msgs generalizing idx y with
  | nil => simp [renderMessages]
  | cons m msgs ih =>
    unfold renderMessages
    by_cases hres : resolved ps m = true
    · have hcond : findIndex ps m.from_ ≠ -1 ∧ findIndex ps m.to_ ≠ -1 := by
        simp only [resolved, Bool.and_eq_true] at hres
        exact ⟨(findIndex_ne_neg_one_iff _ _).mpr hres.1, (findIndex_ne_neg_one_iff _ _).mpr hres.2⟩
      rw [if_pos hcond, List.filter_cons_of_pos hres]
      dsimp only
      rw [ih (idx + 1) (y + 60), List.length_cons]
      push_cast
      ring
    · have hcond : ¬ (findIndex ps m.from_ ≠ -1 ∧ findIndex ps m.to_ ≠ -1) := by
        intro hc
        apply hres
        simp only [resolved, Bool.and_eq_true]
        exact ⟨(findIndex_ne_neg_one_iff _ _).mp hc.1, (findIndex_ne_neg_one_iff _ _).mp hc.2⟩
      rw [if_neg hcond, List.filter_cons_of_neg hres]
      exact ih (idx + 1) y

theorem edgeAt_of_generate {maxArgs : Nat} (model : Model) (cells : List Cell)
    (hgen : documentCells maxArgs model.participants model.messages model.notes model.loops =
      some cells)
    (k : Nat) (c : Cell) (hc : (edgeCells cells)[k]? = some c) : EdgeAt model cells k c := by
  rw [documentCells_edgeCells _ _ _ _ cells hgen] at hc
  have hmap := renderMessages_getElem? model.participants model.messages 0 110 k
  rw [hc] at hmap
  simp only [Option.map_some'] at hmap
  cases hm : (model.messages.filter (resolved model.participants))[k]? with
  | none => simp [hm] at hmap
  | some m =>
    rw [hm] at hmap
    simp only [Option.map_some', Option.some.injEq, Prod.mk.injEq] at hmap
    obtain ⟨hval, _, hgeo⟩ := hmap
    have hmem : m ∈ model.messages.filter (resolved model.participants) := List.getElem?_mem hm
    have hres : resolved model.participants m = true := (List.mem_filter.mp hmem).2
    simp only [resolved, Bool.and_eq_true] at hres
    obtain ⟨i, pf, hi1, hi2, hi3, hi4⟩ := findIndex_spec model.participants m.from_ hres.1
    obtain ⟨j, pt, hj1, hj2, hj3, hj4⟩ := findIndex_spec model.participants m.to_ hres.2
    have hil : i < model.participants.length := lt_length_of_getElem?_eq_some hi2
    have hjl : j < model.participants.length := lt_length_of_getElem?_eq_some hj2
    refine ⟨m, i, j, pf, pt, hm, hval, hi2, hi3, hi4, hj2, hj3, hj4, ?_, ?_, ?_⟩
    · rw [documentCells_participant_cell _ _ _ _ _ hgen (2 * i) (by omega),
        (renderParticipants_getElem? model.participants 80 i pf hi2).1]
      simp [hi3]
    · rw [documentCells_participant_cell _ _ _ _ _ hgen (2 * j) (by omega),
        (renderParticipants_getElem? model.participants 80 j pt hj2).1]
      simp [hj3]
    · rw [hgeo, hi1, hj1]
      simp only [spacing]
      congr 2 <;> ring

/-- C15: every message edge of a generated document starts at the horizontal
centre of the header box of the first participant whose id is the message's
`from` (box `x` plus 50, half the box width 100), ends at the centre of the
header box of the first participant whose id is its `to`, with the same `y` at
both ends, and the `k`-th edge (from 0, over the edges written) has
`y = 110 + 60 * k`. -/
theorem edge_endpoints {maxArgs : Nat} (mermaidCode : Str) (cells : List Cell)
    (hconv : convertedCells maxArgs mermaidCode = some cells) (k : Nat) (c : Cell)
    (hc : (edgeCells cells)[k]? = some c) :
    EdgeAt (parseMermaidSequence mermaidCode) cells k c :=
  edgeAt_of_generate (parseMermaidSequence mermaidCode) cells hconv k c hc

/-- Witness for C15: the second edge written for a text whose first message has
an undeclared end; it runs from `B` (second participant) to `A` (first). -/
theorem edge_endpoints_witness :
    convertedCells 100000
      "participant A as Alice\nparticipant B as Bob\nA->>X: lost\nA->>B: Hello\nB-->>A: Hi back".toList
      = some ((convertedCells 100000
        "participant A as Alice\nparticipant B as Bob\nA->>X: lost\nA->>B: Hello\nB-->>A: Hi back".toList).getD
          []) ∧
    (edgeCells ((convertedCells 100000
        "participant A as Alice\nparticipant B as Bob\nA->>X: lost\nA->>B: Hello\nB-->>A: Hi back".toList).getD
          []))[1]? =
      some { id := "msg4".toList, value := some "Hi back".toList,
             style := some "html=1;verticalAlign=bottom;endArrow=open;curved=0;rounded=0;dashed=1;".toList,
             vertex := false, edge := true, parent := some "1".toList,
             geometry := .points (.num 310) (.num 170) (.num 130) (.num 170) } ∧
    EdgeAt
      (parseMermaidSequence
        "participant A as Alice\nparticipant B as Bob\nA->>X: lost\nA->>B: Hello\nB-->>A: Hi back".toList)
      ((convertedCells 100000
        "participant A as Alice\nparticipant B as Bob\nA->>X: lost\nA->>B: Hello\nB-->>A: Hi back".toList).getD
          [])
      1
      { id := "msg4".toList, value := some "Hi back".toList,
        style := some "html=1;verticalAlign=bottom;endArrow=open;curved=0;rounded=0;dashed=1;".toList,
        vertex := false, edge := true, parent := some "1".toList,
        geometry := .points (.num 310) (.num 170) (.num 130) (.num 170) } :=
  ⟨eq_some_getD_of_isSome _ [] (by decide), by decide,
   edge_endpoints
     "participant A as Alice\nparticipant B as Bob\nA->>X: lost\nA->>B: Hello\nB-->>A: Hi back".toList
     _ (eq_some_getD_of_isSome _ [] (by decide)) 1 _ (by decide)⟩

/-! ### Layout of notes -/

theorem arrowStyle_head (arrow : Str) : (arrowStyle arrow).head? = some 'h' := by
  unfold arrowStyle
  dsimp only
  split
  · rfl
  · split
    · rfl
    · split
      · rfl
      · split <;> rfl

theorem arrowStyle_ne_noteStyle (arrow : Str) : arrowStyle arrow ≠ noteStyle := by
  intro h
  have h1 := arrowStyle_head arrow
  rw [h] at h1
  revert h1
  decide

theorem processLine_message_styles (σ : ParseState) (line : Str) :
    ∀ m ∈ (processLine σ line).messages, m ∈ σ.messages ∨ ∃ a, m.style = arrowStyle a := by
  intro m hm
  unfold processLine at hm
  split at hm
  · split at hm <;> exact Or.inl hm
  · split at hm
    · split at hm <;> exact Or.inl hm
    · split at hm
      · split at hm <;> exact Or.inl hm
      · split at hm
        · split at hm <;> exact Or.inl hm
        · split at hm
          · split at hm
            · next mm _ =>
              have hmem : m ∈ σ.messages ++
                  [{ from_ := mm.from_, to_ := mm.to_, text := mm.text,
                     style := arrowStyle mm.arrow }] := by
                split at hm <;> exact hm
              rcases List.mem_append.mp hmem with h | h
              · exact Or.inl h
              · rw [List.mem_singleton] at h
                subst h
                exact Or.inr ⟨mm.arrow, rfl⟩
            · exact Or.inl hm
          · exact Or.inl hm

theorem runLines_message_styles (σ : ParseState) (ls : List Str)
    (h : ∀ m ∈ σ.messages, ∃ a, m.style = arrowStyle a) :
    ∀ m ∈ (runLines σ ls).messages, ∃ a, m.style = arrowStyle a := by
  induction ls generalizing σ with
  | nil => exact h
  | cons l ls ih =>
    rw [runLines_cons]
    apply ih
    intro m hm
    rcases processLine_message_styles σ l m hm with h' | h'
    · exact h m h'
    · exact h'

theorem parsed_message_styles (mermaidCode : Str) :
    ∀ m ∈ (parseMermaidSequence mermaidCode).messages, m.style ≠ noteStyle := by
  intro m hm
  have := runLines_message_styles ParseState.init (lines mermaidCode)
    (by intro m hm; cases hm) m hm
  obtain ⟨a, ha⟩ := this
  rw [ha]
  exact arrowStyle_ne_noteStyle a

theorem noteCells_append (xs ys : List Cell) :
    noteCells (xs ++ ys) = noteCells xs ++ noteCells ys := by
  simp [noteCells]

theorem noteCells_eq_nil (cells : List Cell) (h : ∀ c ∈ cells, c.style ≠ some noteStyle) :
    noteCells cells = [] := by
  unfold noteCells
  rw [List.filter_eq_nil_iff]
  intro c hc
  simpa using h c hc

theorem renderParticipants_style (ps : List Participant) (x : Int) :
    ∀ c ∈ renderParticipants ps x, c.style ≠ some noteStyle := by
  induction ps generalizing x with
  | nil => simp [renderParticipants]
  | cons p ps ih =>
    intro c hc
    unfold renderParticipants at hc
    rcases List.mem_append.mp hc with h | h
    · simp only [participantCells, List.mem_cons, List.mem_singleton, List.not_mem_nil,
        or_false] at h
      rcases h with rfl | rfl
      · show some participantStyle ≠ some noteStyle
        decide
      · show some lifelineStyle ≠ some noteStyle
        decide
    · exact ih _ c h

theorem renderMessages_style (ps : List Participant) (msgs : List Message) (idx : Nat) (y : Int) :
    ∀ c ∈ (renderMessages ps msgs idx y).1, ∃ m ∈ msgs, c.style = some m.style := by
  induction msgs generalizing idx y with
  | nil => simp [renderMessages]
  | cons m msgs ih =>
    intro c hc
    unfold renderMessages at hc
    dsimp only at hc
    split at hc
    · rcases List.mem_cons.mp hc with rfl | h
      · exact ⟨m, by simp, rfl⟩
      · obtain ⟨m', hm', hs⟩ := ih _ _ c h
        exact ⟨m', List.mem_cons_of_mem _ hm', hs⟩
    · obtain ⟨m', hm', hs⟩ := ih _ _ c hc
      exact ⟨m', List.mem_cons_of_mem _ hm', hs⟩

theorem renderLoop_style {maxArgs : Nat} (ps : List Participant) (msgs : List Message) (L : Loop) (i : Nat)
    (cells : List Cell) (h : renderLoop maxArgs ps msgs L i = some cells) :
    ∀ c ∈ cells, c.style = some loopStyle := by
  unfold renderLoop at h
  split at h
  · cases h
    simp
  · split at h
    · dsimp only at h
      split at h
      · split at h
        · cases h
          intro c hc
          rw [List.mem_singleton] at hc
          subst hc
          rfl
        · cases h
      · cases h
    · cases h
      simp

theorem renderLoops_style {maxArgs : Nat} (ps : List Participant) (msgs : List Message) (loops : List Loop)
    (i : Nat) (cells : List Cell) (h : renderLoops maxArgs ps msgs loops i = some cells) :
    ∀ c ∈ cells, c.style = some loopStyle := by
  induction loops generalizing i cells with
  | nil =>
    simp only [renderLoops, Option.some.injEq] at h
    subst h
    simp
  | cons L loops ih =>
    unfold renderLoops at h
    split at h
    · cases h
    · next cs hcs =>
      split at h
      · cases h
      · next more hmore =>
        cases h
        intro c hc
        rcases List.mem_append.mp hc with hc | hc
        · exact renderLoop_style ps msgs L i cs hcs c hc
        · exact ih _ _ hmore c hc

theorem renderNotes_style (ps : List Participant) (notes : List Note) (i : Nat) (y : Int) :
    ∀ c ∈ renderNotes ps notes i y, c.style = some noteStyle := by
  induction notes generalizing i y with
  | nil => simp [renderNotes]
  | cons n notes ih =>
    intro c hc
    unfold renderNotes at hc
    split at hc
    · rcases List.mem_cons.mp hc with rfl | h
      · rfl
      · exact ih _ _ c h
    · exact ih _ _ c hc

theorem noteCells_eq_self (cells : List Cell) (h : ∀ c ∈ cells, c.style = some noteStyle) :
    noteCells cells = cells := by
  unfold noteCells
  rw [List.filter_eq_self]
  intro c hc
  simp [h c hc]

theorem noteCells_generate {maxArgs : Nat} (ps : List Participant) (msgs : List Message)
    (notes : List Note) (loops : List Loop) (cells : List Cell)
    (hstyle : ∀ m ∈ msgs, m.style ≠ noteStyle)
    (h : documentCells maxArgs ps msgs notes loops = some cells) :
    noteCells cells = renderNotes ps notes 0 ((renderMessages ps msgs 0 110).2 + 20) := by
  obtain ⟨loopPart, hloop, rfl⟩ := documentCells_eq ps msgs notes loops cells h
  rw [noteCells_append, noteCells_append, noteCells_append, noteCells_append]
  rw [noteCells_eq_nil rootCells (by decide),
    noteCells_eq_nil _ (renderParticipants_style ps 80),
    noteCells_eq_nil (renderMessages ps msgs 0 110).1,
    noteCells_eq_nil loopPart,
    noteCells_eq_self _ (renderNotes_style ps notes 0 _)]
  · simp
  · intro c hc
    rw [renderLoops_style ps msgs loops 0 loopPart hloop c hc]
    decide
  · intro c hc
    obtain ⟨m, hm, hs⟩ := renderMessages_style ps msgs 0 110 c hc
    rw [hs]
    intro heq
    exact hstyle m hm (Option.some.inj heq)

theorem renderNotes_getElem? (ps : List Participant) (notes : List Note) (idx : Nat) (y : Int)
    (j : Nat) :
    ((renderNotes ps notes idx y)[j]?).map (fun c => (c.value, c.geometry)) =
      ((notes.filter (emitted ps))[j]?).bind (fun n =>
        (noteGeometry ps n).map fun g =>
          (some n.text, Geometry.box (.num g.1) (.num (y + 60 * j)) (.num g.2) (.num 40))) := by
  induction notes generalizing idx y j with
  | nil => simp [renderNotes]
  | cons n notes ih =>
    unfold renderNotes
    cases hg : noteGeometry ps n with
    | none =>
      have hem : ¬ emitted ps n = true := by simp [emitted, hg]
      rw [List.filter_cons_of_neg hem]
      exact ih (idx + 1) y j
    | some g =>
      obtain ⟨x, w⟩ := g
      have hem : emitted ps n = true := by simp [emitted, hg]
      rw [List.filter_cons_of_pos hem]
      dsimp only
      cases j with
      | zero => simp [hg]
      | succ j =>
        simp only [List.getElem?_cons_succ]
        rw [ih (idx + 1) (y + 60) j]
        have e : y + 60 + 60 * (j : Int) = y + 60 * ((j + 1 : Nat) : Int) := by
          push_cast
          ring
        rw [e]

theorem renderNotes_values (ps : List Participant) (notes : List Note) (idx : Nat) (y : Int) :
    (renderNotes ps notes idx y).map Cell.value =
      (notes.filter (emitted ps)).map fun n => some n.text := by
  induction notes generalizing idx y with
  | nil => simp [renderNotes]
  | cons n notes ih =>
    unfold renderNotes
    cases hg : noteGeometry ps n with
    | none =>
      have hem : ¬ emitted ps n = true := by simp [emitted, hg]
      rw [List.filter_cons_of_neg hem]
      exact ih (idx + 1) y
    | some g =>
      have hem : emitted ps n = true := by simp [emitted, hg]
      rw [List.filter_cons_of_pos hem]
      dsimp only
      rw [List.map_cons, List.map_cons, ih (idx + 1) (y + 60)]

theorem edgeCells_length_generate {maxArgs : Nat} (ps : List Participant) (msgs : List Message)
    (notes : List Note) (loops : List Loop) (cells : List Cell)
    (h : documentCells maxArgs ps msgs notes loops = some cells) :
    (edgeCells cells).length = (msgs.filter (resolved ps)).length := by
  rw [documentCells_edgeCells ps msgs notes loops cells h]
  have := congrArg List.length (renderMessages_edgeCells ps msgs 0 110).2
  simpa using this

theorem noteAt_of_generate {maxArgs : Nat} (model : Model) (cells : List Cell)
    (hstyle : ∀ m ∈ model.messages, m.style ≠ noteStyle)
    (hgen : documentCells maxArgs model.participants model.messages model.notes model.loops =
      some cells)
    (j : Nat) (c : Cell) (hc : (noteCells cells)[j]? = some c) : NoteAt model cells j c := by
  rw [noteCells_generate _ _ _ _ cells hstyle hgen] at hc
  have hget := renderNotes_getElem? model.participants model.notes 0
    ((renderMessages model.participants model.messages 0 110).2 + 20) j
  rw [hc] at hget
  simp only [Option.map_some'] at hget
  cases hn : (model.notes.filter (emitted model.participants))[j]? with
  | none => simp [hn] at hget
  | some n =>
    rw [hn] at hget
    simp only [Option.some_bind] at hget
    cases hg : noteGeometry model.participants n with
    | none => simp [hg] at hget
    | some g =>
      obtain ⟨x, w⟩ := g
      rw [hg] at hget
      simp only [Option.map_some', Option.some.injEq, Prod.mk.injEq] at hget
      obtain ⟨hval, hgeo⟩ := hget
      refine ⟨n, x, w, hn, hg, hval, ?_⟩
      rw [hgeo, renderMessages_snd, edgeCells_length_generate _ _ _ _ cells hgen]

/-- C17: the note cells of a generated document are the notes of the model for
which a cell is written, in the order they were parsed, wherever the `Note`
lines stood among the message lines; with `E` the number of message edges, the
`j`-th note cell (from 0, over the note cells written) has
`y = 110 + 60 * E + 20 + 60 * j`, so every note cell lies strictly below every
message edge, and a note without a cell takes no vertical slot. -/
theorem note_layout {maxArgs : Nat} (mermaidCode : Str) (cells : List Cell)
    (hconv : convertedCells maxArgs mermaidCode = some cells) :
    (noteCells cells).map Cell.value =
      ((parseMermaidSequence mermaidCode).notes.filter
        (emitted (parseMermaidSequence mermaidCode).participants)).map (fun n => some n.text) ∧
    (∀ (j : Nat) (c : Cell), (noteCells cells)[j]? = some c →
      NoteAt (parseMermaidSequence mermaidCode) cells j c) ∧
    (∀ e ∈ edgeCells cells, ∀ c ∈ noteCells cells, ∃ (x1 ye x2 x yn w : Int),
      e.geometry = .points (.num x1) (.num ye) (.num x2) (.num ye) ∧
      c.geometry = .box (.num x) (.num yn) (.num w) (.num 40) ∧ ye < yn) := by
  have hstyle := parsed_message_styles mermaidCode
  refine ⟨?_, ?_, ?_⟩
  · rw [noteCells_generate _ _ _ _ cells hstyle hconv]
    exact renderNotes_values _ _ _ _
  · intro j c hc
    exact noteAt_of_generate _ cells hstyle hconv j c hc
  · intro e he c hc
    obtain ⟨k, hk⟩ := List.mem_iff_getElem?.mp he
    obtain ⟨j, hj⟩ := List.mem_iff_getElem?.mp hc
    have hklt : k < (edgeCells cells).length := lt_length_of_getElem?_eq_some hk
    obtain ⟨m, i1, i2, pf, pt, _, _, _, _, _, _, _, _, _, _, hgeo⟩ :=
      edgeAt_of_generate _ cells hconv k e hk
    obtain ⟨n, x, w, _, _, _, hbox⟩ := noteAt_of_generate _ cells hstyle hconv j c hj
    refine ⟨_, _, _, _, _, _, hgeo, hbox, ?_⟩
    omega

/-- Witness for C17: the first note stands before all messages, the second has
an undeclared target and gets no cell; the third note is the second note cell,
below the two edges. -/
theorem note_layout_witness :
    convertedCells 100000
      "participant A as Alice\nparticipant B as Bob\nNote over A,B: first\nA->>B: Hello\nNote right of Z: lost\nNote right of B: second\nB-->>A: Hi".toList
      = some ((convertedCells 100000
        "participant A as Alice\nparticipant B as Bob\nNote over A,B: first\nA->>B: Hello\nNote right of Z: lost\nNote right of B: second\nB-->>A: Hi".toList).getD
          []) ∧
    (noteCells ((convertedCells 100000
        "participant A as Alice\nparticipant B as Bob\nNote over A,B: first\nA->>B: Hello\nNote right of Z: lost\nNote right of B: second\nB-->>A: Hi".toList).getD
          []))[1]? =
      some { id := "note2".toList, value := some "second".toList, style := some noteStyle,
             vertex := true, edge := false, parent := some "1".toList,
             geometry := .box (.num 370) (.num 310) (.num 150) (.num 40) } ∧
    NoteAt
      (parseMermaidSequence
        "participant A as Alice\nparticipant B as Bob\nNote over A,B: first\nA->>B: Hello\nNote right of Z: lost\nNote right of B: second\nB-->>A: Hi".toList)
      ((convertedCells 100000
        "participant A as Alice\nparticipant B as Bob\nNote over A,B: first\nA->>B: Hello\nNote right of Z: lost\nNote right of B: second\nB-->>A: Hi".toList).getD
          [])
      1
      { id := "note2".toList, value := some "second".toList, style := some noteStyle,
        vertex := true, edge := false, parent := some "1".toList,
        geometry := .box (.num 370) (.num 310) (.num 150) (.num 40) } :=
  ⟨eq_some_getD_of_isSome _ [] (by decide), by decide,
   (note_layout
     "participant A as Alice\nparticipant B as Bob\nNote over A,B: first\nA->>B: Hello\nNote right of Z: lost\nNote right of B: second\nB-->>A: Hi".toList
     _ (eq_some_getD_of_isSome _ [] (by decide))).2.1 1 _ (by decide)⟩

/-! ### White space around lines -/

theorem dropWhile_append_of_all (p : Char → Bool) (pre x : Str) (h : ∀ c ∈ pre, p c = true) :
    (pre ++ x).dropWhile p = x.dropWhile p := by
  induction pre with
  | nil => rfl
  | cons c cs ih =>
    have hc : p c = true := h c (by simp)
    rw [List.cons_append, List.dropWhile_cons_of_pos hc]
    exact ih (fun d hd => h d (List.mem_cons_of_mem _ hd))

theorem dropWhile_eq_nil_of_all (p : Char → Bool) (x : Str) (h : ∀ c ∈ x, p c = true) :
    x.dropWhile p = [] := by
  have := dropWhile_append_of_all p x [] h
  simpa using this

theorem dropWhile_append_of_exists (p : Char → Bool) (l post : Str)
    (h : ∃ c ∈ l, p c = false) : (l ++ post).dropWhile p = l.dropWhile p ++ post := by
  induction l with
  | nil =>
    obtain ⟨c, hc, _⟩ := h
    cases hc
  | cons c cs ih =>
    cases hc : p c with
    | false =>
      rw [List.cons_append, List.dropWhile_cons_of_neg (by simp [hc]),
        List.dropWhile_cons_of_neg (by simp [hc])]
      rfl
    | true =>
      rw [List.cons_append, List.dropWhile_cons_of_pos hc, List.dropWhile_cons_of_pos hc]
      apply ih
      obtain ⟨d, hd, hpd⟩ := h
      rcases List.mem_cons.mp hd with rfl | hd
      · rw [hc] at hpd
        cases hpd
      · exact ⟨d, hd, hpd⟩

theorem trimEnd_append_of_all (x post : Str) (h : ∀ c ∈ post, isJsWhitespace c = true) :
    trimEnd (x ++ post) = trimEnd x := by
  unfold trimEnd
  rw [List.reverse_append, dropWhile_append_of_all]
  intro c hc
  exact h c (List.mem_reverse.mp hc)

theorem isJsWhitespace_of_isPadding (s : Str) (h : s.all isPadding = true) :
    ∀ c ∈ s, isJsWhitespace c = true := by
  intro c hc
  have := List.all_eq_true.mp h c hc
  simp only [isPadding, Bool.and_eq_true] at this
  exact this.1

theorem ne_newline_of_isPadding (s : Str) (h : s.all isPadding = true) :
    ∀ c ∈ s, c ≠ '\n' := by
  intro c hc
  have := List.all_eq_true.mp h c hc
  simp only [isPadding, Bool.and_eq_true, bne_iff_ne, ne_eq] at this
  exact this.2

theorem trim_pad (pre l post : Str) (hpre : ∀ c ∈ pre, isJsWhitespace c = true)
    (hpost : ∀ c ∈ post, isJsWhitespace c = true) : trim (pre ++ l ++ post) = trim l := by
  unfold trim trimStart
  rw [List.append_assoc, dropWhile_append_of_all _ _ _ hpre]
  by_cases hall : ∀ c ∈ l, isJsWhitespace c = true
  · rw [dropWhile_append_of_all _ _ _ hall, dropWhile_eq_nil_of_all _ _ hpost,
      dropWhile_eq_nil_of_all _ _ hall]
  · have hex : ∃ c ∈ l, isJsWhitespace c = false := by
      by_contra hne
      apply hall
      intro c hc
      cases hw : isJsWhitespace c with
      | true => rfl
      | false => exact absurd ⟨c, hc, hw⟩ hne
    rw [dropWhile_append_of_exists _ _ _ hex, trimEnd_append_of_all _ _ hpost]

theorem lines_of_no_newline (l : Str) (h : ∀ c ∈ l, c ≠ '\n') :
    lines l = [trim l].filter fun line => !line.isEmpty := by
  unfold lines
  rw [splitOn_of_forall_ne _ _ h]
  rfl

theorem lines_pad (pre l post : Str) (hpre : pre.all isPadding = true)
    (hpost : post.all isPadding = true) (hl : ∀ c ∈ l, c ≠ '\n') :
    lines (pre ++ l ++ post) = lines l := by
  have hnl : ∀ c ∈ pre ++ l ++ post, c ≠ '\n' := by
    intro c hc
    rcases List.mem_append.mp hc with hc | hc
    · rcases List.mem_append.mp hc with hc | hc
      · exact ne_newline_of_isPadding pre hpre c hc
      · exact hl c hc
    · exact ne_newline_of_isPadding post hpost c hc
  rw [lines_of_no_newline _ hnl, lines_of_no_newline _ hl,
    trim_pad pre l post (isJsWhitespace_of_isPadding pre hpre)
      (isJsWhitespace_of_isPadding post hpost)]

theorem lines_blank (b : Str) (hb : b.all isPadding = true) : lines b = [] := by
  have h := lines_pad b [] [] hb (by decide) (by intro c hc; cases hc)
  rw [List.append_nil, List.append_nil] at h
  rw [h]
  exact lines_nil

theorem padded_lines {ls ls' : List Str} (h : Padded ls ls') :
    lines (joinLines ls') = lines (joinLines ls) := by
  induction h with
  | nil => rfl
  | pad pre post l ls ls' hpre hpost hl _ ih =>
    rw [lines_joinLines_cons, lines_joinLines_cons, ih, lines_pad pre l post hpre hpost hl]
  | blank b ls ls' hb _ ih =>
    rw [lines_joinLines_cons, ih, lines_blank b hb, List.nil_append]

theorem joinLines_splitOn (s : Str) : joinLines (splitOn '\n' s) = s := by
  induction s with
  | nil => rfl
  | cons c cs ih =>
    cases hs : splitOn '\n' cs with
    | nil => exact absurd hs (splitOn_ne_nil '\n' cs)
    | cons seg segs =>
      rw [hs] at ih
      by_cases hc : c = '\n'
      · subst hc
        have e : splitOn '\n' ('\n' :: cs) = [] :: seg :: segs := by
          simp [splitOn, hs]
        rw [e]
        show [] ++ '\n' :: joinLines (seg :: segs) = _
        rw [ih]
        rfl
      · have e : splitOn '\n' (c :: cs) = (c :: seg) :: segs := by
          simp [splitOn, hc, hs]
        rw [e]
        cases segs with
        | nil =>
          have : seg = cs := ih
          rw [← this]
          rfl
        | cons s2 rest =>
          show (c :: seg) ++ '\n' :: joinLines (s2 :: rest) = _
          have : seg ++ '\n' :: joinLines (s2 :: rest) = cs := ih
          rw [← this]
          rfl

/-- C19: the model does not change when lines of the text are given additional
leading or trailing white space and when empty or white-space-only lines are
inserted anywhere: for every list of lines `ls'` obtained from the lines of
`mermaidCode` by such edits, the text with the lines `ls'` parses to the same
model. -/
theorem whitespace_insensitive (mermaidCode : Str) (ls' : List Str)
    (h : Padded (splitOn '\n' mermaidCode) ls') :
    parseMermaidSequence (joinLines ls') = parseMermaidSequence mermaidCode := by
  have hl := padded_lines h
  rw [joinLines_splitOn] at hl
  unfold parseMermaidSequence parseState
  rw [hl]

/-- Witness for C19: every line of a four-line text is padded with spaces or tabs,
and three blank lines are inserted, one of them empty and at the end. -/
theorem whitespace_insensitive_witness :
    Padded (splitOn '\n' "participant A as Alice\nloop L\nA->>A: hi\nend".toList)
      ["  ".toList ++ "participant A as Alice".toList ++ "\t".toList, " \t ".toList,
       [] ++ "loop L".toList ++ " ".toList, "\t".toList,
       "\t".toList ++ "A->>A: hi".toList ++ [], [] ++ "end".toList ++ "  ".toList, []] ∧
    parseMermaidSequence (joinLines
      ["  ".toList ++ "participant A as Alice".toList ++ "\t".toList, " \t ".toList,
       [] ++ "loop L".toList ++ " ".toList, "\t".toList,
       "\t".toList ++ "A->>A: hi".toList ++ [], [] ++ "end".toList ++ "  ".toList, []]) =
      parseMermaidSequence "participant A as Alice\nloop L\nA->>A: hi\nend".toList :=
  have hp : Padded (splitOn '\n' "participant A as Alice\nloop L\nA->>A: hi\nend".toList)
      ["  ".toList ++ "participant A as Alice".toList ++ "\t".toList, " \t ".toList,
       [] ++ "loop L".toList ++ " ".toList, "\t".toList,
       "\t".toList ++ "A->>A: hi".toList ++ [], [] ++ "end".toList ++ "  ".toList, []] :=
    Padded.pad "  ".toList "\t".toList "participant A as Alice".toList _ _
      (by decide) (by decide) (by decide)
      (Padded.blank " \t ".toList _ _ (by decide)
        (Padded.pad [] " ".toList "loop L".toList _ _ (by decide) (by decide) (by decide)
          (Padded.blank "\t".toList _ _ (by decide)
            (Padded.pad "\t".toList [] "A->>A: hi".toList _ _ (by decide) (by decide) (by decide)
              (Padded.pad [] "  ".toList "end".toList _ _ (by decide) (by decide) (by decide)
                (Padded.blank [] _ _ (by decide) Padded.nil))))))
  ⟨hp, whitespace_insensitive "participant A as Alice\nloop L\nA->>A: hi\nend".toList _ hp⟩

/-! ### Decimal text of indices -/

theorem digitChar_value (k : Nat) (hk : k < 10) : (Nat.digitChar k).toNat - 48 = k := by
  interval_cases k <;> rfl

theorem digitChar_isDigit (k : Nat) (hk : k < 10) : (Nat.digitChar k).isDigit = true := by
  interval_cases k <;> rfl

theorem decimalValue_toDigitsCore (fuel n : Nat) (ds : Str) (h : n < fuel) :
    decimalValue (Nat.toDigitsCore 10 fuel n ds) = n * 10 ^ ds.length + decimalValue ds := by
  induction fuel generalizing n ds with
  | zero => omega
  | succ fuel ih =>
    unfold Nat.toDigitsCore
    dsimp only
    have hmod : n % 10 < 10 := Nat.mod_lt _ (by decide)
    by_cases hq : n / 10 = 0
    · rw [if_pos hq]
      have hn : n % 10 = n := by omega
      simp only [decimalValue]
      rw [digitChar_value _ hmod, hn]
    · rw [if_neg hq]
      have hlt : n / 10 < fuel := by omega
      rw [ih (n / 10) _ hlt]
      simp only [decimalValue, List.length_cons, pow_succ]
      rw [digitChar_value _ hmod]
      have hdm := Nat.div_add_mod n 10
      rw [show n * 10 ^ ds.length = (10 * (n / 10) + n % 10) * 10 ^ ds.length by rw [hdm]]
      ring

theorem decimalValue_natToStr (n : Nat) : decimalValue (natToStr n) = n := by
  unfold natToStr Nat.toDigits
  rw [decimalValue_toDigitsCore _ _ _ (Nat.lt_succ_self n)]
  simp [decimalValue]

theorem natToStr_injective {a b : Nat} (h : natToStr a = natToStr b) : a = b := by
  have := congrArg decimalValue h
  rwa [decimalValue_natToStr, decimalValue_natToStr] at this

theorem toDigitsCore_isDigit (fuel n : Nat) (ds : Str) (hds : ∀ c ∈ ds, c.isDigit = true) :
    ∀ c ∈ Nat.toDigitsCore 10 fuel n ds, c.isDigit = true := by
  induction fuel generalizing n ds with
  | zero => exact hds
  | succ fuel ih =>
    unfold Nat.toDigitsCore
    dsimp only
    have hmod : n % 10 < 10 := Nat.mod_lt _ (by decide)
    have hcons : ∀ c ∈ Nat.digitChar (n % 10) :: ds, c.isDigit = true := by
      intro c hc
      rcases List.mem_cons.mp hc with rfl | hc
      · exact digitChar_isDigit _ hmod
      · exact hds c hc
    by_cases hq : n / 10 = 0
    · rw [if_pos hq]
      exact hcons
    · rw [if_neg hq]
      exact ih _ _ hcons

theorem natToStr_isDigit (n : Nat) : ∀ c ∈ natToStr n, c.isDigit = true :=
  toDigitsCore_isDigit _ _ _ (by intro c hc; cases hc)

theorem toDigitsCore_ne_nil (fuel n : Nat) (ds : Str) (h : 0 < fuel) :
    Nat.toDigitsCore 10 fuel n ds ≠ [] := by
  induction fuel generalizing n ds with
  | zero => omega
  | succ fuel ih =>
    unfold Nat.toDigitsCore
    dsimp only
    by_cases hq : n / 10 = 0
    · rw [if_pos hq]
      simp
    · rw [if_neg hq]
      cases fuel with
      | zero => simp [Nat.toDigitsCore]
      | succ fuel => exact ih _ _ (by omega)

theorem natToStr_ne_nil (n : Nat) : natToStr n ≠ [] :=
  toDigitsCore_ne_nil _ _ _ (by omega)

/-! ### Notes with unresolved targets -/

theorem emitted_over_iff (ps : List Participant) (n : Note) (h : n.position = "over".toList) :
    emitted ps n = true ↔
      declared ps (firstTarget n) = true ∧ declared ps (lastTarget n) = true := by
  unfold emitted noteGeometry firstTarget lastTarget
  rw [if_pos h]
  dsimp only
  rw [← findIndex_ne_neg_one_iff, ← findIndex_ne_neg_one_iff]
  split <;> simp_all

theorem emitted_right_of_iff (ps : List Participant) (n : Note)
    (h : n.position = "right of".toList) :
    emitted ps n = true ↔ declared ps (trim n.targets) = true := by
  have hne : ¬ n.position = "over".toList := by
    rw [h]
    decide
  unfold emitted noteGeometry
  rw [if_neg hne, if_pos h]
  dsimp only
  rw [← findIndex_ne_neg_one_iff]
  split <;> simp_all

theorem renderNotes_ids (ps : List Participant) (notes : List Note) (idx : Nat) (y : Int) :
    ∀ c ∈ renderNotes ps notes idx y, ∃ (j : Nat) (n : Note), notes[j]? = some n ∧
      emitted ps n = true ∧ c.id = "note".toList ++ natToStr (idx + j) ∧
      c.value = some n.text := by
  induction notes generalizing idx y with
  | nil => simp [renderNotes]
  | cons n notes ih =>
    intro c hc
    unfold renderNotes at hc
    cases hg : noteGeometry ps n with
    | none =>
      rw [hg] at hc
      obtain ⟨j, n', h1, h2, h3, h4⟩ := ih (idx + 1) y c hc
      refine ⟨j + 1, n', by simpa using h1, h2, ?_, h4⟩
      rw [h3]
      congr 2
      omega
    | some g =>
      rw [hg] at hc
      dsimp only at hc
      rcases List.mem_cons.mp hc with rfl | hc
      · exact ⟨0, n, by simp, by simp [emitted, hg], rfl, rfl⟩
      · obtain ⟨j, n', h1, h2, h3, h4⟩ := ih (idx + 1) (y + 60) c hc
        refine ⟨j + 1, n', by simpa using h1, h2, ?_, h4⟩
        rw [h3]
        congr 2
        omega

theorem renderNotes_mem (ps : List Participant) (notes : List Note) (idx : Nat) (y : Int)
    (j : Nat) (n : Note) (h : notes[j]? = some n) (he : emitted ps n = true) :
    ∃ c ∈ renderNotes ps notes idx y, c.id = "note".toList ++ natToStr (idx + j) ∧
      c.value = some n.text := by
  induction notes generalizing idx y j with
  | nil => simp at h
  | cons n0 notes ih =>
    unfold renderNotes
    cases j with
    | zero =>
      simp only [List.getElem?_cons_zero, Option.some.injEq] at h
      subst h
      cases hg : noteGeometry ps n0 with
      | none => simp [emitted, hg] at he
      | some g => exact ⟨_, List.mem_cons_self _ _, rfl, rfl⟩
    | succ j =>
      simp only [List.getElem?_cons_succ] at h
      have e : idx + (j + 1) = idx + 1 + j := by omega
      rw [e]
      cases hg : noteGeometry ps n0 with
      | none => exact ih (idx + 1) y j h
      | some g =>
        obtain ⟨c, hc, h1, h2⟩ := ih (idx + 1) (y + 60) j h
        exact ⟨c, List.mem_cons_of_mem _ hc, h1, h2⟩

theorem note_id_injective {a b : Nat}
    (h : "note".toList ++ natToStr a = "note".toList ++ natToStr b) : a = b :=
  natToStr_injective (List.append_cancel_left h)

theorem no_note_cell_of_not_emitted (ps : List Participant) (notes : List Note) (y : Int)
    (i : Nat) (n : Note) (hn : notes[i]? = some n) (he : emitted ps n = false) :
    ∀ c ∈ renderNotes ps notes 0 y, c.id ≠ "note".toList ++ natToStr i := by
  intro c hc hid
  obtain ⟨j, n', h1, h2, h3, _⟩ := renderNotes_ids ps notes 0 y c hc
  rw [h3, Nat.zero_add] at hid
  have := note_id_injective hid
  subst this
  rw [hn] at h1
  cases h1
  rw [he] at h2
  cases h2

/-- C18 (as the code has it): a note cell is skipped when the first or the last of
the comma-separated, trimmed targets of an `over` note, or the whole trimmed
target string of a `right of` note, is not the id of a declared participant.
The targets between the first and the last are never looked up: an `over` note
whose first and last targets are declared gets its cell. -/
theorem note_skipped_by_ends {maxArgs : Nat} (mermaidCode : Str) (cells : List Cell)
    (hconv : convertedCells maxArgs mermaidCode = some cells) (i : Nat) (n : Note)
    (hn : (parseMermaidSequence mermaidCode).notes[i]? = some n) :
    (n.position = "over".toList →
      (declared (parseMermaidSequence mermaidCode).participants (firstTarget n) = false ∨
        declared (parseMermaidSequence mermaidCode).participants (lastTarget n) = false) →
      ∀ c ∈ noteCells cells, c.id ≠ "note".toList ++ natToStr i) ∧
    (n.position = "right of".toList →
      declared (parseMermaidSequence mermaidCode).participants (trim n.targets) = false →
      ∀ c ∈ noteCells cells, c.id ≠ "note".toList ++ natToStr i) ∧
    (n.position = "over".toList →
      declared (parseMermaidSequence mermaidCode).participants (firstTarget n) = true →
      declared (parseMermaidSequence mermaidCode).participants (lastTarget n) = true →
      ∃ c ∈ noteCells cells, c.id = "note".toList ++ natToStr i ∧ c.value = some n.text) := by
  have hcells := noteCells_generate _ _ _ _ cells (parsed_message_styles mermaidCode) hconv
  rw [hcells]
  refine ⟨?_, ?_, ?_⟩
  · intro hpos hun
    apply no_note_cell_of_not_emitted _ _ _ i n hn
    cases he : emitted (parseMermaidSequence mermaidCode).participants n with
    | false => rfl
    | true =>
      have := (emitted_over_iff _ n hpos).mp he
      rcases hun with h | h
      · rw [this.1] at h
        cases h
      · rw [this.2] at h
        cases h
  · intro hpos hun
    apply no_note_cell_of_not_emitted _ _ _ i n hn
    cases he : emitted (parseMermaidSequence mermaidCode).participants n with
    | false => rfl
    | true =>
      have := (emitted_right_of_iff _ n hpos).mp he
      rw [this] at hun
      cases hun
  · intro hpos h1 h2
    have he := (emitted_over_iff _ n hpos).mpr ⟨h1, h2⟩
    have := renderNotes_mem _ _ 0
      ((renderMessages (parseMermaidSequence mermaidCode).participants
        (parseMermaidSequence mermaidCode).messages 0 110).2 + 20) i n hn he
    rwa [Nat.zero_add] at this

/-- Witness for C18: the second note, over `X,B` with `X` undeclared, has no cell. -/
theorem note_skipped_by_ends_witness :
    (parseMermaidSequence
        "participant A as Alice\nparticipant B as Bob\nNote over A,B: kept\nNote over X,B: dropped".toList).notes[1]?
      = some { position := "over".toList, targets := "X,B".toList, text := "dropped".toList } ∧
    declared (parseMermaidSequence
        "participant A as Alice\nparticipant B as Bob\nNote over A,B: kept\nNote over X,B: dropped".toList).participants
      (firstTarget { position := "over".toList, targets := "X,B".toList,
                     text := "dropped".toList }) = false ∧
    ∀ c ∈ noteCells ((convertedCells 100000
        "participant A as Alice\nparticipant B as Bob\nNote over A,B: kept\nNote over X,B: dropped".toList).getD
          []),
      c.id ≠ "note".toList ++ natToStr 1 :=
  ⟨by decide, by decide,
   (note_skipped_by_ends
     "participant A as Alice\nparticipant B as Bob\nNote over A,B: kept\nNote over X,B: dropped".toList
     _ (eq_some_getD_of_isSome _ [] (by decide)) 1
     { position := "over".toList, targets := "X,B".toList, text := "dropped".toList }
     (by decide)).1 rfl (Or.inl (by decide))⟩

/-- Counterexample to C18 as stated: the middle target `X` of the note over
`A,X,B` is not declared, yet the note cell is written, spanning from `A` to `B`. -/
theorem note_with_unresolved_middle_target :
    (parseMermaidSequence
        "participant A as Alice\nparticipant B as Bob\nNote over A,X,B: t".toList).notes.map
      (fun n => (n.position, (splitOn ',' n.targets).map trim)) =
      [("over".toList, ["A".toList, "X".toList, "B".toList])] ∧
    declared (parseMermaidSequence
        "participant A as Alice\nparticipant B as Bob\nNote over A,X,B: t".toList).participants
      "X".toList = false ∧
    (convertedCells 100000
        "participant A as Alice\nparticipant B as Bob\nNote over A,X,B: t".toList).map
      (fun cells => (noteCells cells).map fun c => (c.id, c.value, c.geometry)) =
      some [("note0".toList, some "t".toList,
        Geometry.box (.num 80) (.num 130) (.num 280) (.num 40))] := by
  refine ⟨by decide, by decide, by decide⟩

/-! ### Cell ids -/

theorem stripLit_eq_some {lit s rest : Str} (h : stripLit lit s = some rest) :
    s = lit ++ rest := by
  induction lit generalizing s with
  | nil =>
    cases s <;> simp_all [stripLit]
  | cons a as ih =>
    cases s with
    | nil => simp [stripLit] at h
    | cons c cs =>
      unfold stripLit at h
      by_cases hac : a = c
      · rw [if_pos hac] at h
        rw [hac, ih h]
        rfl
      · rw [if_neg hac] at h
        cases h

theorem isNumbered_append_natToStr (pre : Str) (n : Nat) :
    isNumbered pre (pre ++ natToStr n) = true := by
  unfold isNumbered
  rw [stripLit_append]
  have h1 : (natToStr n).isEmpty = false := by
    cases h : natToStr n with
    | nil => exact absurd h (natToStr_ne_nil n)
    | cons c cs => rfl
  have h2 : (natToStr n).all Char.isDigit = true :=
    List.all_eq_true.mpr (natToStr_isDigit n)
  simp [h1, h2]

theorem isGeneratedId_msg (n : Nat) : isGeneratedId ("msg".toList ++ natToStr n) = true := by
  unfold isGeneratedId
  rw [isNumbered_append_natToStr]
  simp

theorem isGeneratedId_loop (n : Nat) : isGeneratedId ("loop".toList ++ natToStr n) = true := by
  unfold isGeneratedId
  rw [isNumbered_append_natToStr]
  simp

theorem isGeneratedId_note (n : Nat) : isGeneratedId ("note".toList ++ natToStr n) = true := by
  unfold isGeneratedId
  rw [isNumbered_append_natToStr]
  simp

theorem isNumbered_lifeline (pre x : Str) :
    isNumbered pre (x ++ "_lifeline".toList) = false := by
  unfold isNumbered
  cases hs : stripLit pre (x ++ "_lifeline".toList) with
  | none => rfl
  | some rest =>
    dsimp only
    cases hr : rest with
    | nil => rfl
    | cons r rs =>
      rw [← hr]
      have hne : rest ≠ [] := by rw [hr]; simp
      have heq := stripLit_eq_some hs
      have hlast : rest.getLast? = some 'e' := by
        have h1 : (x ++ "_lifeline".toList).getLast? = some 'e' := by
          rw [List.getLast?_append_of_ne_nil _ (by decide)]
          rfl
        rw [heq, List.getLast?_append_of_ne_nil _ hne] at h1
        exact h1
      have hmem : 'e' ∈ rest := List.mem_of_getLast?_eq_some hlast
      have hall : rest.all Char.isDigit = false := by
        rw [List.all_eq_false]
        exact ⟨'e', hmem, by decide⟩
      simp [hall]

theorem isGeneratedId_lifeline (x : Str) : isGeneratedId (x ++ "_lifeline".toList) = false := by
  unfold isGeneratedId
  rw [isNumbered_lifeline, isNumbered_lifeline, isNumbered_lifeline]
  have hlen : (x ++ "_lifeline".toList).length ≥ 9 := by
    rw [List.length_append]
    show x.length + 9 ≥ 9
    omega
  have h0 : (x ++ "_lifeline".toList == "0".toList) = false := by
    rw [beq_eq_false_iff_ne]
    intro h
    rw [h] at hlen
    revert hlen
    decide
  have h1 : (x ++ "_lifeline".toList == "1".toList) = false := by
    rw [beq_eq_false_iff_ne]
    intro h
    rw [h] at hlen
    revert hlen
    decide
  rw [h0, h1]
  rfl

theorem renderParticipants_ids (ps : List Participant) (x : Int) :
    ∀ c ∈ renderParticipants ps x, ∃ q ∈ ps, c.id = q.id ∨ c.id = q.id ++ "_lifeline".toList := by
  induction ps generalizing x with
  | nil => simp [renderParticipants]
  | cons p ps ih =>
    intro c hc
    unfold renderParticipants at hc
    rcases List.mem_append.mp hc with h | h
    · simp only [participantCells, List.mem_cons, List.mem_singleton, List.not_mem_nil,
        or_false] at h
      rcases h with rfl | rfl
      · exact ⟨p, by simp, Or.inl rfl⟩
      · exact ⟨p, by simp, Or.inr rfl⟩
    · obtain ⟨q, hq, hid⟩ := ih _ c h
      exact ⟨q, List.mem_cons_of_mem _ hq, hid⟩

theorem ne_append_lifeline (a : Str) : a ≠ a ++ "_lifeline".toList := by
  intro h
  have := congrArg List.length h
  rw [List.length_append] at this
  have h9 : "_lifeline".toList.length = 9 := rfl
  omega

theorem renderParticipants_ids_nodup (ps : List Participant) (x : Int)
    (h1 : (ps.map Participant.id).Nodup)
    (h3 : ∀ p ∈ ps, ∀ q ∈ ps, p.id ≠ q.id ++ "_lifeline".toList) :
    ((renderParticipants ps x).map Cell.id).Nodup := by
  induction ps generalizing x with
  | nil => simp [renderParticipants]
  | cons p ps ih =>
    have hnd := List.nodup_cons.mp h1
    have hps : ∀ q ∈ ps, q.id ≠ p.id := by
      intro q hq heq
      exact hnd.1 (List.mem_map.mpr ⟨q, hq, heq⟩)
    have ihr := ih (x + spacing) hnd.2
      (fun a ha b hb => h3 a (List.mem_cons_of_mem _ ha) b (List.mem_cons_of_mem _ hb))
    unfold renderParticipants
    simp only [participantCells, List.cons_append, List.nil_append, List.map_cons]
    rw [List.nodup_cons, List.nodup_cons]
    refine ⟨?_, ?_, ihr⟩
    · intro hmem
      rcases List.mem_cons.mp hmem with h | h
      · exact ne_append_lifeline p.id h
      · obtain ⟨c, hc, hcid⟩ := List.mem_map.mp h
        obtain ⟨q, hq, hid⟩ := renderParticipants_ids ps _ c hc
        rcases hid with hid | hid
        · exact hps q hq (by rw [← hid, hcid])
        · exact h3 p (by simp) q (List.mem_cons_of_mem _ hq) (by rw [← hid, hcid])
    · intro hmem
      obtain ⟨c, hc, hcid⟩ := List.mem_map.mp hmem
      obtain ⟨q, hq, hid⟩ := renderParticipants_ids ps _ c hc
      rcases hid with hid | hid
      · exact h3 q (List.mem_cons_of_mem _ hq) p (by simp) (by rw [← hid, hcid])
      · have : q.id ++ "_lifeline".toList = p.id ++ "_lifeline".toList := by
          rw [← hid, hcid]
        exact hps q hq (List.append_cancel_right this)

theorem renderMessages_ids (ps : List Participant) (msgs : List Message) (idx : Nat) (y : Int) :
    ∀ c ∈ (renderMessages ps msgs idx y).1,
      ∃ n, idx ≤ n ∧ c.id = "msg".toList ++ natToStr (n + 2) := by
  induction msgs generalizing idx y with
  | nil => simp [renderMessages]
  | cons m msgs ih =>
    intro c hc
    unfold renderMessages at hc
    dsimp only at hc
    split at hc
    · rcases List.mem_cons.mp hc with rfl | h
      · exact ⟨idx, Nat.le_refl _, rfl⟩
      · obtain ⟨n, hn, hid⟩ := ih _ _ c h
        exact ⟨n, by omega, hid⟩
    · obtain ⟨n, hn, hid⟩ := ih _ _ c hc
      exact ⟨n, by omega, hid⟩

theorem renderMessages_ids_nodup (ps : List Participant) (msgs : List Message) (idx : Nat)
    (y : Int) : ((renderMessages ps msgs idx y).1.map Cell.id).Nodup := by
  induction msgs generalizing idx y with
  | nil => simp [renderMessages]
  | cons m msgs ih =>
    unfold renderMessages
    dsimp only
    split
    · simp only [List.map_cons]
      rw [List.nodup_cons]
      refine ⟨?_, ih _ _⟩
      intro hmem
      obtain ⟨c, hc, hcid⟩ := List.mem_map.mp hmem
      obtain ⟨n, hn, hid⟩ := renderMessages_ids ps msgs _ _ c hc
      rw [hid] at hcid
      have := natToStr_injective (List.append_cancel_left hcid)
      omega
    · exact ih _ _

theorem renderLoop_ids {maxArgs : Nat} (ps : List Participant) (msgs : List Message) (L : Loop) (i : Nat)
    (cells : List Cell) (h : renderLoop maxArgs ps msgs L i = some cells) :
    cells.map Cell.id = [] ∨ cells.map Cell.id = ["loop".toList ++ natToStr i] := by
  unfold renderLoop at h
  split at h
  · cases h
    exact Or.inl rfl
  · split at h
    · dsimp only at h
      split at h
      · split at h
        · cases h
          exact Or.inr rfl
        · cases h
      · cases h
    · cases h
      exact Or.inl rfl

theorem renderLoops_ids {maxArgs : Nat} (ps : List Participant) (msgs : List Message) (loops : List Loop)
    (idx : Nat) (cells : List Cell) (h : renderLoops maxArgs ps msgs loops idx = some cells) :
    (∀ id ∈ cells.map Cell.id, ∃ n, idx ≤ n ∧ id = "loop".toList ++ natToStr n) ∧
    (cells.map Cell.id).Nodup := by
  induction loops generalizing idx cells with
  | nil =>
    simp only [renderLoops, Option.some.injEq] at h
    subst h
    simp
  | cons L loops ih =>
    unfold renderLoops at h
    split at h
    · cases h
    · next cs hcs =>
      split at h
      · cases h
      · next more hmore =>
        cases h
        obtain ⟨ih1, ih2⟩ := ih (idx + 1) more hmore
        rw [List.map_append]
        rcases renderLoop_ids ps msgs L idx cs hcs with hnil | hone
        · rw [hnil, List.nil_append]
          refine ⟨?_, ih2⟩
          intro id hid
          obtain ⟨n, hn, hidn⟩ := ih1 id hid
          exact ⟨n, by omega, hidn⟩
        · rw [hone, List.singleton_append]
          refine ⟨?_, ?_⟩
          · intro id hid
            rcases List.mem_cons.mp hid with rfl | hid
            · exact ⟨idx, Nat.le_refl _, rfl⟩
            · obtain ⟨n, hn, hidn⟩ := ih1 id hid
              exact ⟨n, by omega, hidn⟩
          · rw [List.nodup_cons]
            refine ⟨?_, ih2⟩
            intro hmem
            obtain ⟨n, hn, hidn⟩ := ih1 _ hmem
            have := natToStr_injective (List.append_cancel_left hidn)
            omega

theorem renderNotes_ids_ge (ps : List Participant) (notes : List Note) (idx : Nat) (y : Int) :
    ∀ c ∈ renderNotes ps notes idx y, ∃ n, idx ≤ n ∧ c.id = "note".toList ++ natToStr n := by
  intro c hc
  obtain ⟨j, _, _, _, hid, _⟩ := renderNotes_ids ps notes idx y c hc
  exact ⟨idx + j, by omega, hid⟩

theorem renderNotes_ids_nodup (ps : List Participant) (notes : List Note) (idx : Nat) (y : Int) :
    ((renderNotes ps notes idx y).map Cell.id).Nodup := by
  induction notes generalizing idx y with
  | nil => simp [renderNotes]
  | cons n notes ih =>
    unfold renderNotes
    cases hg : noteGeometry ps n with
    | none => exact ih _ _
    | some g =>
      dsimp only
      simp only [List.map_cons]
      rw [List.nodup_cons]
      refine ⟨?_, ih _ _⟩
      intro hmem
      obtain ⟨c, hc, hcid⟩ := List.mem_map.mp hmem
      obtain ⟨k, hk, hid⟩ := renderNotes_ids_ge ps notes _ _ c hc
      rw [hid] at hcid
      have := natToStr_injective (List.append_cancel_left hcid)
      omega

theorem nodup_append_of_class {l1 l2 : List Str} (h1 : l1.Nodup) (h2 : l2.Nodup)
    (h : ∀ a ∈ l1, ∀ b ∈ l2, idClass a ≠ idClass b) : (l1 ++ l2).Nodup := by
  rw [List.nodup_append]
  refine ⟨h1, h2, ?_⟩
  intro a ha hb
  exact h a ha a hb rfl

theorem idClass_msg (n : Nat) : idClass ("msg".toList ++ natToStr n) = 1 := by
  unfold idClass
  rw [isGeneratedId_msg]
  rfl

theorem idClass_loop (n : Nat) : idClass ("loop".toList ++ natToStr n) = 2 := by
  unfold idClass
  rw [isGeneratedId_loop]
  rfl

theorem idClass_note (n : Nat) : idClass ("note".toList ++ natToStr n) = 3 := by
  unfold idClass
  rw [isGeneratedId_note]
  rfl

theorem idClass_of_not_generated (id : Str) (h : isGeneratedId id = false) : idClass id = 0 := by
  unfold idClass
  rw [if_pos h]

theorem documentCells_ids_nodup {maxArgs : Nat} (ps : List Participant) (msgs : List Message)
    (notes : List Note) (loops : List Loop) (cells : List Cell)
    (hgen : documentCells maxArgs ps msgs notes loops = some cells)
    (h1 : (ps.map Participant.id).Nodup)
    (h2 : ∀ p ∈ ps, isGeneratedId p.id = false)
    (h3 : ∀ p ∈ ps, ∀ q ∈ ps, p.id ≠ q.id ++ "_lifeline".toList) :
    (cells.map Cell.id).Nodup := by
  obtain ⟨loopPart, hloop, rfl⟩ := documentCells_eq ps msgs notes loops cells hgen
  obtain ⟨hLids, hLnd⟩ := renderLoops_ids ps msgs loops 0 loopPart hloop
  have hA : ∀ id ∈ rootCells.map Cell.id, idClass id = 4 := by decide
  have hB : ∀ id ∈ (renderParticipants ps 80).map Cell.id, idClass id = 0 := by
    intro id hid
    obtain ⟨c, hc, rfl⟩ := List.mem_map.mp hid
    obtain ⟨q, hq, hcid⟩ := renderParticipants_ids ps 80 c hc
    apply idClass_of_not_generated
    rcases hcid with hcid | hcid
    · rw [hcid]
      exact h2 q hq
    · rw [hcid]
      exact isGeneratedId_lifeline q.id
  have hC : ∀ id ∈ (renderMessages ps msgs 0 110).1.map Cell.id, idClass id = 1 := by
    intro id hid
    obtain ⟨c, hc, rfl⟩ := List.mem_map.mp hid
    obtain ⟨n, _, hcid⟩ := renderMessages_ids ps msgs 0 110 c hc
    rw [hcid]
    exact idClass_msg _
  have hD : ∀ id ∈ loopPart.map Cell.id, idClass id = 2 := by
    intro id hid
    obtain ⟨n, _, hcid⟩ := hLids id hid
    rw [hcid]
    exact idClass_loop _
  have hE : ∀ id ∈ (renderNotes ps notes 0 ((renderMessages ps msgs 0 110).2 + 20)).map Cell.id,
      idClass id = 3 := by
    intro id hid
    obtain ⟨c, hc, rfl⟩ := List.mem_map.mp hid
    obtain ⟨n, _, hcid⟩ := renderNotes_ids_ge ps notes 0 _ c hc
    rw [hcid]
    exact idClass_note _
  rw [List.map_append, List.map_append, List.map_append, List.map_append]
  apply nodup_append_of_class _ (renderNotes_ids_nodup ps notes 0 _)
  · intro a ha b hb
    rw [hE b hb]
    rcases List.mem_append.mp ha with ha | ha
    · rcases List.mem_append.mp ha with ha | ha
      · rcases List.mem_append.mp ha with ha | ha
        · rw [hA a ha]
          decide
        · rw [hB a ha]
          decide
      · rw [hC a ha]
        decide
    · rw [hD a ha]
      decide
  · apply nodup_append_of_class _ hLnd
    · intro a ha b hb
      rw [hD b hb]
      rcases List.mem_append.mp ha with ha | ha
      · rcases List.mem_append.mp ha with ha | ha
        · rw [hA a ha]
          decide
        · rw [hB a ha]
          decide
      · rw [hC a ha]
        decide
    · apply nodup_append_of_class _ (renderMessages_ids_nodup ps msgs 0 110)
      · intro a ha b hb
        rw [hC b hb]
        rcases List.mem_append.mp ha with ha | ha
        · rw [hA a ha]
          decide
        · rw [hB a ha]
          decide
      · apply nodup_append_of_class (by decide) (renderParticipants_ids_nodup ps 80 h1 h3)
        intro a ha b hb
        rw [hA a ha, hB b hb]
        decide

/-! ### Which loop holds which message -/

theorem pickFrom_append {α : Type} (P : Nat → Bool) (base : Nat) (xs ys : List α) :
    pickFrom P base (xs ++ ys) = pickFrom P base xs ++ pickFrom P (base + xs.length) ys := by
  induction xs generalizing base with
  | nil => simp [pickFrom]
  | cons x xs ih =>
    have e : base + (x :: xs).length = base + 1 + xs.length := by
      simp only [List.length_cons]
      omega
    rw [e]
    show (if P base then x :: pickFrom P (base + 1) (xs ++ ys)
        else pickFrom P (base + 1) (xs ++ ys)) =
      (if P base then x :: pickFrom P (base + 1) xs else pickFrom P (base + 1) xs) ++ _
    rw [ih]
    split <;> simp

theorem pickFrom_congr {α : Type} (P Q : Nat → Bool) (base : Nat) (xs : List α)
    (h : ∀ i, base ≤ i → i < base + xs.length → P i = Q i) :
    pickFrom P base xs = pickFrom Q base xs := by
  induction xs generalizing base with
  | nil => rfl
  | cons x xs ih =>
    have h0 : P base = Q base := h base (Nat.le_refl _) (by simp)
    have hrec := ih (base + 1) (fun i h1 h2 => h i (by omega) (by
      simp only [List.length_cons]
      omega))
    simp only [pickFrom, h0, hrec]

theorem pickFrom_false {α : Type} (P : Nat → Bool) (base : Nat) (xs : List α)
    (h : ∀ i, base ≤ i → i < base + xs.length → P i = false) :
    pickFrom P base xs = [] := by
  induction xs generalizing base with
  | nil => rfl
  | cons x xs ih =>
    have h0 : P base = false := h base (Nat.le_refl _) (by simp)
    have hrec := ih (base + 1) (fun i h1 h2 => h i (by omega) (by
      simp only [List.length_cons]
      omega))
    simp [pickFrom, h0, hrec]

theorem ownedBy_append_of_lt (snaps : List (List Nat)) (st : List Nat) (r i : Nat)
    (h : i < snaps.length) : ownedBy (snaps ++ [st]) r i = ownedBy snaps r i := by
  unfold ownedBy
  rw [List.getElem?_append_left h]

theorem ownedBy_append_length (snaps : List (List Nat)) (st : List Nat) (r : Nat) :
    ownedBy (snaps ++ [st]) r snaps.length = decide (st.getLast? = some r) := by
  unfold ownedBy
  simp

theorem traceInv_init : TraceInv (ParseState.init, []) := by
  refine ⟨inv_init, rfl, ?_, ?_, ?_, ?_, ?_, ?_⟩
  · intro r L h
    simp [ParseState.init] at h
  · intro st hst
    cases hst
  · intro i st h
    simp at h
  · intro r h
    simp [ParseState.init] at h
  · simp [ParseState.init]
  · intro st hst
    cases hst

theorem traceInv_message {σ σ' : ParseState} {snaps : List (List Nat)}
    (hi : TraceInv (σ, snaps)) (hinv' : Inv σ') (m : Message)
    (hm : σ'.messages = σ.messages ++ [m]) (hst : σ'.loopStack = σ.loopStack)
    (hlo : σ'.loops = σ.loops) (hlen : σ'.heap.length = σ.heap.length)
    (hheap : ∀ (r : Nat) (L' : Loop), σ'.heap[r]? = some L' →
      ∃ L, σ.heap[r]? = some L ∧ L'.startIndex = L.startIndex ∧ L'.endIndex = L.endIndex ∧
        L'.messages = L.messages ++ (if σ.loopStack.getLast? = some r then [m] else [])) :
    TraceInv (σ', snaps ++ [σ.loopStack]) := by
  have hlen0 : snaps.length = σ.messages.length := hi.len
  have hinv : Inv σ := hi.inv
  refine ⟨hinv', ?_, ?_, ?_, ?_, ?_, ?_, ?_⟩
  · show (snaps ++ [σ.loopStack]).length = σ'.messages.length
    rw [hm]
    simp [hlen0]
  · intro r L' hL'
    show L'.messages = pickFrom (ownedBy (snaps ++ [σ.loopStack]) r) 0 σ'.messages
    obtain ⟨L, hL, _, _, hmsg⟩ := hheap r L' hL'
    have hold : L.messages = pickFrom (ownedBy snaps r) 0 σ.messages := hi.owned r L hL
    rw [hm, pickFrom_append, hmsg, hold]
    have h1 : pickFrom (ownedBy (snaps ++ [σ.loopStack]) r) 0 σ.messages =
        pickFrom (ownedBy snaps r) 0 σ.messages := by
      apply pickFrom_congr
      intro i _ hlt
      exact ownedBy_append_of_lt snaps _ r i (by omega)
    rw [h1]
    congr 1
    have h2 : ownedBy (snaps ++ [σ.loopStack]) r (0 + σ.messages.length) =
        decide (σ.loopStack.getLast? = some r) := by
      rw [Nat.zero_add, ← hlen0]
      exact ownedBy_append_length snaps _ r
    simp only [pickFrom, h2]
    by_cases hr : σ.loopStack.getLast? = some r
    · simp [hr]
    · simp [hr]
  · intro st hmem r hr
    show r < σ'.heap.length
    rw [hlen]
    rcases List.mem_append.mp hmem with h | h
    · exact hi.valid st h r hr
    · rw [List.mem_singleton] at h
      subst h
      exact inv_lt_of_mem_stack hinv hr
  · intro i st hget r L' hL'
    obtain ⟨L, hL, hs, he, _⟩ := hheap r L' hL'
    rw [hs, he]
    have hget' : (snaps ++ [σ.loopStack])[i]? = some st := hget
    by_cases hlt : i < snaps.length
    · rw [List.getElem?_append_left hlt] at hget'
      exact hi.timing i st hget' r L hL
    · have hile : i < (snaps ++ [σ.loopStack]).length := lt_length_of_getElem?_eq_some hget'
      have hieq : i = snaps.length := by
        simp only [List.length_append, List.length_singleton] at hile
        omega
      subst hieq
      simp only [List.getElem?_concat_length, Option.some.injEq] at hget'
      subst hget'
      constructor
      · intro hmem
        obtain ⟨o, ho, hend, hcnt⟩ := hinv.opened r hmem
        rw [hL] at ho
        cases ho
        refine ⟨by omega, ?_⟩
        intro e hee
        rw [hend] at hee
        cases hee
      · intro ⟨_, hend⟩
        have hr : r < σ.heap.length := lt_length_of_getElem?_eq_some hL
        rcases hi.alloc r hr with h | h
        · exact h
        · exfalso
          obtain ⟨o, e, ho, hoe, _, hb, _⟩ := hinv.closed r h
          rw [hL] at ho
          cases ho
          have := hend e hoe
          omega
  · intro r hr
    show r ∈ σ'.loopStack ∨ r ∈ σ'.loops
    rw [hst, hlo]
    exact hi.alloc r (by rw [← hlen]; exact hr)
  · show σ'.loopStack.Pairwise (· < ·)
    rw [hst]
    exact hi.sortedStack
  · intro st hmem
    rcases List.mem_append.mp hmem with h | h
    · exact hi.sortedSnaps st h
    · rw [List.mem_singleton] at h
      subst h
      exact hi.sortedStack

theorem traceInv_loopOpen {σ : ParseState} {snaps : List (List Nat)}
    (hi : TraceInv (σ, snaps)) (text : Str) :
    TraceInv ({ σ with
      heap := σ.heap ++
        [{ text := text, messages := [], startIndex := σ.messages.length, endIndex := none }]
      currentLoop := some σ.heap.length
      loopStack := σ.loopStack ++ [σ.heap.length] }, snaps) := by
  have hlen0 : snaps.length = σ.messages.length := hi.len
  have hinv : Inv σ := hi.inv
  have hlookup : ∀ (r : Nat) (L : Loop),
      (σ.heap ++ [{ text := text, messages := [], startIndex := σ.messages.length,
                    endIndex := none }])[r]? = some L →
      σ.heap[r]? = some L ∨ (r = σ.heap.length ∧
        L = { text := text, messages := [], startIndex := σ.messages.length,
              endIndex := none }) := by
    intro r L h
    by_cases hr : r < σ.heap.length
    · rw [List.getElem?_append_left hr] at h
      exact Or.inl h
    · have hle := lt_length_of_getElem?_eq_some h
      have hreq : r = σ.heap.length := by
        simp only [List.length_append, List.length_singleton] at hle
        omega
      subst hreq
      simp only [List.getElem?_concat_length, Option.some.injEq] at h
      exact Or.inr ⟨rfl, h.symm⟩
  have hnotin : ∀ st ∈ snaps, σ.heap.length ∉ st := by
    intro st hst hmem
    exact absurd (hi.valid st hst _ hmem) (Nat.lt_irrefl _)
  refine ⟨inv_step_loopOpen hinv text, hlen0, ?_, ?_, ?_, ?_, ?_, hi.sortedSnaps⟩
  · intro r L hL
    rcases hlookup r L hL with h | ⟨hr, hLeq⟩
    · exact hi.owned r L h
    · subst hr hLeq
      show [] = pickFrom (ownedBy snaps σ.heap.length) 0 σ.messages
      symm
      apply pickFrom_false
      intro i _ hlt
      unfold ownedBy
      cases hs : snaps[i]? with
      | none => simp
      | some st =>
        simp only [Option.some_bind, decide_eq_false_iff_not]
        intro hlast
        exact hnotin st (List.getElem?_mem hs) (List.mem_of_getLast?_eq_some hlast)
  · intro st hst r hr
    show r < (σ.heap ++ [_]).length
    have hv : r < σ.heap.length := hi.valid st hst r hr
    simp only [List.length_append, List.length_singleton]
    omega
  · intro i st hget r L hL
    rcases hlookup r L hL with h | ⟨hr, hLeq⟩
    · exact hi.timing i st hget r L h
    · subst hr hLeq
      have hilt : i < snaps.length := lt_length_of_getElem?_eq_some hget
      constructor
      · intro hmem
        exact absurd hmem (hnotin st (List.getElem?_mem hget))
      · intro ⟨h1, _⟩
        exfalso
        have h1' : σ.messages.length ≤ i := h1
        omega
  · intro r hr
    show r ∈ σ.loopStack ++ [σ.heap.length] ∨ r ∈ σ.loops
    have hr' : r < (σ.heap ++ [Loop.mk text [] σ.messages.length none]).length := hr
    simp only [List.length_append, List.length_singleton] at hr'
    by_cases hlt : r < σ.heap.length
    · rcases hi.alloc r hlt with h | h
      · exact Or.inl (List.mem_append_left _ h)
      · exact Or.inr h
    · have : r = σ.heap.length := by omega
      subst this
      exact Or.inl (List.mem_append_right _ (by simp))
  · show (σ.loopStack ++ [σ.heap.length]).Pairwise (· < ·)
    rw [List.pairwise_append]
    refine ⟨hi.sortedStack, by simp, ?_⟩
    intro a ha b hb
    rw [List.mem_singleton] at hb
    subst hb
    exact inv_lt_of_mem_stack hinv ha

theorem traceInv_loopClose {σ : ParseState} {snaps : List (List Nat)}
    (hi : TraceInv (σ, snaps)) (ref : Nat) (hlast : σ.loopStack.getLast? = some ref) :
    TraceInv ({ σ with
      loopStack := σ.loopStack.dropLast
      heap := updateLoop σ.heap ref fun o =>
        { o with endIndex := some ((σ.messages.length : Int) - 1) }
      loops := σ.loops ++ [ref]
      currentLoop := σ.loopStack.dropLast.getLast? }, snaps) := by
  have hlen0 : snaps.length = σ.messages.length := hi.len
  have hinv : Inv σ := hi.inv
  have hstack := stack_eq_of_getLast? hlast
  have hrefstack : ref ∈ σ.loopStack := mem_stack_of_getLast? hlast
  refine ⟨inv_step_loopClose hinv ref hlast, hlen0, ?_, ?_, ?_, ?_, ?_, hi.sortedSnaps⟩
  · intro r L' hL'
    have hL'' : (updateLoop σ.heap ref fun o =>
        { o with endIndex := some ((σ.messages.length : Int) - 1) })[r]? = some L' := hL'
    rw [getElem?_updateLoop] at hL''
    by_cases hr : r = ref
    · rw [if_pos hr] at hL''
      cases hL : σ.heap[r]? with
      | none => simp [hL] at hL''
      | some L =>
        rw [hL] at hL''
        simp only [Option.map_some', Option.some.injEq] at hL''
        subst hL''
        exact hi.owned r L hL
    · rw [if_neg hr] at hL''
      exact hi.owned r L' hL''
  · intro st hst r hr
    show r < (updateLoop σ.heap ref _).length
    rw [length_updateLoop]
    exact hi.valid st hst r hr
  · intro i st hget r L' hL'
    have hL'' : (updateLoop σ.heap ref fun o =>
        { o with endIndex := some ((σ.messages.length : Int) - 1) })[r]? = some L' := hL'
    rw [getElem?_updateLoop] at hL''
    by_cases hr : r = ref
    · rw [if_pos hr] at hL''
      cases hL : σ.heap[r]? with
      | none => simp [hL] at hL''
      | some L =>
        rw [hL] at hL''
        simp only [Option.map_some', Option.some.injEq] at hL''
        subst hL''
        have hold := hi.timing i st hget r L hL
        have hilt : i < snaps.length := lt_length_of_getElem?_eq_some hget
        rw [hold]
        constructor
        · intro ⟨h1, _⟩
          refine ⟨h1, ?_⟩
          intro e he
          have he' : some ((σ.messages.length : Int) - 1) = some e := he
          cases he'
          omega
        · intro ⟨h1, _⟩
          refine ⟨h1, ?_⟩
          intro e he
          rw [hr] at hL
          obtain ⟨o, ho, hend, _⟩ := hinv.opened ref hrefstack
          rw [hL] at ho
          cases ho
          rw [hend] at he
          cases he
    · rw [if_neg hr] at hL''
      exact hi.timing i st hget r L' hL''
  · intro r hr
    show r ∈ σ.loopStack.dropLast ∨ r ∈ σ.loops ++ [ref]
    have hr' : r < (updateLoop σ.heap ref fun o =>
        { o with endIndex := some ((σ.messages.length : Int) - 1) }).length := hr
    rw [length_updateLoop] at hr'
    rcases hi.alloc r hr' with h | h
    · rw [hstack] at h
      rcases List.mem_append.mp h with h | h
      · exact Or.inl h
      · exact Or.inr (List.mem_append_right _ h)
    · exact Or.inr (List.mem_append_left _ h)
  · show σ.loopStack.dropLast.Pairwise (· < ·)
    exact hi.sortedStack.sublist (List.dropLast_sublist _)

theorem traceInv_step {σ σ' : ParseState} {snaps : List (List Nat)} (hs : Step σ σ')
    (hi : TraceInv (σ, snaps)) :
    TraceInv (σ', if σ'.messages.length = σ.messages.length then snaps
      else snaps ++ [σ.loopStack]) := by
  have hinv : Inv σ := hi.inv
  cases hs with
  | skip =>
    rw [if_pos rfl]
    exact hi
  | participant p =>
    rw [if_pos rfl]
    exact ⟨inv_step (Step.participant p) hinv, hi.len, hi.owned, hi.valid, hi.timing, hi.alloc, hi.sortedStack,
      hi.sortedSnaps⟩
  | note n =>
    rw [if_pos rfl]
    exact ⟨inv_step (Step.note n) hinv, hi.len, hi.owned, hi.valid, hi.timing, hi.alloc, hi.sortedStack,
      hi.sortedSnaps⟩
  | loopOpen text =>
    rw [if_pos rfl]
    exact traceInv_loopOpen hi text
  | loopClose ref h =>
    rw [if_pos rfl]
    exact traceInv_loopClose hi ref h
  | messageInLoop m ref h =>
    rw [if_neg (by simp)]
    have htop : σ.loopStack.getLast? = some ref := by rw [← hinv.current]; exact h
    apply traceInv_message hi (inv_step_messageInLoop hinv m ref h) m rfl rfl rfl
    · exact length_updateLoop _ _ _
    · intro r L' hL'
      have hL'' : (updateLoop σ.heap ref fun o =>
          { o with messages := o.messages ++ [m] })[r]? = some L' := hL'
      rw [getElem?_updateLoop] at hL''
      by_cases hr : r = ref
      · rw [if_pos hr] at hL''
        cases hL : σ.heap[r]? with
        | none => simp [hL] at hL''
        | some L =>
          rw [hL] at hL''
          simp only [Option.map_some', Option.some.injEq] at hL''
          subst hL''
          refine ⟨L, rfl, rfl, rfl, ?_⟩
          rw [htop, hr]
          simp
      · rw [if_neg hr] at hL''
        refine ⟨L', hL'', rfl, rfl, ?_⟩
        rw [htop]
        have : ¬ (some ref = some r) := fun hc => hr (Option.some.inj hc).symm
        simp [this]
  | messageOutside m h =>
    rw [if_neg (by simp)]
    have hnil := stack_eq_nil_of_current_none hinv h
    apply traceInv_message hi (inv_step_messageOutside hinv m) m rfl rfl rfl rfl
    intro r L' hL'
    refine ⟨L', hL', rfl, rfl, ?_⟩
    rw [hnil]
    simp

theorem traceInv_traceLine {g : ParseState × List (List Nat)} (hi : TraceInv g) (line : Str) :
    TraceInv (traceLine g line) :=
  traceInv_step (step_processLine g.1 line) hi

theorem traceInv_traceLines {g : ParseState × List (List Nat)} (hi : TraceInv g)
    (ls : List Str) : TraceInv (traceLines g ls) := by
  induction ls generalizing g with
  | nil => exact hi
  | cons l ls ih => exact ih (traceInv_traceLine hi l)

theorem traceLines_fst (g : ParseState × List (List Nat)) (ls : List Str) :
    (traceLines g ls).1 = runLines g.1 ls := by
  induction ls generalizing g with
  | nil => rfl
  | cons l ls ih => exact ih (traceLine g l)

theorem traceInv_final (mermaidCode : Str) :
    TraceInv (parseState mermaidCode, stacksAt mermaidCode) := by
  have h := traceInv_traceLines traceInv_init (lines mermaidCode)
  have e : traceLines (ParseState.init, []) (lines mermaidCode) =
      (parseState mermaidCode, stacksAt mermaidCode) := by
    apply Prod.ext
    · exact traceLines_fst _ _
    · rfl
  rw [e] at h
  exact h

theorem step_messages_length {σ σ' : ParseState} (hs : Step σ σ') :
    σ'.messages.length = σ.messages.length ∨
      σ'.messages.length = σ.messages.length + 1 := by
  cases hs with
  | skip => exact Or.inl rfl
  | participant p => exact Or.inl rfl
  | note n => exact Or.inl rfl
  | loopOpen text => exact Or.inl rfl
  | loopClose ref h => exact Or.inl rfl
  | messageInLoop m ref h =>
    right
    show (σ.messages ++ [m]).length = _
    simp
  | messageOutside m h =>
    right
    show (σ.messages ++ [m]).length = _
    simp

theorem traceLines_snapshot {g : ParseState × List (List Nat)} (hi : TraceInv g)
    (ls : List Str) (i : Nat) (st : List Nat) (h : (traceLines g ls).2[i]? = some st) :
    g.2[i]? = some st ∨ ∃ k, k < ls.length ∧ st = (runLines g.1 (ls.take k)).loopStack ∧
      (runLines g.1 (ls.take k)).messages.length = i ∧
      (runLines g.1 (ls.take (k + 1))).messages.length = i + 1 := by
  induction ls generalizing g with
  | nil => exact Or.inl h
  | cons l ls ih =>
    have h' : (traceLines (traceLine g l) ls).2[i]? = some st := h
    rcases ih (traceInv_traceLine hi l) h' with h1 | ⟨k, hk, hst, hm1, hm2⟩
    · by_cases hlen : (processLine g.1 l).messages.length = g.1.messages.length
      · left
        have e : (traceLine g l).2 = g.2 := if_pos hlen
        rw [e] at h1
        exact h1
      · have e : (traceLine g l).2 = g.2 ++ [g.1.loopStack] := if_neg hlen
        rw [e] at h1
        by_cases hlt : i < g.2.length
        · left
          rw [List.getElem?_append_left hlt] at h1
          exact h1
        · right
          have hb := lt_length_of_getElem?_eq_some h1
          simp only [List.length_append, List.length_singleton] at hb
          have hieq : i = g.2.length := by omega
          rw [hieq] at h1
          simp only [List.getElem?_concat_length, Option.some.injEq] at h1
          have hglen : g.2.length = g.1.messages.length := hi.len
          refine ⟨0, by simp, ?_, ?_, ?_⟩
          · exact h1.symm
          · show g.1.messages.length = i
            omega
          · show (processLine g.1 l).messages.length = i + 1
            rcases step_messages_length (step_processLine g.1 l) with h2 | h2
            · exact absurd h2 hlen
            · omega
    · right
      refine ⟨k + 1, ?_, hst, hm1, hm2⟩
      simp only [List.length_cons]
      omega

theorem stacksAt_snapshot (mermaidCode : Str) (i : Nat) (st : List Nat)
    (h : (stacksAt mermaidCode)[i]? = some st) :
    ∃ k, k < (lines mermaidCode).length ∧ st = (stateAt mermaidCode k).loopStack ∧
      (stateAt mermaidCode k).messages.length = i ∧
      (stateAt mermaidCode (k + 1)).messages.length = i + 1 := by
  rcases traceLines_snapshot traceInv_init (lines mermaidCode) i st h with h0 | h1
  · simp at h0
  · exact h1

theorem sorted_stack_stateAt (mermaidCode : Str) (k : Nat) :
    (stateAt mermaidCode k).loopStack.Pairwise (· < ·) := by
  have h := (traceInv_traceLines traceInv_init ((lines mermaidCode).take k)).sortedStack
  rw [traceLines_fst] at h
  exact h

theorem openedInside_iff (mermaidCode : Str) (r r' : Nat) :
    openedInside mermaidCode r r' = true ↔
      ∃ k, k ≤ (lines mermaidCode).length ∧
        List.Sublist [r, r'] (stateAt mermaidCode k).loopStack := by
  unfold openedInside
  simp only [List.any_eq_true, List.mem_range, decide_eq_true_eq]
  constructor
  · rintro ⟨k, hk, h⟩
    exact ⟨k, by omega, h⟩
  · rintro ⟨k, hk, h⟩
    exact ⟨k, by omega, h⟩

theorem openedInside_lt {mermaidCode : Str} {r r' : Nat}
    (h : openedInside mermaidCode r r' = true) : r < r' := by
  obtain ⟨k, _, hs⟩ := (openedInside_iff _ _ _).mp h
  have hp := List.Pairwise.sublist hs (sorted_stack_stateAt mermaidCode k)
  simpa using hp

theorem openedInside_closed {mermaidCode : Str} {r r' : Nat}
    (h : openedInside mermaidCode r r' = true) (hr : r ∈ (parseState mermaidCode).loops) :
    r' ∈ (parseState mermaidCode).loops := by
  obtain ⟨k, _, hs⟩ := (openedInside_iff _ _ _).mp h
  have hi := inv_parseState mermaidCode
  obtain ⟨a, c, hst, hm⟩ := sublist_pair hs
  have hn : Nested (stateAt mermaidCode k) r r' := Or.inl ⟨a, c, hst, hm⟩
  have hfin := nested_runLines (inv_stateAt mermaidCode k) hn ((lines mermaidCode).drop k)
  rw [← parseState_eq_runLines_stateAt] at hfin
  rcases hfin with ⟨a', c', hst', hm'⟩ | ⟨h1', _⟩ | ⟨_, h2, _⟩
  · have : r ∈ (parseState mermaidCode).loopStack := by
      rw [hst']
      exact List.mem_append_left _ hm'
    exact absurd hr (inv_not_mem_loops_of_mem_stack hi this)
  · exact absurd hr (inv_not_mem_loops_of_mem_stack hi h1')
  · exact h2

theorem le_of_mem_of_getLast? {st : List Nat} (hp : st.Pairwise (· < ·)) {r x : Nat}
    (hl : st.getLast? = some r) (hx : x ∈ st) : x ≤ r := by
  obtain ⟨a, ha⟩ : ∃ a, st = a ++ [r] := ⟨_, stack_eq_of_getLast? hl⟩
  subst ha
  rw [List.pairwise_append] at hp
  rcases List.mem_append.mp hx with hx | hx
  · exact Nat.le_of_lt (hp.2.2 x hx r (by simp))
  · simp only [List.mem_singleton] at hx
    omega

theorem sublist_pair_of_last {st : List Nat} {r r' : Nat}
    (hl : st.getLast? = some r') (hr : r ∈ st) (hne : r ≠ r') : List.Sublist [r, r'] st := by
  obtain ⟨a, ha⟩ : ∃ a, st = a ++ [r'] := ⟨_, stack_eq_of_getLast? hl⟩
  subst ha
  have hra : r ∈ a := by
    rcases List.mem_append.mp hr with h | h
    · exact h
    · simp only [List.mem_singleton] at h
      exact absurd h hne
  exact List.Sublist.append (List.singleton_sublist.mpr hra) (List.Sublist.refl [r'])

theorem inRange_closed_iff (L : Loop) (e : Int) (he : L.endIndex = some e) (i : Nat) :
    inRange L i = true ↔ (L.startIndex ≤ i ∧ ∀ e', L.endIndex = some e' → (i : Int) ≤ e') := by
  unfold inRange
  rw [he]
  simp

theorem ownedBy_closed_eq (mermaidCode : Str) (r : Nat) (L : Loop)
    (hr : r ∈ (parseState mermaidCode).loops)
    (hL : (parseState mermaidCode).heap[r]? = some L)
    (i : Nat) (hi : i < (parseState mermaidCode).messages.length) :
    ownedBy (stacksAt mermaidCode) r i = (inRange L i && !coveredInside mermaidCode r i) := by
  have T := traceInv_final mermaidCode
  have hinv : Inv (parseState mermaidCode) := inv_parseState mermaidCode
  have hlen : (stacksAt mermaidCode).length = (parseState mermaidCode).messages.length := T.len
  obtain ⟨st, hst⟩ : ∃ st, (stacksAt mermaidCode)[i]? = some st :=
    ⟨(stacksAt mermaidCode)[i], List.getElem?_eq_getElem (by omega)⟩
  have hsorted : st.Pairwise (· < ·) := T.sortedSnaps st (List.getElem?_mem hst)
  have htime : ∀ (r : Nat) (L : Loop), (parseState mermaidCode).heap[r]? = some L →
      (r ∈ st ↔ (L.startIndex ≤ i ∧ ∀ e, L.endIndex = some e → (i : Int) ≤ e)) :=
    T.timing i st hst
  have hclosed : ∀ r' ∈ (parseState mermaidCode).loops, ∃ L',
      (parseState mermaidCode).heap[r']? = some L' ∧ (inRange L' i = true ↔ r' ∈ st) := by
    intro r' hr'
    obtain ⟨o, e, ho, he, _⟩ := hinv.closed r' hr'
    exact ⟨o, ho, by rw [htime r' o ho, inRange_closed_iff o e he]⟩
  have hin : inRange L i = true ↔ r ∈ st := by
    obtain ⟨L', hL', h⟩ := hclosed r hr
    rw [hL] at hL'
    cases hL'
    exact h
  have hown : ownedBy (stacksAt mermaidCode) r i = true ↔ st.getLast? = some r := by
    unfold ownedBy
    rw [hst]
    simp
  have hcov : coveredInside mermaidCode r i = true ↔
      ∃ r', r' ∈ (parseState mermaidCode).loops ∧ openedInside mermaidCode r r' = true ∧
        r' ∈ st := by
    unfold coveredInside
    simp only [List.any_eq_true, Bool.and_eq_true]
    constructor
    · rintro ⟨r', hr', hop, hrange⟩
      obtain ⟨L', hL', h⟩ := hclosed r' hr'
      rw [hL'] at hrange
      exact ⟨r', hr', hop, h.mp hrange⟩
    · rintro ⟨r', hr', hop, hmem⟩
      obtain ⟨L', hL', h⟩ := hclosed r' hr'
      refine ⟨r', hr', hop, ?_⟩
      rw [hL']
      exact h.mpr hmem
  have hcovf : coveredInside mermaidCode r i = false ↔
      ¬ ∃ r', r' ∈ (parseState mermaidCode).loops ∧ openedInside mermaidCode r r' = true ∧
        r' ∈ st := by
    rw [← hcov]
    simp
  apply Bool.eq_iff_iff.mpr
  rw [hown, Bool.and_eq_true, hin, Bool.not_eq_true', hcovf]
  constructor
  · intro hl
    refine ⟨mem_stack_of_getLast? hl, ?_⟩
    rintro ⟨r', hr', hop, hmem⟩
    have h1 := openedInside_lt hop
    have h2 := le_of_mem_of_getLast? hsorted hl hmem
    omega
  · rintro ⟨hmem, hno⟩
    cases hlast : st.getLast? with
    | none =>
      rw [List.getLast?_eq_none_iff] at hlast
      rw [hlast] at hmem
      cases hmem
    | some r' =>
      by_cases hne : r = r'
      · rw [hne]
      · exfalso
        apply hno
        obtain ⟨k, hk, hstk, _⟩ := stacksAt_snapshot mermaidCode i st hst
        have hsub := sublist_pair_of_last hlast hmem hne
        rw [hstk] at hsub
        have hop : openedInside mermaidCode r r' = true :=
          (openedInside_iff _ _ _).mpr ⟨k, by omega, hsub⟩
        exact ⟨r', openedInside_closed hop hr, hop, mem_stack_of_getLast? hlast⟩

/-- C20: every message is a member of the loop that is innermost open when its
line is parsed, and of no other loop.  `stacksAt` holds for message `i` the loop
stack of the state before the line that added the message.  The member list of
every loop object is the sub-sequence of the messages whose recorded stack has
that object on top, and no message has two objects on top.  Hence for every
finalized loop `L` the member list is the sub-sequence of the messages at the
indices in `[L.startIndex, L.endIndex]` that lie in the range of no loop opened
inside `L` (every such loop is finalized too), and a message parsed while no
finalized loop is open is owned by no finalized loop. -/
theorem loop_members_exact (mermaidCode : Str) :
    ((stacksAt mermaidCode).length = (parseMermaidSequence mermaidCode).messages.length ∧
      ∀ (i : Nat) (st : List Nat), (stacksAt mermaidCode)[i]? = some st →
        ∃ k, k < (lines mermaidCode).length ∧ st = (stateAt mermaidCode k).loopStack ∧
          (stateAt mermaidCode k).messages.length = i ∧
          (stateAt mermaidCode (k + 1)).messages.length = i + 1) ∧
    (∀ (r : Nat) (L : Loop), (parseState mermaidCode).heap[r]? = some L →
      L.messages = pickFrom (ownedBy (stacksAt mermaidCode) r) 0
        (parseMermaidSequence mermaidCode).messages) ∧
    (∀ (i r r' : Nat), ownedBy (stacksAt mermaidCode) r i = true →
      ownedBy (stacksAt mermaidCode) r' i = true → r = r') ∧
    (∀ (j : Nat) (L : Loop), (parseMermaidSequence mermaidCode).loops[j]? = some L →
      ∃ r, (parseState mermaidCode).loops[j]? = some r ∧
        (parseState mermaidCode).heap[r]? = some L ∧
        L.messages = pickFrom (fun i => inRange L i && !coveredInside mermaidCode r i) 0
          (parseMermaidSequence mermaidCode).messages) ∧
    (∀ r ∈ (parseState mermaidCode).loops, ∀ (r' : Nat),
      openedInside mermaidCode r r' = true → r' ∈ (parseState mermaidCode).loops) ∧
    (∀ (i : Nat) (st : List Nat), (stacksAt mermaidCode)[i]? = some st →
      (∀ r ∈ st, r ∉ (parseState mermaidCode).loops) →
      ∀ r ∈ (parseState mermaidCode).loops, ownedBy (stacksAt mermaidCode) r i = false) := by
  have T := traceInv_final mermaidCode
  have hinv := inv_parseState mermaidCode
  have hown : ∀ (r : Nat) (L : Loop), (parseState mermaidCode).heap[r]? = some L →
      L.messages = pickFrom (ownedBy (stacksAt mermaidCode) r) 0
        (parseState mermaidCode).messages := T.owned
  refine ⟨⟨T.len, stacksAt_snapshot mermaidCode⟩, hown, ?_, ?_, ?_, ?_⟩
  · intro i r r' h1 h2
    unfold ownedBy at h1 h2
    simp only [decide_eq_true_eq] at h1 h2
    rw [h1] at h2
    exact Option.some.inj h2
  · intro j L hj
    have hjlt : j < (parseState mermaidCode).loops.length := by
      have h1 := lt_length_of_getElem?_eq_some hj
      have h2 : (parseMermaidSequence mermaidCode).loops.length ≤
          (parseState mermaidCode).loops.length := List.length_filterMap_le _ _
      omega
    have hr : (parseState mermaidCode).loops[j]? = some (parseState mermaidCode).loops[j] :=
      List.getElem?_eq_getElem hjlt
    have hL : (parseState mermaidCode).heap[(parseState mermaidCode).loops[j]]? = some L := by
      rw [← toModel_loops_getElem? hinv j _ hr]
      exact hj
    refine ⟨_, hr, hL, ?_⟩
    show L.messages = pickFrom _ 0 (parseState mermaidCode).messages
    rw [hown _ L hL]
    apply pickFrom_congr
    intro i _ h2
    exact ownedBy_closed_eq mermaidCode _ L (List.getElem_mem hjlt) hL i (by omega)
  · intro r hr r' hop
    exact openedInside_closed hop hr
  · intro i st hst hno r hr
    unfold ownedBy
    rw [hst]
    simp only [Option.some_bind, decide_eq_false_iff_not]
    intro hl
    exact hno r (mem_stack_of_getLast? hl) hr

/-- Witness for C20: loop `A` (reference 0) holds the first and the third message,
the second goes to the loop `B` opened inside it, and the fourth, parsed while
only the never-closed loop `C` is open, is owned by no finalized loop. -/
theorem loop_members_exact_witness :
    stacksAt "loop A\nX->Y: 1\nloop B\nX->Y: 2\nend\nX->Y: 3\nend\nloop C\nX->Y: 4".toList =
      [[0], [0, 1], [0], [2]] ∧
    (parseState
      "loop A\nX->Y: 1\nloop B\nX->Y: 2\nend\nX->Y: 3\nend\nloop C\nX->Y: 4".toList).loops =
      [1, 0] ∧
    (pickFrom
        (fun i =>
          inRange
              { text := "A".toList
                messages :=
                  [{ from_ := "X".toList, to_ := "Y".toList, text := "1".toList,
                     style := arrowStyle "->".toList },
                   { from_ := "X".toList, to_ := "Y".toList, text := "3".toList,
                     style := arrowStyle "->".toList }]
                startIndex := 0
                endIndex := some 2 } i &&
            !coveredInside
              "loop A\nX->Y: 1\nloop B\nX->Y: 2\nend\nX->Y: 3\nend\nloop C\nX->Y: 4".toList 0 i)
        0
        (parseMermaidSequence
          "loop A\nX->Y: 1\nloop B\nX->Y: 2\nend\nX->Y: 3\nend\nloop C\nX->Y: 4".toList).messages).map
      Message.text = ["1".toList, "3".toList] ∧
    (∃ r, (parseState
        "loop A\nX->Y: 1\nloop B\nX->Y: 2\nend\nX->Y: 3\nend\nloop C\nX->Y: 4".toList).loops[1]? =
          some r ∧
      (parseState
        "loop A\nX->Y: 1\nloop B\nX->Y: 2\nend\nX->Y: 3\nend\nloop C\nX->Y: 4".toList).heap[r]? =
          some
            { text := "A".toList
              messages :=
                [{ from_ := "X".toList, to_ := "Y".toList, text := "1".toList,
                   style := arrowStyle "->".toList },
                 { from_ := "X".toList, to_ := "Y".toList, text := "3".toList,
                   style := arrowStyle "->".toList }]
              startIndex := 0
              endIndex := some 2 } ∧
      ({ text := "A".toList
         messages :=
           [{ from_ := "X".toList, to_ := "Y".toList, text := "1".toList,
              style := arrowStyle "->".toList },
            { from_ := "X".toList, to_ := "Y".toList, text := "3".toList,
              style := arrowStyle "->".toList }]
         startIndex := 0
         endIndex := some 2 } : Loop).messages =
        pickFrom
          (fun i =>
            inRange
                { text := "A".toList
                  messages :=
                    [{ from_ := "X".toList, to_ := "Y".toList, text := "1".toList,
                       style := arrowStyle "->".toList },
                     { from_ := "X".toList, to_ := "Y".toList, text := "3".toList,
                       style := arrowStyle "->".toList }]
                  startIndex := 0
                  endIndex := some 2 } i &&
              !coveredInside
                "loop A\nX->Y: 1\nloop B\nX->Y: 2\nend\nX->Y: 3\nend\nloop C\nX->Y: 4".toList r i)
          0
          (parseMermaidSequence
            "loop A\nX->Y: 1\nloop B\nX->Y: 2\nend\nX->Y: 3\nend\nloop C\nX->Y: 4".toList).messages) ∧
    (∀ r ∈ (parseState
        "loop A\nX->Y: 1\nloop B\nX->Y: 2\nend\nX->Y: 3\nend\nloop C\nX->Y: 4".toList).loops,
      ownedBy
        (stacksAt
          "loop A\nX->Y: 1\nloop B\nX->Y: 2\nend\nX->Y: 3\nend\nloop C\nX->Y: 4".toList) r 3 =
        false) :=
  ⟨by decide, by decide, by decide,
   (loop_members_exact
     "loop A\nX->Y: 1\nloop B\nX->Y: 2\nend\nX->Y: 3\nend\nloop C\nX->Y: 4".toList).2.2.2.1 1 _
     (by decide),
   (loop_members_exact
     "loop A\nX->Y: 1\nloop B\nX->Y: 2\nend\nX->Y: 3\nend\nloop C\nX->Y: 4".toList).2.2.2.2.2 3 [2]
     (by decide) (by decide)⟩

/-! ### The argument limit of spread calls -/

theorem lines_replicate_member (n : Nat) :
    lines (joinLines (List.replicate n "A->B: x".toList)) =
      List.replicate n "A->B: x".toList := by
  induction n with
  | zero => exact lines_nil
  | succ n ih =>
    have h : lines "A->B: x".toList = ["A->B: x".toList] := by decide
    rw [List.replicate_succ, lines_joinLines_cons, ih, h]
    rfl

theorem lines_loopOfSize (n : Nat) :
    lines (loopOfSize n) =
      "loop L".toList :: (List.replicate n "A->B: x".toList ++ ["end".toList]) := by
  have h1 : lines "loop L".toList = ["loop L".toList] := by decide
  have h2 : lines (joinLines ["end".toList]) = ["end".toList] := by decide
  unfold loopOfSize
  rw [lines_joinLines_cons, lines_joinLines_append, lines_replicate_member, h1, h2]
  rfl

theorem processLine_insideLoop (k : Nat) :
    processLine (insideLoop k) "A->B: x".toList = insideLoop (k + 1) := by
  have h1 : startsWith "participant ".toList "A->B: x".toList = false := by decide
  have h2 : startsWith "Note ".toList "A->B: x".toList = false := by decide
  have h3 : startsWith "loop ".toList "A->B: x".toList = false := by decide
  have h4 : ¬ ("A->B: x".toList = "end".toList) := by decide
  have h5 : (includes "->>".toList "A->B: x".toList || includes "-->>".toList "A->B: x".toList ||
      includes "->".toList "A->B: x".toList || includes "-->".toList "A->B: x".toList) = true := by
    decide
  have h6 : matchMessage "A->B: x".toList =
      some { from_ := "A".toList, arrow := "->".toList, to_ := "B".toList, text := "x".toList } := by
    decide
  unfold processLine
  rw [h1, h2, h3, if_neg (by decide), if_neg (by decide), if_neg (by decide), if_neg h4,
    if_pos h5, h6]
  simp only [insideLoop, updateLoop, memberOfLoop, List.replicate_succ']
  rfl

theorem runLines_insideLoop (k j : Nat) :
    runLines (insideLoop k) (List.replicate j "A->B: x".toList) = insideLoop (k + j) := by
  induction j generalizing k with
  | zero => rfl
  | succ j ih =>
    rw [List.replicate_succ, runLines_cons, processLine_insideLoop, ih]
    congr 1
    omega

theorem parseState_loopOfSize (n : Nat) :
    parseState (loopOfSize n) =
      { participants := [], messages := List.replicate n memberOfLoop, notes := [], loops := [0],
        currentLoop := none, loopStack := [],
        heap := [{ text := "L".toList, messages := List.replicate n memberOfLoop,
                   startIndex := 0, endIndex := some ((n : Int) - 1) }] } := by
  have h0 : processLine ParseState.init "loop L".toList = insideLoop 0 := by decide
  have h1 : startsWith "participant ".toList "end".toList = false := by decide
  have h2 : startsWith "Note ".toList "end".toList = false := by decide
  have h3 : startsWith "loop ".toList "end".toList = false := by decide
  unfold parseState
  rw [lines_loopOfSize, runLines_cons, h0, runLines_append, runLines_insideLoop, Nat.zero_add]
  show processLine (insideLoop n) "end".toList = _
  unfold processLine
  rw [h1, h2, h3, if_neg (by decide), if_neg (by decide), if_neg (by decide), if_pos rfl]
  simp [insideLoop, updateLoop]

theorem loops_loopOfSize (n : Nat) :
    (parseMermaidSequence (loopOfSize n)).loops =
      [{ text := "L".toList, messages := List.replicate n memberOfLoop, startIndex := 0,
         endIndex := some ((n : Int) - 1) }] := by
  unfold parseMermaidSequence
  rw [parseState_loopOfSize]
  rfl

theorem convert_loopOfSize (clock : Clock) (maxArgs n : Nat) (h : maxArgs < n) :
    convertMermaidToDrawio clock maxArgs (loopOfSize n) = none := by
  have hs : (convertedCells maxArgs (loopOfSize n)).isSome = false := by
    rw [convertedCells_isSome, loops_loopOfSize]
    have hle : ((0 : Nat) : Int) ≤ (n : Int) - 1 := by omega
    have hlen : ¬ (List.replicate n memberOfLoop).length ≤ maxArgs := by
      rw [List.length_replicate]
      omega
    simp only [List.all_cons, List.all_nil, Bool.and_true, withinArgumentLimit]
    rw [if_pos hle]
    exact decide_eq_false hlen
  rw [convert_eq_map]
  cases hc : convertedCells maxArgs (loopOfSize n) with
  | none => rfl
  | some cells =>
    rw [hc] at hs
    cases hs

/-! ### Reading the cells back from the text -/

theorem stripLit_none_of_clash (pat s rest : Str) (h : clash pat s = true) :
    stripLit pat (s ++ rest) = none := by
  induction pat generalizing s with
  | nil => cases s <;> simp [clash] at h
  | cons p ps ih =>
    cases s with
    | nil => simp [clash] at h
    | cons c cs =>
      simp only [clash, Bool.or_eq_true, bne_iff_ne, ne_eq] at h
      show stripLit (p :: ps) (c :: (cs ++ rest)) = none
      unfold stripLit
      by_cases hpc : p = c
      · rw [if_pos hpc]
        rcases h with h | h
        · exact absurd hpc h
        · exact ih cs h
      · rw [if_neg hpc]

theorem clash_append (pat s rest : Str) (h : clash pat s = true) :
    clash pat (s ++ rest) = true := by
  induction pat generalizing s with
  | nil => cases s <;> simp [clash] at h
  | cons p ps ih =>
    cases s with
    | nil => simp [clash] at h
    | cons c cs =>
      simp only [clash, Bool.or_eq_true] at h
      show clash (p :: ps) (c :: (cs ++ rest)) = true
      simp only [clash, Bool.or_eq_true]
      rcases h with h | h
      · exact Or.inl h
      · exact Or.inr (ih cs h)

theorem readCells_inert (s rest : Str) (h : inert s = true) :
    readCells (s ++ rest) = readCells rest := by
  induction s with
  | nil => rfl
  | cons c cs ih =>
    simp only [inert, Bool.and_eq_true] at h
    show readCells (c :: (cs ++ rest)) = _
    have hnone : readCell (c :: (cs ++ rest)) = none := by
      unfold readCell
      have := stripLit_none_of_clash "<mxCell id=\"".toList (c :: cs) rest h.1
      rw [List.cons_append] at this
      rw [this]
    have step : readCells (c :: (cs ++ rest)) = readCells (cs ++ rest) := by
      rw [readCells, hnone]
    rw [step]
    exact ih h.2

theorem inert_append (a b : Str) (ha : inert a = true) (hb : inert b = true) :
    inert (a ++ b) = true := by
  induction a with
  | nil => exact hb
  | cons c cs ih =>
    simp only [inert, Bool.and_eq_true] at ha
    show inert (c :: (cs ++ b)) = true
    simp only [inert, Bool.and_eq_true]
    refine ⟨?_, ih ha.2⟩
    have := clash_append "<mxCell id=\"".toList (c :: cs) b ha.1
    rwa [List.cons_append] at this

theorem inert_of_noTagStart (s : Str) (h : noTagStart s = true) : inert s = true := by
  induction s with
  | nil => rfl
  | cons c cs ih =>
    simp only [noTagStart, List.all_cons, Bool.and_eq_true, bne_iff_ne, ne_eq] at h
    simp only [inert, Bool.and_eq_true]
    refine ⟨?_, ih (by simpa [noTagStart] using h.2)⟩
    show clash ('<' :: _) (c :: cs) = true
    simp only [clash, Bool.or_eq_true, bne_iff_ne, ne_eq]
    exact Or.inl (fun e => h.1 e.symm)

theorem noTagStart_of_isPlain (s : Str) (h : isPlain s = true) : noTagStart s = true := by
  unfold isPlain at h
  unfold noTagStart
  rw [List.all_eq_true] at h ⊢
  intro c hc
  have := h c hc
  simp only [Bool.and_eq_true] at this
  exact this.1

theorem takeWhile_quote (s rest : Str) (h : isPlain s = true) :
    (s ++ '"' :: rest).takeWhile (fun c => c != '"') = s := by
  induction s with
  | nil => simp
  | cons c cs ih =>
    simp only [isPlain, List.all_cons, Bool.and_eq_true] at h
    have hc : (c != '"') = true := h.1.2
    rw [List.cons_append, List.takeWhile_cons, hc, if_pos rfl]
    rw [ih (by simpa [isPlain] using h.2)]

theorem dropWhile_quote (s rest : Str) (h : isPlain s = true) :
    (s ++ '"' :: rest).dropWhile (fun c => c != '"') = '"' :: rest := by
  induction s with
  | nil => simp
  | cons c cs ih =>
    simp only [isPlain, List.all_cons, Bool.and_eq_true] at h
    have hc : (c != '"') = true := h.1.2
    rw [List.cons_append, List.dropWhile_cons, hc, if_pos rfl]
    exact ih (by simpa [isPlain] using h.2)

theorem noTagStart_natToStr (n : Nat) : noTagStart (natToStr n) = true := by
  unfold noTagStart
  rw [List.all_eq_true]
  intro c hc
  have hd := natToStr_isDigit n c hc
  simp only [bne_iff_ne, ne_eq]
  intro e
  rw [e] at hd
  exact absurd hd (by decide)

theorem isPlain_natToStr (n : Nat) : isPlain (natToStr n) = true := by
  unfold isPlain
  rw [List.all_eq_true]
  intro c hc
  have hd := natToStr_isDigit n c hc
  simp only [Bool.and_eq_true, bne_iff_ne, ne_eq]
  refine ⟨?_, ?_⟩
  · intro e
    rw [e] at hd
    exact absurd hd (by decide)
  · intro e
    rw [e] at hd
    exact absurd hd (by decide)

theorem noTagStart_append (a b : Str) (ha : noTagStart a = true) (hb : noTagStart b = true) :
    noTagStart (a ++ b) = true := by
  unfold noTagStart at ha hb ⊢
  rw [List.all_append, ha, hb]
  rfl

theorem isPlain_append (a b : Str) (ha : isPlain a = true) (hb : isPlain b = true) :
    isPlain (a ++ b) = true := by
  unfold isPlain at ha hb ⊢
  rw [List.all_append, ha, hb]
  rfl

theorem noTagStart_toStr (x : JsNum) : noTagStart x.toStr = true := by
  cases x with
  | num v =>
    show noTagStart (intToStr v) = true
    unfold intToStr
    split
    · exact noTagStart_append ['-'] _ (by decide) (noTagStart_natToStr _)
    · exact noTagStart_natToStr _
  | posInf => decide
  | negInf => decide
  | nan => decide

theorem inert_toStr (x : JsNum) : inert x.toStr = true :=
  inert_of_noTagStart _ (noTagStart_toStr x)

theorem inert_geometry (g : Geometry) : inert g.xml = true := by
  cases g with
  | none => decide
  | box x y width height =>
    unfold Geometry.xml
    exact inert_append _ _ (inert_append _ _ (inert_append _ _ (inert_append _ _ (inert_append _ _
      (inert_append _ _ (inert_append _ _ (inert_append _ _ (by decide) (inert_toStr x))
      (by decide)) (inert_toStr y)) (by decide)) (inert_toStr width)) (by decide))
      (inert_toStr height)) (by decide)
  | points sourceX sourceY targetX targetY =>
    unfold Geometry.xml
    exact inert_append _ _ (inert_append _ _ (inert_append _ _ (inert_append _ _ (inert_append _ _
      (inert_append _ _ (inert_append _ _ (inert_append _ _ (by decide) (inert_toStr sourceX))
      (by decide)) (inert_toStr sourceY)) (by decide)) (inert_toStr targetX)) (by decide))
      (inert_toStr targetY)) (by decide)

theorem inert_attributes (c : Cell) (h : isPlainCell c = true) : inert c.attributes = true := by
  unfold isPlainCell at h
  simp only [Bool.and_eq_true] at h
  obtain ⟨⟨⟨_, hv⟩, hs⟩, hp⟩ := h
  unfold Cell.attributes
  refine inert_append _ _ ?_ (inert_append _ _ ?_ (inert_append _ _ ?_ (inert_append _ _ ?_ ?_)))
  · cases hval : c.value with
    | none => rfl
    | some value =>
      rw [hval] at hv
      exact inert_append _ _ (by decide) (inert_append _ _
        (inert_of_noTagStart _ (noTagStart_of_isPlain _ hv)) (by decide))
  · cases hst : c.style with
    | none => rfl
    | some style =>
      rw [hst] at hs
      exact inert_append _ _ (by decide) (inert_append _ _ (inert_of_noTagStart _ hs) (by decide))
  · cases c.vertex <;> decide
  · cases c.edge <;> decide
  · cases hpa : c.parent with
    | none => rfl
    | some parent =>
      rw [hpa] at hp
      exact inert_append _ _ (by decide) (inert_append _ _ (inert_of_noTagStart _ hp) (by decide))

theorem stripLit_value_of_none (c : Cell) (rest : Str) (h : c.value = none) :
    stripLit " value=\"".toList (c.attributes ++ (c.geometry.xml ++ rest)) = none := by
  unfold Cell.attributes
  rw [h]
  cases c.style with
  | some style => rfl
  | none =>
    cases c.vertex with
    | true => rfl
    | false =>
      cases c.edge with
      | true => rfl
      | false =>
        cases c.parent with
        | some parent => rfl
        | none =>
          cases c.geometry with
          | none => rfl
          | box x y width height => rfl
          | points sourceX sourceY targetX targetY => rfl

theorem readCell_cell (c : Cell) (rest : Str) (h : isPlainCell c = true) :
    readCell ("<mxCell id=\"".toList ++ (c.id ++ ('"' :: (c.attributes ++ (c.geometry.xml ++ rest)))))
      = some (c.id, c.value) := by
  have hid : isPlain c.id = true := by
    unfold isPlainCell at h
    simp only [Bool.and_eq_true] at h
    exact h.1.1.1
  unfold readCell
  rw [stripLit_append]
  dsimp only
  rw [takeWhile_quote _ _ hid, dropWhile_quote _ _ hid]
  show (match stripLit " value=\"".toList (c.attributes ++ (c.geometry.xml ++ rest)) with
    | some more => some (c.id, some (more.takeWhile fun ch => ch != '"'))
    | none => some (c.id, none)) = _
  cases hval : c.value with
  | none => rw [stripLit_value_of_none c rest hval]
  | some value =>
    have hv : isPlain value = true := by
      unfold isPlainCell at h
      simp only [Bool.and_eq_true] at h
      have := h.1.1.2
      rw [hval] at this
      exact this
    have hattr : c.attributes ++ (c.geometry.xml ++ rest) =
        " value=\"".toList ++ (value ++ '"' :: ((match c.style with
          | some style => " style=\"".toList ++ (style ++ "\"".toList)
          | none => []) ++
         ((if c.vertex then " vertex=\"1\"".toList else []) ++
          ((if c.edge then " edge=\"1\"".toList else []) ++
           (match c.parent with
            | some parent => " parent=\"".toList ++ (parent ++ "\"".toList)
            | none => []))) ++ (c.geometry.xml ++ rest))) := by
      unfold Cell.attributes
      rw [hval]
      simp only [List.append_assoc, String.toList, List.cons_append, List.nil_append,
        List.singleton_append]
    rw [hattr, stripLit_append]
    dsimp only
    rw [takeWhile_quote _ _ hv]

theorem readCells_cell (c : Cell) (rest : Str) (h : isPlainCell c = true) :
    readCells (c.xml ++ rest) = (c.id, c.value) :: readCells rest := by
  have hid : isPlain c.id = true := by
    unfold isPlainCell at h
    simp only [Bool.and_eq_true] at h
    exact h.1.1.1
  have hxml : c.xml ++ rest = "\n        ".toList ++ ('<' :: ("mxCell id=\"".toList ++
      (c.id ++ ('"' :: (c.attributes ++ c.geometry.xml))) ++ rest)) := by
    unfold Cell.xml
    rfl
  have htail : inert ("mxCell id=\"".toList ++
      (c.id ++ ('"' :: (c.attributes ++ c.geometry.xml)))) = true :=
    inert_append _ _ (by decide) (inert_append _ _
      (inert_of_noTagStart _ (noTagStart_of_isPlain _ hid))
      (inert_append ['"'] _ (by decide) (inert_append _ _ (inert_attributes c h)
        (inert_geometry c.geometry))))
  have hread : readCell ('<' :: ("mxCell id=\"".toList ++
      (c.id ++ ('"' :: (c.attributes ++ c.geometry.xml))) ++ rest)) = some (c.id, c.value) := by
    have := readCell_cell c rest h
    have e : '<' :: ("mxCell id=\"".toList ++
        (c.id ++ ('"' :: (c.attributes ++ c.geometry.xml))) ++ rest) =
        "<mxCell id=\"".toList ++
          (c.id ++ ('"' :: (c.attributes ++ (c.geometry.xml ++ rest)))) := by
      simp only [List.append_assoc, String.toList, List.cons_append]
    rw [e]
    exact this
  rw [hxml, readCells_inert _ _ (by decide), readCells, hread, readCells_inert _ _ htail]

theorem readCells_cellsXml (cells : List Cell) (rest : Str)
    (h : cells.all isPlainCell = true) :
    readCells (cellsXml cells ++ rest) =
      cells.map (fun c => (c.id, c.value)) ++ readCells rest := by
  induction cells with
  | nil => rfl
  | cons c cs ih =>
    rw [List.all_cons, Bool.and_eq_true] at h
    show readCells (c.xml ++ cellsXml cs ++ rest) = _
    rw [List.append_assoc, readCells_cell c _ h.1, ih h.2]
    rfl

theorem noTagStart_padZero (width n : Nat) : noTagStart (padZero width n) = true := by
  unfold padZero
  apply noTagStart_append _ _ _ (noTagStart_natToStr n)
  unfold noTagStart
  rw [List.all_eq_true]
  intro c hc
  rw [List.eq_of_mem_replicate hc]
  rfl

theorem noTagStart_cons (c : Char) (s : Str) (hc : (c != '<') = true)
    (h : noTagStart s = true) : noTagStart (c :: s) = true := by
  unfold noTagStart at h ⊢
  rw [List.all_cons, hc, h]
  rfl

theorem noTagStart_toISOString (clock : Clock) : noTagStart clock.toISOString = true := by
  unfold Clock.toISOString
  refine noTagStart_append _ ['Z'] (noTagStart_append _ _ (noTagStart_append _ _
    (noTagStart_append _ _ (noTagStart_append _ _ (noTagStart_append _ _
      (noTagStart_append _ _ ?_
        (noTagStart_cons _ _ (by decide) (noTagStart_padZero _ _)))
      (noTagStart_cons _ _ (by decide) (noTagStart_padZero _ _)))
      (noTagStart_cons _ _ (by decide) (noTagStart_padZero _ _)))
      (noTagStart_cons _ _ (by decide) (noTagStart_padZero _ _)))
      (noTagStart_cons _ _ (by decide) (noTagStart_padZero _ _)))
      (noTagStart_cons _ _ (by decide) (noTagStart_padZero _ _))) (by decide)
  split
  · exact noTagStart_padZero _ _
  · exact noTagStart_cons _ _ (by decide) (noTagStart_padZero _ _)

theorem inert_xmlHeader (clock : Clock) : inert (xmlHeader clock) = true := by
  unfold xmlHeader
  exact inert_append _ _ (inert_append _ _ (inert_append _ _ (inert_append _ _ (by decide)
    (inert_of_noTagStart _ (noTagStart_toISOString clock))) (by decide))
    (inert_of_noTagStart _ (noTagStart_natToStr _))) (by decide)

theorem readCells_documentXml (clock : Clock) (cells : List Cell)
    (h : cells.all isPlainCell = true) :
    readCells (documentXml clock cells) = cells.map (fun c => (c.id, c.value)) := by
  unfold documentXml
  rw [List.append_assoc, readCells_inert _ _ (inert_xmlHeader clock),
    readCells_cellsXml cells _ h]
  have hfoot : readCells xmlFooter = [] := by
    have := readCells_inert xmlFooter [] (by decide)
    rw [List.append_nil] at this
    exact this
  rw [hfoot, List.append_nil]

theorem renderParticipants_plain (ps : List Participant) (x : Int)
    (h : ∀ p ∈ ps, isPlain p.id = true ∧ isPlain p.label = true) :
    (renderParticipants ps x).all isPlainCell = true := by
  induction ps generalizing x with
  | nil => rfl
  | cons p ps ih =>
    obtain ⟨hid, hlabel⟩ := h p (by simp)
    have hrest := ih (x + spacing) (fun q hq => h q (List.mem_cons_of_mem _ hq))
    have hlife : isPlain (p.id ++ "_lifeline".toList) = true :=
      isPlain_append _ _ hid (by decide)
    have h1 : noTagStart participantStyle = true := by decide
    have h2 : noTagStart lifelineStyle = true := by decide
    have h3 : noTagStart "1".toList = true := by decide
    unfold renderParticipants participantCells
    rw [List.all_append, hrest]
    simp only [List.all_cons, List.all_nil, isPlainCell, hid, hlabel, hlife, h1, h2, h3]
    rfl

theorem renderMessages_plain (ps : List Participant) (msgs : List Message) (i : Nat) (y : Int)
    (h : ∀ m ∈ msgs, isPlain m.text = true ∧ noTagStart m.style = true) :
    (renderMessages ps msgs i y).1.all isPlainCell = true := by
  induction msgs generalizing i y with
  | nil => rfl
  | cons m msgs ih =>
    obtain ⟨htext, hstyle⟩ := h m (by simp)
    have hrest := fun i y => ih i y (fun q hq => h q (List.mem_cons_of_mem _ hq))
    have hid : isPlain ("msg".toList ++ natToStr (i + 2)) = true :=
      isPlain_append _ _ (by decide) (isPlain_natToStr _)
    have h3 : noTagStart "1".toList = true := by decide
    unfold renderMessages
    dsimp only
    split
    · simp only [List.all_cons, isPlainCell, hid, htext, hstyle, h3, hrest]
      rfl
    · exact hrest _ _

theorem renderLoops_plain {maxArgs : Nat} (ps : List Participant) (msgs : List Message) (loops : List Loop)
    (i : Nat) (cells : List Cell) (hc : renderLoops maxArgs ps msgs loops i = some cells)
    (h : ∀ L ∈ loops, isPlain L.text = true) :
    cells.all isPlainCell = true := by
  induction loops generalizing i cells with
  | nil =>
    simp only [renderLoops, Option.some.injEq] at hc
    subst hc
    rfl
  | cons L loops ih =>
    have htext := h L (by simp)
    unfold renderLoops at hc
    split at hc
    · cases hc
    · next cs hcs =>
      split at hc
      · cases hc
      · next more hmore =>
        cases hc
        rw [List.all_append, ih (i + 1) more hmore (fun q hq => h q (List.mem_cons_of_mem _ hq)),
          Bool.and_true]
        have hid : isPlain ("loop".toList ++ natToStr i) = true :=
          isPlain_append _ _ (by decide) (isPlain_natToStr _)
        have h1 : noTagStart loopStyle = true := by decide
        have h3 : noTagStart "1".toList = true := by decide
        unfold renderLoop at hcs
        split at hcs
        · cases hcs
          rfl
        · split at hcs
          · dsimp only at hcs
            split at hcs
            · split at hcs
              · cases hcs
                simp only [List.all_cons, List.all_nil, isPlainCell, hid, htext, h1, h3]
                rfl
              · cases hcs
            · cases hcs
          · cases hcs
            rfl

theorem renderNotes_plain (ps : List Participant) (notes : List Note) (i : Nat) (y : Int)
    (h : ∀ n ∈ notes, isPlain n.text = true) :
    (renderNotes ps notes i y).all isPlainCell = true := by
  induction notes generalizing i y with
  | nil => rfl
  | cons n notes ih =>
    have htext := h n (by simp)
    have hrest := fun i y => ih i y (fun q hq => h q (List.mem_cons_of_mem _ hq))
    have hid : isPlain ("note".toList ++ natToStr i) = true :=
      isPlain_append _ _ (by decide) (isPlain_natToStr _)
    have h1 : noTagStart noteStyle = true := by decide
    have h3 : noTagStart "1".toList = true := by decide
    unfold renderNotes
    split
    · simp only [List.all_cons, isPlainCell, hid, htext, h1, h3, hrest]
      rfl
    · exact hrest _ _

theorem documentCells_plain {maxArgs : Nat} (ps : List Participant) (msgs : List Message) (notes : List Note)
    (loops : List Loop) (cells : List Cell)
    (hc : documentCells maxArgs ps msgs notes loops = some cells)
    (hp : ∀ p ∈ ps, isPlain p.id = true ∧ isPlain p.label = true)
    (hm : ∀ m ∈ msgs, isPlain m.text = true ∧ noTagStart m.style = true)
    (hn : ∀ n ∈ notes, isPlain n.text = true)
    (hl : ∀ L ∈ loops, isPlain L.text = true) :
    cells.all isPlainCell = true := by
  obtain ⟨loopPart, hloop, rfl⟩ := documentCells_eq ps msgs notes loops cells hc
  rw [List.all_append, List.all_append, List.all_append, List.all_append,
    renderParticipants_plain ps 80 hp, renderMessages_plain ps msgs 0 110 hm,
    renderLoops_plain ps msgs loops 0 loopPart hloop hl, renderNotes_plain ps notes 0 _ hn]
  decide

theorem starThen_capture {α : Type} (p : Char → Bool) (k : Str → Str → Option α) (s : Str) :
    ∀ (acc : Str) (v : α), starThen p k acc s = some v → (∀ c ∈ acc, p c = true) →
      ∃ w rest, (∀ c ∈ w, p c = true) ∧ k w rest = some v := by
  induction s with
  | nil =>
    intro acc v h hacc
    exact ⟨acc, [], hacc, h⟩
  | cons c cs ih =>
    intro acc v h hacc
    unfold starThen at h
    by_cases hc : p c = true
    · rw [if_pos hc] at h
      cases hr : starThen p k (acc ++ [c]) cs with
      | none =>
        rw [hr] at h
        exact ⟨acc, c :: cs, hacc, h⟩
      | some r =>
        rw [hr] at h
        cases h
        apply ih (acc ++ [c]) _ hr
        intro d hd
        rcases List.mem_append.mp hd with hd | hd
        · exact hacc d hd
        · rw [List.mem_singleton] at hd
          rw [hd]
          exact hc
    · rw [if_neg hc] at h
      exact ⟨acc, c :: cs, hacc, h⟩

theorem plusThen_capture {α : Type} (p : Char → Bool) (k : Str → Str → Option α) (s : Str)
    (v : α) (h : plusThen p k s = some v) :
    ∃ w rest, (∀ c ∈ w, p c = true) ∧ k w rest = some v := by
  cases s with
  | nil => cases h
  | cons c cs =>
    have h' : (if p c = true then starThen p k [c] cs else none) = some v := h
    by_cases hc : p c = true
    · rw [if_pos hc] at h'
      apply starThen_capture p k cs [c] v h'
      intro d hd
      rw [List.mem_singleton] at hd
      rw [hd]
      exact hc
    · rw [if_neg hc] at h'
      cases h'

theorem search_capture {α : Type} (m : Str → Option α) (s : Str) (v : α)
    (h : search m s = some v) : ∃ t, m t = some v := by
  induction s with
  | nil => exact ⟨[], h⟩
  | cons c cs ih =>
    unfold search at h
    cases hm : m (c :: cs) with
    | none =>
      rw [hm] at h
      exact ih h
    | some r =>
      rw [hm] at h
      cases h
      exact ⟨c :: cs, hm⟩

theorem participantAt_id (s : Str) (p : Participant) (h : participantAt s = some p) :
    ∀ c ∈ p.id, isWordChar c = true := by
  unfold participantAt litThen at h
  split at h
  · next rest _ =>
    obtain ⟨w, rest2, hw, hk⟩ := plusThen_capture _ _ _ _ h
    split at hk
    · next rest3 _ =>
      obtain ⟨label, rest4, _, hk2⟩ := plusThen_capture _ _ _ _ hk
      cases hk2
      exact hw
    · cases hk
  · cases h

theorem isPlain_of_isWordChar (s : Str) (h : ∀ c ∈ s, isWordChar c = true) :
    isPlain s = true := by
  unfold isPlain
  rw [List.all_eq_true]
  intro c hc
  have hw := h c hc
  simp only [Bool.and_eq_true, bne_iff_ne, ne_eq]
  refine ⟨?_, ?_⟩
  · intro e
    rw [e] at hw
    exact absurd hw (by decide)
  · intro e
    rw [e] at hw
    exact absurd hw (by decide)

theorem parsed_participant_ids_plain (mermaidCode : Str) :
    ∀ p ∈ (parseMermaidSequence mermaidCode).participants, isPlain p.id = true := by
  intro p hp
  rw [participants_eq_declarations] at hp
  unfold declarations at hp
  obtain ⟨line, _, hline⟩ := List.mem_filterMap.mp hp
  unfold declaredParticipant at hline
  split at hline
  · obtain ⟨t, ht⟩ := search_capture _ _ _ hline
    exact isPlain_of_isWordChar _ (participantAt_id t p ht)
  · cases hline

theorem noTagStart_arrowStyle (arrow : Str) : noTagStart (arrowStyle arrow) = true := by
  unfold arrowStyle
  dsimp only
  split
  · decide
  · split
    · decide
    · split
      · decide
      · split
        · decide
        · decide

theorem parsed_message_styles_noTagStart (mermaidCode : Str) :
    ∀ m ∈ (parseMermaidSequence mermaidCode).messages, noTagStart m.style = true := by
  intro m hm
  obtain ⟨a, ha⟩ := runLines_message_styles ParseState.init (lines mermaidCode)
    (by intro m hm; cases hm) m hm
  rw [ha]
  exact noTagStart_arrowStyle a

theorem convertedCells_plain {maxArgs : Nat} (mermaidCode : Str) (cells : List Cell)
    (hc : convertedCells maxArgs mermaidCode = some cells)
    (h : plainTexts (parseMermaidSequence mermaidCode) = true) :
    cells.all isPlainCell = true := by
  unfold plainTexts at h
  simp only [Bool.and_eq_true, List.all_eq_true] at h
  obtain ⟨⟨⟨hp, hm⟩, hn⟩, hl⟩ := h
  exact documentCells_plain _ _ _ _ cells hc
    (fun p hpm => ⟨parsed_participant_ids_plain mermaidCode p hpm, hp p hpm⟩)
    (fun m hmm => ⟨hm m hmm, parsed_message_styles_noTagStart mermaidCode m hmm⟩)
    hn hl

/-- C13 (as the code has it): labels and texts are copied into the document
unescaped, and participant boxes and lifelines take their ids from the input
without any check.  When no label and no text of the parsed model has a `<` or a
`"`, the cells a reader finds in the returned string are exactly the cells
written, id by id and value by value; when moreover the ids of the parsed
participants are pairwise distinct, none of them has a generated form (`0`, `1`,
or `msg`, `loop`, `note` followed by a number) and none is the id of a
participant followed by `_lifeline`, the ids of all cells of the document are
pairwise distinct. -/
theorem cell_ids_distinct (clock : Clock) (maxArgs : Nat) (mermaidCode document : Str)
    (hconv : convertMermaidToDrawio clock maxArgs mermaidCode = some document)
    (h1 : ((parseMermaidSequence mermaidCode).participants.map Participant.id).Nodup)
    (h2 : ∀ p ∈ (parseMermaidSequence mermaidCode).participants, isGeneratedId p.id = false)
    (h3 : ∀ p ∈ (parseMermaidSequence mermaidCode).participants,
      ∀ q ∈ (parseMermaidSequence mermaidCode).participants,
        p.id ≠ q.id ++ "_lifeline".toList)
    (h4 : plainTexts (parseMermaidSequence mermaidCode) = true) :
    (∃ cells, convertedCells maxArgs mermaidCode = some cells ∧
      document = documentXml clock cells ∧
      readCells document = cells.map (fun c => (c.id, c.value))) ∧
    (cellIds document).Nodup := by
  rw [convert_eq_map] at hconv
  cases hc : convertedCells maxArgs mermaidCode with
  | none =>
    rw [hc] at hconv
    cases hconv
  | some cells =>
    rw [hc] at hconv
    have hdoc : document = documentXml clock cells := by
      cases hconv
      rfl
    have hread : readCells document = cells.map (fun c => (c.id, c.value)) := by
      rw [hdoc]
      exact readCells_documentXml clock cells (convertedCells_plain mermaidCode cells hc h4)
    refine ⟨⟨cells, rfl, hdoc, hread⟩, ?_⟩
    unfold cellIds
    rw [hread, List.map_map]
    exact documentCells_ids_nodup _ _ _ _ cells hc h1 h2 h3

/-- Witness for C13: two participants, two messages, a loop and a note. -/
theorem cell_ids_distinct_witness :
    ((parseMermaidSequence
        "participant A as Alice\nparticipant msg as Bus\nloop L\nA->>msg: 1\nmsg-->>A: 2\nend\nNote over A: n".toList).participants.map
      Participant.id).Nodup ∧
    (∀ p ∈ (parseMermaidSequence
        "participant A as Alice\nparticipant msg as Bus\nloop L\nA->>msg: 1\nmsg-->>A: 2\nend\nNote over A: n".toList).participants,
      isGeneratedId p.id = false) ∧
    plainTexts (parseMermaidSequence
        "participant A as Alice\nparticipant msg as Bus\nloop L\nA->>msg: 1\nmsg-->>A: 2\nend\nNote over A: n".toList) =
      true ∧
    (cellIds ((convertMermaidToDrawio sampleClock 100000
        "participant A as Alice\nparticipant msg as Bus\nloop L\nA->>msg: 1\nmsg-->>A: 2\nend\nNote over A: n".toList).getD
          [])).Nodup :=
  ⟨by decide, by decide, by decide,
   (cell_ids_distinct sampleClock 100000
     "participant A as Alice\nparticipant msg as Bus\nloop L\nA->>msg: 1\nmsg-->>A: 2\nend\nNote over A: n".toList
     _ (eq_some_getD_of_isSome _ [] (by decide)) (by decide) (by decide) (by decide)
     (by decide)).2⟩

set_option maxRecDepth 100000 in
/-- Counterexample to C13 as stated, on the returned string: a participant
declared twice gives two boxes with the id `A` and two lifelines with the id
`A_lifeline`; a participant named `msg2` shares its id with the first message
edge; and a message text that closes its attribute and its element writes a cell
of its own, with the id `A` of the participant, although the parsed participant
ids are distinct and not of a generated form. -/
theorem cell_ids_collide :
    (convertMermaidToDrawio sampleClock 100000
        "participant A as Alice\nparticipant A as Ann".toList).map cellIds =
      some ["0".toList, "1".toList, "A".toList, "A_lifeline".toList, "A".toList,
            "A_lifeline".toList] ∧
    (convertMermaidToDrawio sampleClock 100000
        "participant msg2 as Bus\nmsg2->>msg2: hi".toList).map cellIds =
      some ["0".toList, "1".toList, "msg2".toList, "msg2_lifeline".toList, "msg2".toList] ∧
    (parseMermaidSequence
        "participant A as Alice\nA->>A: x\" edge=\"1\" parent=\"1\"/><mxCell id=\"A\" value=\"dup".toList).participants.map
      Participant.id = ["A".toList] ∧
    isGeneratedId "A".toList = false ∧
    (convertedCells 100000
        "participant A as Alice\nA->>A: x\" edge=\"1\" parent=\"1\"/><mxCell id=\"A\" value=\"dup".toList).map
      (fun cells => cells.map Cell.id) =
      some ["0".toList, "1".toList, "A".toList, "A_lifeline".toList, "msg2".toList] ∧
    (convertMermaidToDrawio sampleClock 100000
        "participant A as Alice\nA->>A: x\" edge=\"1\" parent=\"1\"/><mxCell id=\"A\" value=\"dup".toList).map
      readCells =
      some [("0".toList, none), ("1".toList, none), ("A".toList, some "Alice".toList),
            ("A_lifeline".toList, none), ("msg2".toList, some "x".toList),
            ("A".toList, some "dup".toList)] ∧
    ¬ (["0".toList, "1".toList, "A".toList, "A_lifeline".toList, "A".toList,
        "A_lifeline".toList] : List Str).Nodup ∧
    ¬ (["0".toList, "1".toList, "msg2".toList, "msg2_lifeline".toList, "msg2".toList] :
        List Str).Nodup ∧
    ¬ (["0".toList, "1".toList, "A".toList, "A_lifeline".toList, "msg2".toList, "A".toList] :
        List Str).Nodup := by
  refine ⟨by decide, by decide, by decide, by decide, by decide, by decide, by decide, by decide,
    by decide⟩

/-- Witness for C6: a loop around the second and third of four messages.  An
engine that accepts 100000 arguments returns the document and one that accepts a
single argument raises; the ends of the loop range exist. -/
theorem convert_never_raises_witness :
    (convertMermaidToDrawio sampleClock 100000
        "A->>B: 1\nloop Retry\nA->>B: 2\nB-->>A: 3\nend\nB->>A: 4".toList).isSome = true ∧
    (convertMermaidToDrawio sampleClock 1
        "A->>B: 1\nloop Retry\nA->>B: 2\nB-->>A: 3\nend\nB->>A: 4".toList).isSome = false ∧
    ({ text := "Retry".toList,
       messages := [{ from_ := "A".toList, to_ := "B".toList, text := "2".toList,
                      style := "html=1;verticalAlign=bottom;endArrow=block;curved=0;rounded=0;".toList },
                    { from_ := "B".toList, to_ := "A".toList, text := "3".toList,
                      style := "html=1;verticalAlign=bottom;endArrow=open;curved=0;rounded=0;dashed=1;".toList }],
       startIndex := 1, endIndex := some 2 } : Loop) ∈
      (parseMermaidSequence
        "A->>B: 1\nloop Retry\nA->>B: 2\nB-->>A: 3\nend\nB->>A: 4".toList).loops ∧
    ((parseMermaidSequence
        "A->>B: 1\nloop Retry\nA->>B: 2\nB-->>A: 3\nend\nB->>A: 4".toList).messages[1]?).isSome ∧
    ((parseMermaidSequence
        "A->>B: 1\nloop Retry\nA->>B: 2\nB-->>A: 3\nend\nB->>A: 4".toList).messages[2]?).isSome :=
  ⟨(convert_never_raises sampleClock 100000
      "A->>B: 1\nloop Retry\nA->>B: 2\nB-->>A: 3\nend\nB->>A: 4".toList).1.trans (by decide),
   (convert_never_raises sampleClock 1
      "A->>B: 1\nloop Retry\nA->>B: 2\nB-->>A: 3\nend\nB->>A: 4".toList).1.trans (by decide),
   by decide,
   (convert_never_raises sampleClock 100000
      "A->>B: 1\nloop Retry\nA->>B: 2\nB-->>A: 3\nend\nB->>A: 4".toList).2
     { text := "Retry".toList,
       messages := [{ from_ := "A".toList, to_ := "B".toList, text := "2".toList,
                      style := "html=1;verticalAlign=bottom;endArrow=block;curved=0;rounded=0;".toList },
                    { from_ := "B".toList, to_ := "A".toList, text := "3".toList,
                      style := "html=1;verticalAlign=bottom;endArrow=open;curved=0;rounded=0;dashed=1;".toList }],
       startIndex := 1, endIndex := some 2 } (by decide) 2 rfl (by decide)⟩

/-- Counterexample to C6 as stated: the text `loopOfSize 130000`, a loop with
130000 member messages (`loopOfSize 2` is shown in full).  The parser accepts it,
and on every engine that accepts fewer than 130000 arguments in one call the
conversion raises instead of returning a document. -/
theorem spread_limit_exceeded :
    loopOfSize 2 = "loop L\nA->B: x\nA->B: x\nend".toList ∧
    (parseMermaidSequence (loopOfSize 130000)).loops =
      [{ text := "L".toList, messages := List.replicate 130000 memberOfLoop, startIndex := 0,
         endIndex := some 129999 }] ∧
    ∀ (clock : Clock) (maxArgs : Nat), maxArgs < 130000 →
      convertMermaidToDrawio clock maxArgs (loopOfSize 130000) = none :=
  ⟨by decide, loops_loopOfSize 130000,
   fun clock maxArgs h => convert_loopOfSize clock maxArgs 130000 h⟩

end Converter
